import Mathlib

/-!
tinystl: growable buffer and small-string-optimised string.

A shallow embedding of `include/TINYSTL/buffer.h` and `include/TINYSTL/string.h`.

Memory model.  The C++ code manipulates raw pointers, and the string decides between its two storage
modes by comparing `m_buffer.first` with the address of its own `m_small` array.  The
embedding therefore keeps an explicit memory:

* memory is a list of blocks; a block is either live (a list of cells) or released;
* a pointer is a block number and an offset inside the block;
* reading or writing outside a live block is undefined behaviour in C++ and is `none` here;
* `TINYSTL_ALLOCATOR` (`allocator.h` is not part of the sources) is taken as a parameter:
  the field `junk` of the memory says what a freshly allocated block holds.

Sizes.  Sizes and offsets are natural numbers, where the source computes in the 64-bit
`size_t`.  The two agree as long as no expression exceeds `SIZE_MAX`, which is the case
whenever the sizes are those of data that exists in memory; the theorems on `resize`, on
`reserve`, on `buffer_insert_spread` and on the header invariant, where a size argument is
free, state the range of the argument in which the arithmetic of the source is exact (see
the section on the size arithmetic of the source).

Element lifetime (constructor and destructor calls of non-trivial element types) is not
modelled: a cell holds a value, `move(*dest, *it)` and `*dest = *it` both store the value of
the source cell in the destination cell, destroying a range does not change any cell.
-/

namespace tinystl

/-! ## Pointers and memory -/

/-- A pointer: block number and offset (in elements) inside the block. -/
structure Ptr where
  blk : Nat
  off : Nat
deriving DecidableEq, Repr

/-- The null pointer.  Block `0` is never handed out by `Mem.empty`. -/
def nullptr : Ptr := ⟨0, 0⟩

/-- Pointer arithmetic `p + n`. -/
def Ptr.add (p : Ptr) (n : Nat) : Ptr := ⟨p.blk, p.off + n⟩

/-- Pointer arithmetic `p - n`; leaving the block downwards is undefined behaviour. -/
def Ptr.sub (p : Ptr) (n : Nat) : Option Ptr :=
  if n ≤ p.off then some ⟨p.blk, p.off - n⟩ else none

/-- Memory: the blocks allocated so far (`none` once released) and the content the
allocator leaves in fresh storage. -/
structure Mem (α : Type) where
  blocks : List (Option (List α))
  junk : Nat → Nat → α

namespace Mem

variable {α : Type}

/-- Memory with no object in it; block `0` is reserved for the null pointer. -/
def empty (junk : Nat → Nat → α) : Mem α := ⟨[none], junk⟩

/-- Number of the next block the allocator will hand out. -/
def next (m : Mem α) : Nat := m.blocks.length

/-- The cells of block `k`, when it is live. -/
def block (m : Mem α) (k : Nat) : Option (List α) :=
  match m.blocks[k]? with
  | some (some cells) => some cells
  | _ => none

/-- Evaluation of `*p`. -/
def read (m : Mem α) (p : Ptr) : Option α :=
  match m.block p.blk with
  | some cells => cells[p.off]?
  | none => none

/-- Evaluation of `*p = v`. -/
def write (m : Mem α) (p : Ptr) (v : α) : Option (Mem α) :=
  match m.block p.blk with
  | some cells =>
    if p.off < cells.length then
      some { m with blocks := m.blocks.set p.blk (some (cells.set p.off v)) }
    else none
  | none => none

/-- Modelled from the spec: `allocator.h` is not part of the sources; the allocation
capability `allocate(byte_count) -> raw_storage` returns storage of at least the requested
size and promises nothing about its content.  `Alloc::static_allocate(sizeof(T) * n)` is a
fresh block of `n` cells holding whatever `junk` says the allocator left there. -/
def alloc (m : Mem α) (n : Nat) : Ptr × Mem α :=
  (⟨m.next, 0⟩, { m with blocks := m.blocks ++ [some ((List.range n).map (m.junk m.next))] })

/-- An object with automatic or member storage of `n` cells (used for `m_small`). -/
def newObject (m : Mem α) (cells : List α) : Nat × Mem α :=
  (m.next, { m with blocks := m.blocks ++ [some cells] })

/-- Modelled from the spec: `allocator.h` is not part of the sources; the capability
`deallocate(raw_storage, byte_count) -> void` releases storage obtained from `allocate`.
`Alloc::static_deallocate(p, bytes)` releases the block `p` points at the start of, whatever
`bytes` says.  Releasing the null pointer does nothing; anything else that is not the start
of a live block is undefined behaviour. -/
def free (m : Mem α) (p : Ptr) : Option (Mem α) :=
  if p = nullptr then some m
  else
    match m.block p.blk with
    | some _ => if p.off = 0 then some { m with blocks := m.blocks.set p.blk none } else none
    | none => none

/-- The number of cells of block `k`, when it is live. -/
def blockSize (m : Mem α) (k : Nat) : Option Nat :=
  match m.block k with
  | some cells => some cells.length
  | none => none

/-- The values of the `n` cells starting at `p`, when all of them can be read. -/
def readRange (m : Mem α) (p : Ptr) : Nat → Option (List α)
  | 0 => some []
  | n + 1 =>
    match m.read p, readRange m (p.add 1) n with
    | some v, some vs => some (v :: vs)
    | _, _ => none

end Mem

/-! ## `buffer.h` -/

/-- The header `struct buffer { T* first; T* last; T* capacity; }`. -/
structure buffer where
  first : Ptr := nullptr
  last : Ptr := nullptr
  capacity : Ptr := nullptr
deriving DecidableEq, Repr

/-- The value of `last - first` for two pointers into one block with `first <= last`;
the loops `for (; first != last; ++first)` run that many times.  With `last` behind `first`
or in another block the C++ loop runs off the block, which is undefined behaviour. -/
def ptrDiff (last first : Ptr) : Option Nat :=
  if first.blk = last.blk ∧ first.off ≤ last.off then some (last.off - first.off) else none

/-- The value of `(size_t)(b.last - b.first)`. -/
def buffer.size (b : buffer) : Nat := b.last.off - b.first.off

/-- The value of `(size_t)(b.capacity - b.first)`. -/
def buffer.cap (b : buffer) : Nat := b.capacity.off - b.first.off

variable {α : Type}

/-- Body of `for (; first < last; ++first) *first = value;` run `n` times. -/
def fill_loop : Nat → Ptr → α → Mem α → Option (Mem α)
  | 0, _, _, m => some m
  | n + 1, p, v, m =>
    match m.write p v with
    | some m1 => fill_loop n (p.add 1) v m1
    | none => none

/-- Models `buffer_fill_urange(first, last, value)` for trivially copyable `T`: the loop condition
is `first < last`, so nothing is written when `last` is not after `first`. -/
def buffer_fill_urange (m : Mem α) (first last : Ptr) (value : α) : Option (Mem α) :=
  fill_loop (last.off - first.off) first value m

/-- Body of `for (; first != last; ++first, ++dest) *dest = *first;` run `n` times. -/
def copy_loop : Nat → Ptr → Ptr → Mem α → Option (Mem α)
  | 0, _, _, m => some m
  | n + 1, dest, first, m =>
    match m.read first with
    | some v =>
      match m.write dest v with
      | some m1 => copy_loop n (dest.add 1) (first.add 1) m1
      | none => none
    | none => none

/-- Models `buffer_copy_urange(dest, first, last)` for trivially copyable `T`. -/
def buffer_copy_urange (m : Mem α) (dest first last : Ptr) : Option (Mem α) :=
  match ptrDiff last first with
  | some n => copy_loop n dest first m
  | none => none

/-- Models `buffer_move_urange(dest, first, last)`: the same forward loop. -/
def buffer_move_urange (m : Mem α) (dest first last : Ptr) : Option (Mem α) :=
  match ptrDiff last first with
  | some n => copy_loop n dest first m
  | none => none

/-- Body of `for (T* it = last; it != first; --it, --dest) *(dest - 1) = *(it - 1);` with `n`
elements left to move: the element at index `n - 1` of the source goes first. -/
def bmove_loop : Nat → Ptr → Ptr → Mem α → Option (Mem α)
  | 0, _, _, m => some m
  | n + 1, dest, first, m =>
    match m.read (first.add n) with
    | some v =>
      match m.write (dest.add n) v with
      | some m1 => bmove_loop n dest first m1
      | none => none
    | none => none

/-- Models `buffer_bmove_urange(dest, first, last)`: `dest += last - first`, then the backward loop. -/
def buffer_bmove_urange (m : Mem α) (dest first last : Ptr) : Option (Mem α) :=
  match ptrDiff last first with
  | some n => bmove_loop n dest first m
  | none => none

/-- Models `buffer_alloc(b, count)` for trivially copyable `T`; `dflt` is the value `T()` that
`buffer_fill_urange(first, last)` stores in every cell.  The header the function leaves in
`b` is returned. -/
def buffer_alloc (m : Mem α) (count : Nat) (dflt : α) : Option (Mem α × buffer) :=
  let (first, m1) := m.alloc count
  let b : buffer := { first := first, last := first.add count, capacity := first.add count }
  match buffer_fill_urange m1 b.first (b.first.add count) dflt with
  | none => none
  | some m2 => some (m2, b)

/-- Models `buffer_realloc(b, capacity, padding, nodealloc)`. -/
def buffer_realloc (m : Mem α) (b : buffer) (capacity padding : Nat) (nodealloc : Bool) :
    Option (Mem α × buffer) :=
  let size := b.size
  let (first, m1) := m.alloc (capacity + padding)
  match buffer_move_urange m1 first b.first b.last with
  | none => none
  | some m2 =>
    match (if nodealloc then some m2 else m2.free b.first) with
    | none => none
    | some m3 => some (m3, { first := first, last := first.add size, capacity := first.add capacity })

/-- Models `buffer_reserve(b, capacity, padding, nodealloc)`.  The sum
`b.first + capacity + padding` is formed over the naturals: it is the value the source
computes as long as the sum stays in the address space, which a request of at most
`ptrdiff_max` bytes ensures; the theorems about a call with a free `capacity` ask for that
bound. -/
def buffer_reserve (m : Mem α) (b : buffer) (capacity padding : Nat) (nodealloc : Bool) :
    Option (Mem α × buffer) :=
  if b.first.off + capacity + padding ≤ b.capacity.off then some (m, b)
  else buffer_realloc m b capacity padding nodealloc

/-- Models `buffer_grow(b, size, padding, nodealloc)`.  The new capacity `(size * 3) / 2` is
computed over the naturals: it is the value of the `size_t` expression of the source as
long as `size * 3` is at most `size_max`; the theorems about a call with a free `size` ask
for that bound. -/
def buffer_grow (m : Mem α) (b : buffer) (size padding : Nat) (nodealloc : Bool) :
    Option (Mem α × buffer) :=
  if b.first.off + size > b.capacity.off then
    buffer_realloc m b ((size * 3) / 2) padding nodealloc
  else some (m, b)

/-- Models `buffer_grow_count(b, count, padding, nodealloc)`.  The new capacity
`((b.last - b.first + count) * 3) / 2` is computed over the naturals: it is the value of the
`size_t` expression of the source as long as the product is at most `size_max`; the
theorems about a call with a free `count` ask for that bound. -/
def buffer_grow_count (m : Mem α) (b : buffer) (count padding : Nat) (nodealloc : Bool) :
    Option (Mem α × buffer) :=
  if b.last.off + count > b.capacity.off then
    buffer_realloc m b (((b.size + count) * 3) / 2) padding nodealloc
  else some (m, b)

/-- Models `buffer_resize(b, size)` and `buffer_resize(b, size, value)` for trivially copyable
`T`; `value` is `T()` for the first overload. -/
def buffer_resize (m : Mem α) (b : buffer) (size : Nat) (value : α) : Option (Mem α × buffer) :=
  match buffer_reserve m b size 0 false with
  | none => none
  | some (m1, b1) =>
    match buffer_fill_urange m1 b1.last (b1.first.add size) value with
    | none => none
    | some m2 => some (m2, { b1 with last := b1.first.add size })

/-- Models `buffer_shrink_to_fit(b, padding)`. -/
def buffer_shrink_to_fit (m : Mem α) (b : buffer) (padding : Nat) : Option (Mem α × buffer) :=
  if b.capacity ≠ b.last then
    if b.last = b.first then
      match m.free b.first with
      | none => none
      | some m1 => some (m1, { first := nullptr, last := nullptr, capacity := nullptr })
    else
      let size := b.size
      let (newfirst, m1) := m.alloc (size + padding)
      match buffer_move_urange m1 newfirst b.first b.last with
      | none => none
      | some m2 =>
        match m2.free b.first with
        | none => none
        | some m3 =>
          some (m3, { first := newfirst, last := newfirst.add size, capacity := newfirst.add size })
  else some (m, b)

/-- Models `buffer_clear(b)`. -/
def buffer_clear (b : buffer) : buffer := { b with last := b.first }

/-- Models `buffer_insert_spread(b, where, count, padding, nodealloc)`; the result holds the
adjusted `where`.  The sum `newsize` is formed over the naturals: it is the value of the
`size_t` expression of the source as long as it is at most `size_max`; the theorems about a
call with a free `count` ask for a bound that keeps it and the capacity of `buffer_grow`
exact. -/
def buffer_insert_spread (m : Mem α) (b : buffer) (wher : Ptr) (count padding : Nat)
    (nodealloc : Bool) : Option (Mem α × buffer × Ptr) :=
  match ptrDiff wher b.first with
  | none => none
  | some offset =>
    let newsize := b.size + count
    match buffer_grow m b newsize padding nodealloc with
    | none => none
    | some (m1, b1) =>
      let wher1 := b1.first.add offset
      match (if wher1 ≠ b1.last then buffer_bmove_urange m1 (wher1.add count) wher1 b1.last
             else some m1) with
      | none => none
      | some m2 => some (m2, { b1 with last := b1.first.add newsize }, wher1)

/-- Models `buffer_erase(b, first, last)`; the result holds the returned pointer. -/
def buffer_erase (m : Mem α) (b : buffer) (first last : Ptr) : Option (Mem α × buffer × Ptr) :=
  match ptrDiff last first, ptrDiff b.last last with
  | some count, some n =>
    match copy_loop n first last m, b.last.sub count with
    | some m1, some last1 => some (m1, { b with last := last1 }, first)
    | _, _ => none
  | _, _ => none

/-- Models `buffer_pop(b)`: `b.last--`, undefined when `b.last` is the start of its block. -/
def buffer_pop (b : buffer) : Option buffer :=
  match b.last.sub 1 with
  | none => none
  | some last1 => some { b with last := last1 }

/-- Models `buffer_erase_unordered(b, first, last)`; the result holds the returned pointer. -/
def buffer_erase_unordered (m : Mem α) (b : buffer) (first last : Ptr) :
    Option (Mem α × buffer × Ptr) :=
  match ptrDiff last first, ptrDiff b.last last with
  | some count, some tail =>
    match b.last.sub (if count < tail then count else tail) with
    | none => none
    | some it =>
      match ptrDiff b.last it with
      | none => none
      | some n =>
        match copy_loop n first it m, b.last.sub count with
        | some m1, some last1 => some (m1, { b with last := last1 }, first)
        | _, _ => none
  | _, _ => none

/-- Models `buffer_swap(b, other)`. -/
def buffer_swap (b other : buffer) : buffer × buffer := (other, b)

/-- Models `buffer_move(dst, src)`: the new `dst` and the new `src`. -/
def buffer_move (_dst src : buffer) : buffer × buffer :=
  (src, { first := nullptr, last := nullptr, capacity := nullptr })

/-- Models `buffer_append(b, param)`, with the value of `*param` for `param`: grow by one
element with no padding, construct the element at `b.last`, advance `b.last`. -/
def buffer_append (m : Mem α) (b : buffer) (param : α) : Option (Mem α × buffer) :=
  match buffer_grow_count m b 1 0 false with
  | none => none
  | some (m1, b1) =>
    match m1.write b1.last param with
    | none => none
    | some m2 => some (m2, { b1 with last := b1.last.add 1 })

/-- One reallocation seen while appending: the capacity before, the capacity after, and
the size once the element is appended. -/
structure Regrowth where
  oldCap : Nat
  newCap : Nat
  sizeAfter : Nat
deriving DecidableEq, Repr

/-- A run of `buffer_append`, one call for each element of the list in order, with the list
of the reallocations that happened (a call reallocated exactly when it changed the
capacity). -/
def append_all : List α → Mem α → buffer → Option (Mem α × buffer × List Regrowth)
  | [], m, b => some (m, b, [])
  | x :: xs, m, b =>
    match buffer_append m b x with
    | none => none
    | some (m1, b1) =>
      match append_all xs m1 b1 with
      | none => none
      | some (m2, b2, log) =>
        some (m2, b2, if b1.cap = b.cap then log else ⟨b.cap, b1.cap, b1.size⟩ :: log)

/-! ### The string helpers of `buffer.h` (instantiated at `T = char`) -/

/-- The type `char`; only equality, order and the value `0` are used. -/
abbrev CChar := Int

/-- Models `string_reset(b, storage, capacity)`. -/
def string_reset (m : Mem CChar) (storage : Ptr) (capacity : Nat) : Option (Mem CChar × buffer) :=
  match m.write storage 0 with
  | none => none
  | some m1 => some (m1, { first := storage, last := storage, capacity := storage.add capacity })

/-- Models `string_reset(b, storage, capacity, size)`. -/
def string_reset_size (m : Mem CChar) (storage : Ptr) (capacity size : Nat) :
    Option (Mem CChar × buffer) :=
  match m.write (storage.add size) 0 with
  | none => none
  | some m1 =>
    some (m1, { first := storage, last := storage.add size, capacity := storage.add capacity })

/-- Models `string_reserve(b, storage, capacity)`. -/
def string_reserve (m : Mem CChar) (b : buffer) (storage : Ptr) (capacity : Nat) :
    Option (Mem CChar × buffer) :=
  buffer_reserve m b capacity 1 (decide (b.first = storage))

/-- Models `string_resize(b, storage, size)`: the new cells are filled with `T()`, that is `0`. -/
def string_resize (m : Mem CChar) (b : buffer) (storage : Ptr) (size : Nat) :
    Option (Mem CChar × buffer) :=
  match string_reserve m b storage size with
  | none => none
  | some (m1, b1) =>
    match buffer_fill_urange m1 b1.last (b1.first.add (size + 1)) 0 with
    | none => none
    | some m2 =>
      let b2 := { b1 with last := b1.first.add size }
      match m2.write b2.last 0 with
      | none => none
      | some m3 => some (m3, b2)

/-- Models `string_clear(b)`. -/
def string_clear (m : Mem CChar) (b : buffer) : Option (Mem CChar × buffer) :=
  let b1 := { b with last := b.first }
  match m.write b1.last 0 with
  | none => none
  | some m1 => some (m1, b1)

/-- Models `string_insert(b, storage, where, first, last)`. -/
def string_insert (m : Mem CChar) (b : buffer) (storage wher first last : Ptr) :
    Option (Mem CChar × buffer) :=
  match ptrDiff last first with
  | none => none
  | some count =>
    match buffer_insert_spread m b wher count 1 (decide (b.first = storage)) with
    | none => none
    | some (m1, b1, wher1) =>
      match buffer_copy_urange m1 wher1 first last with
      | none => none
      | some m2 =>
        match m2.write b1.last 0 with
        | none => none
        | some m3 => some (m3, b1)

/-- Models `string_copy(b, first, last)`. -/
def string_copy (m : Mem CChar) (b : buffer) (first last : Ptr) : Option (Mem CChar × buffer) :=
  match buffer_copy_urange m b.last first last, ptrDiff last first with
  | some m1, some n =>
    let b1 := { b with last := b.last.add n }
    match m1.write b1.last 0 with
    | none => none
    | some m2 => some (m2, b1)
  | _, _ => none

/-- Models `string_append(b, storage, first, last)`. -/
def string_append (m : Mem CChar) (b : buffer) (storage first last : Ptr) :
    Option (Mem CChar × buffer) :=
  match ptrDiff last first with
  | none => none
  | some n =>
    let newsize := b.size + n
    match buffer_grow m b newsize 1 (decide (b.first = storage)) with
    | none => none
    | some (m1, b1) =>
      match buffer_copy_urange m1 b1.last first last with
      | none => none
      | some m2 =>
        let b2 := { b1 with last := b1.last.add n }
        match m2.write b2.last 0 with
        | none => none
        | some m3 => some (m3, b2)

/-- Models `string_erase(b, first, last)`; the result holds the returned pointer. -/
def string_erase (m : Mem CChar) (b : buffer) (first last : Ptr) :
    Option (Mem CChar × buffer × Ptr) :=
  match buffer_erase m b first last with
  | none => none
  | some (m1, b1, _) =>
    match m1.write b1.last 0 with
    | none => none
    | some m2 => some (m2, b1, first)

/-- Models `string_pop(b)`. -/
def string_pop (m : Mem CChar) (b : buffer) : Option (Mem CChar × buffer) :=
  match b.last.sub 1 with
  | none => none
  | some last1 =>
    match m.write last1 0 with
    | none => none
    | some m1 => some (m1, { b with last := last1 })

/-! ## `string.h` -/

/-- The constant `c_nbuffer`. -/
def c_nbuffer : Nat := 12

/-- The constant `npos`, `static_cast<size_t>(-1)` with a 64-bit `size_t`. -/
def npos : Nat := 2 ^ 64 - 1

/-- An object of class `basic_string`: the block holding its member `char m_small[12]` and
its member `m_buffer`. -/
structure basic_string where
  m_small : Nat
  m_buffer : buffer
deriving DecidableEq, Repr

namespace basic_string

/-- The address of `m_small`. -/
def small (s : basic_string) : Ptr := ⟨s.m_small, 0⟩

/-- Models `basic_string()` run on the object whose `m_small` is block `self`: the header points
at the inline array, no cell is written. -/
def ctor_default (self : Nat) : basic_string :=
  { m_small := self,
    m_buffer := { first := ⟨self, 0⟩, last := ⟨self, 0⟩, capacity := Ptr.add ⟨self, 0⟩ c_nbuffer } }

/-- Models `size()`. -/
def size (s : basic_string) : Nat := s.m_buffer.size

/-- Models `capacity()`. -/
def capacity (s : basic_string) : Nat := s.m_buffer.cap

/-- Models `data()` and `c_str()`. -/
def data (s : basic_string) : Ptr := s.m_buffer.first

/-- Models `operator[](idx)`, read. -/
def get (m : Mem CChar) (s : basic_string) (idx : Nat) : Option CChar :=
  m.read (s.m_buffer.first.add idx)

/-- Models `basic_string(const char* first, const char* last)`. -/
def ctor_range (m : Mem CChar) (self : Nat) (first last : Ptr) :
    Option (Mem CChar × basic_string) :=
  let s := ctor_default self
  match ptrDiff last first with
  | none => none
  | some n =>
    match string_reserve m s.m_buffer s.small n with
    | none => none
    | some (m1, b1) =>
      match string_copy m1 b1 first last with
      | none => none
      | some (m2, b2) => some (m2, { s with m_buffer := b2 })

/-- Models `basic_string(basic_string&& other)`: the new object and the new state of `other`. -/
def ctor_move (m : Mem CChar) (self : Nat) (other : basic_string) :
    Option (Mem CChar × basic_string × basic_string) :=
  let s := ctor_default self
  match (if other.m_buffer.first = other.small then
           string_copy m s.m_buffer other.m_buffer.first other.m_buffer.last
         else some (m, other.m_buffer)) with
  | none => none
  | some (m1, b1) =>
    match string_reset m1 other.small c_nbuffer with
    | none => none
    | some (m2, ob) => some (m2, { s with m_buffer := b1 }, { other with m_buffer := ob })

/-- Models `resize(size)`. -/
def resize (m : Mem CChar) (s : basic_string) (size : Nat) : Option (Mem CChar × basic_string) :=
  match string_resize m s.m_buffer s.small size with
  | none => none
  | some (m1, b1) => some (m1, { s with m_buffer := b1 })

/-- Models `clear()`. -/
def clear (m : Mem CChar) (s : basic_string) : Option (Mem CChar × basic_string) :=
  match string_clear m s.m_buffer with
  | none => none
  | some (m1, b1) => some (m1, { s with m_buffer := b1 })

/-- Models `reserve(capacity)`. -/
def reserve (m : Mem CChar) (s : basic_string) (capacity : Nat) :
    Option (Mem CChar × basic_string) :=
  match string_reserve m s.m_buffer s.small capacity with
  | none => none
  | some (m1, b1) => some (m1, { s with m_buffer := b1 })

/-- Models `push_back(c)`. -/
def push_back (m : Mem CChar) (s : basic_string) (c : CChar) : Option (Mem CChar × basic_string) :=
  match buffer_grow_count m s.m_buffer 1 1 (decide (s.m_buffer.first = s.small)) with
  | none => none
  | some (m1, b1) =>
    match m1.write b1.last c with
    | none => none
    | some m2 =>
      let b2 := { b1 with last := b1.last.add 1 }
      match m2.write b2.last 0 with
      | none => none
      | some m3 => some (m3, { s with m_buffer := b2 })

/-- Models `pop_back()`. -/
def pop_back (m : Mem CChar) (s : basic_string) : Option (Mem CChar × basic_string) :=
  match string_pop m s.m_buffer with
  | none => none
  | some (m1, b1) => some (m1, { s with m_buffer := b1 })

/-- Models `shrink_to_fit()`. -/
def shrink_to_fit (m : Mem CChar) (s : basic_string) : Option (Mem CChar × basic_string) :=
  if s.m_buffer.first ≠ s.small then
    match buffer_shrink_to_fit m s.m_buffer 1 with
    | none => none
    | some (m1, b1) => some (m1, { s with m_buffer := b1 })
  else some (m, s)

/-- Models `swap(other)`: the new state of `*this` and of `other`.  The local array
`char tbuffer[c_nbuffer]` is a block of its own that lives until the function returns. -/
def swap (m : Mem CChar) (s other : basic_string) :
    Option (Mem CChar × basic_string × basic_string) :=
  let tb := s.m_buffer
  let sb := other.m_buffer
  let ob := tb
  let (tbuffer, m0) := m.alloc c_nbuffer
  match (if sb.first = other.small then
           match ptrDiff sb.last other.small with
           | some n => copy_loop n tbuffer other.small m0
           | none => none
         else some m0) with
  | none => none
  | some m1 =>
    match (if ob.first = s.small then
             match string_reset_size m1 other.small c_nbuffer ob.size with
             | none => none
             | some (m2, ob1) =>
               match ptrDiff ob1.last ob1.first with
               | none => none
               | some n =>
                 match copy_loop n ob1.first s.small m2 with
                 | none => none
                 | some m3 =>
                   match m3.write ob1.last 0 with
                   | none => none
                   | some m4 => some (m4, ob1)
           else some (m1, ob)) with
    | none => none
    | some (m5, ob2) =>
      match (if sb.first = other.small then
               match string_reset_size m5 s.small c_nbuffer sb.size with
               | none => none
               | some (m6, sb1) =>
                 match ptrDiff sb1.last sb1.first with
                 | none => none
                 | some n =>
                   match copy_loop n sb1.first tbuffer m6 with
                   | none => none
                   | some m7 =>
                     match m7.write sb1.last 0 with
                     | none => none
                     | some m8 => some (m8, sb1)
             else some (m5, sb)) with
      | none => none
      | some (m9, sb2) =>
        match m9.free tbuffer with
        | none => none
        | some m10 => some (m10, { s with m_buffer := sb2 }, { other with m_buffer := ob2 })

/-- Models `append(first, last)`. -/
def append (m : Mem CChar) (s : basic_string) (first last : Ptr) :
    Option (Mem CChar × basic_string) :=
  match string_append m s.m_buffer s.small first last with
  | none => none
  | some (m1, b1) => some (m1, { s with m_buffer := b1 })

/-- Models `assign(first, last)`. -/
def assign (m : Mem CChar) (s : basic_string) (first last : Ptr) :
    Option (Mem CChar × basic_string) :=
  match string_clear m s.m_buffer with
  | none => none
  | some (m1, b1) =>
    match string_append m1 b1 s.small first last with
    | none => none
    | some (m2, b2) => some (m2, { s with m_buffer := b2 })

/-- Models `insert(size_t where, const char* first, const char* last)`. -/
def insert (m : Mem CChar) (s : basic_string) (wher : Nat) (first last : Ptr) :
    Option (Mem CChar × basic_string) :=
  match string_insert m s.m_buffer s.small (s.m_buffer.first.add wher) first last with
  | none => none
  | some (m1, b1) => some (m1, { s with m_buffer := b1 })

/-- Models `erase(iterator first, iterator last)`; the result holds the returned iterator. -/
def erase (m : Mem CChar) (s : basic_string) (first last : Ptr) :
    Option (Mem CChar × basic_string × Ptr) :=
  match string_erase m s.m_buffer first last with
  | none => none
  | some (m1, b1, r) => some (m1, { s with m_buffer := b1 }, r)

end basic_string

/-- Models `string_compare(first1, first2, count)`. -/
def string_compare (m : Mem CChar) : Ptr → Ptr → Nat → Option Int
  | _, _, 0 => some 0
  | first1, first2, count + 1 =>
    match m.read first1, m.read first2 with
    | some c1, some c2 =>
      if c1 ≠ c2 then some (if c1 < c2 then -1 else 1)
      else string_compare m (first1.add 1) (first2.add 1) count
    | _, _ => none

/-- Models `string_find(first, count, c)`: `some none` is the result `nullptr`. -/
def string_find (m : Mem CChar) : Ptr → Nat → CChar → Option (Option Ptr)
  | _, 0, _ => some none
  | first, count + 1, c =>
    match m.read first with
    | some v => if v = c then some (some first) else string_find m (first.add 1) count c
    | none => none

/-- The loop `for (const char* current = hay + offset; ; ++current)` of the substring
`find`; `fuel` bounds the number of rounds. -/
def find_loop (m : Mem CChar) (hay needle last_possible : Ptr) (needle_size : Nat) :
    Nat → Ptr → Option Nat
  | 0, _ => none
  | fuel + 1, current =>
    match m.read needle with
    | none => none
    | some c =>
      match string_find m current (last_possible.off - current.off) c with
      | none => none
      | some none => some npos
      | some (some current1) =>
        match string_compare m current1 needle needle_size with
        | none => none
        | some r =>
          if r = 0 then some (current1.off - hay.off)
          else find_loop m hay needle last_possible needle_size fuel (current1.add 1)

namespace basic_string

/-- Models `find(const basic_string& other, size_t offset)`.  Every round of the loop moves
`current` forward and the loop ends when it reaches `last_possible`, so `hay_size + 1`
rounds are enough. -/
def find (m : Mem CChar) (s other : basic_string) (offset : Nat) : Option Nat :=
  let hay := s.m_buffer.first
  let needle := other.m_buffer.first
  let hay_size := s.size
  let needle_size := other.size
  if needle_size > hay_size ∨ offset > hay_size - needle_size then some npos
  else if needle_size = 0 then some offset
  else
    let last_possible := (hay.add (hay_size - needle_size)).add 1
    find_loop m hay needle last_possible needle_size (hay_size + 1) (hay.add offset)

/-- Models `basic_string(const char* s, size_t len)`. -/
def ctor_ptr_len (m : Mem CChar) (self : Nat) (s : Ptr) (len : Nat) :
    Option (Mem CChar × basic_string) :=
  let t := ctor_default self
  match string_reserve m t.m_buffer t.small len with
  | none => none
  | some (m1, b1) =>
    match string_copy m1 b1 s (s.add len) with
    | none => none
    | some (m2, b2) => some (m2, { t with m_buffer := b2 })

/-- Models `basic_string(size_t len, char c)`: after `string_reserve` the constructor fills
the range `[m_buffer.first, m_buffer.last)`. -/
def ctor_fill (m : Mem CChar) (self : Nat) (len : Nat) (c : CChar) :
    Option (Mem CChar × basic_string) :=
  let t := ctor_default self
  match string_reserve m t.m_buffer t.small len with
  | none => none
  | some (m1, b1) =>
    match buffer_fill_urange m1 b1.first b1.last c with
    | none => none
    | some m2 => some (m2, { t with m_buffer := b1 })

/-- Models `substr(begin, count)`; the returned string is built in the object whose
`m_small` is block `self`.  The length handed to the constructor is
`min(count, size() - begin)`, and `min(a, b)` is `a < b ? a : b`. -/
def substr (m : Mem CChar) (s : basic_string) (self : Nat) (begin_ count : Nat) :
    Option (Mem CChar × basic_string) :=
  ctor_ptr_len m self (s.m_buffer.first.add begin_)
    (if count < s.size - begin_ then count else s.size - begin_)

/-- The loop `for (; 0 < count; --count, ++first1, ++first2)` of `compare`: `some none` when
it ends without a `return`. -/
def compare_loop (m : Mem CChar) : Nat → Ptr → Ptr → Option (Option Int)
  | 0, _, _ => some none
  | count + 1, first1, first2 =>
    match m.read first1, m.read first2 with
    | some c1, some c2 =>
      if c1 ≠ c2 then some (some (if c1 < c2 then -1 else 1))
      else compare_loop m count (first1.add 1) (first2.add 1)
    | _, _ => none

/-- Models `compare(other)`. -/
def compare (m : Mem CChar) (s other : basic_string) : Option Int :=
  let count1 := s.size
  let count2 := other.size
  let count := if count1 < count2 then count1 else count2
  match compare_loop m count s.m_buffer.first other.m_buffer.first with
  | none => none
  | some (some r) => some r
  | some none =>
    if count1 < count2 then some (-1)
    else if count1 > count2 then some 1
    else some 0

/-- The loop `for (current = hay + k; current != hay; --current)` of `rfind(char, size_t)`:
the index `k` is examined, then `k - 1`, and the loop ends when `current` reaches `hay`. -/
def rfind_char_loop (m : Mem CChar) (hay : Ptr) (c : CChar) : Nat → Option Nat
  | 0 => some npos
  | k + 1 =>
    match m.read (hay.add (k + 1)) with
    | none => none
    | some v => if v = c then some (k + 1) else rfind_char_loop m hay c k

/-- Models `rfind(char c, size_t offset)`. -/
def rfind_char (m : Mem CChar) (s : basic_string) (c : CChar) (offset : Nat) : Option Nat :=
  let hay_size := s.size
  let hay := s.m_buffer.first
  if hay_size ≠ 0 then
    rfind_char_loop m hay c (if offset < hay_size - 1 then offset else hay_size - 1)
  else some npos

/-- The loop `for (current = hay + k; current != hay; --current)` of
`rfind(const basic_string&, size_t)`. -/
def rfind_loop (m : Mem CChar) (hay needle : Ptr) (needle_size : Nat) : Nat → Option Nat
  | 0 => some npos
  | k + 1 =>
    match m.read (hay.add (k + 1)), m.read needle with
    | some v, some w =>
      if v = w then
        match string_compare m (hay.add (k + 1)) needle needle_size with
        | none => none
        | some r => if r = 0 then some (k + 1) else rfind_loop m hay needle needle_size k
      else rfind_loop m hay needle needle_size k
    | _, _ => none

/-- Models `rfind(const basic_string& other, size_t offset)`. -/
def rfind (m : Mem CChar) (s other : basic_string) (offset : Nat) : Option Nat :=
  let hay := s.m_buffer.first
  let needle := other.m_buffer.first
  let hay_size := s.size
  let needle_size := other.size
  if needle_size = 0 then some (if offset < hay_size then offset else hay_size)
  else if needle_size ≤ hay_size then
    rfind_loop m hay needle needle_size
      (if offset < hay_size - needle_size then offset else hay_size - needle_size)
  else some npos

end basic_string

/-- The loop `while (lit != lend) if (*lit++ != *rit++) return false;` of `operator==` with
`n` bytes left, and the `return true` after it. -/
def operator_eq_loop (m : Mem CChar) : Nat → Ptr → Ptr → Option Bool
  | 0, _, _ => some true
  | n + 1, lit, rit =>
    match m.read lit, m.read rit with
    | some c1, some c2 =>
      if c1 ≠ c2 then some false else operator_eq_loop m n (lit.add 1) (rit.add 1)
    | _, _ => none

/-- Models `operator==(const basic_string&, const basic_string&)`. -/
def operator_eq (m : Mem CChar) (lhs rhs : basic_string) : Option Bool :=
  let lsize := lhs.size
  let rsize := rhs.size
  if lsize ≠ rsize then some false
  else operator_eq_loop m lsize lhs.data rhs.data

/-- Models `operator<(const basic_string&, const basic_string&)`. -/
def operator_lt (m : Mem CChar) (lhs rhs : basic_string) : Option Bool :=
  match basic_string.compare m lhs rhs with
  | none => none
  | some r => some (decide (r < 0))

/-- Models `operator!=(const basic_string&, const basic_string&)`. -/
def operator_ne (m : Mem CChar) (lhs rhs : basic_string) : Option Bool :=
  match operator_eq m lhs rhs with
  | none => none
  | some r => some (!r)

/-- The allocator state, the junk and the size of every block are the same in `m1` as in
`m`: only cell values may differ. -/
def Mem.SameShape (m m1 : Mem α) : Prop :=
  m1.next = m.next ∧ m1.junk = m.junk ∧ ∀ k, m1.blockSize k = m.blockSize k

/-! ## Vocabulary of the specification -/

/-- The elements `[first, last)` of a buffer. -/
def buffer.contents (m : Mem α) (b : buffer) : Option (List α) :=
  m.readRange b.first b.size

/-- The invariant of a buffer that owns its storage: the three pointers lie in one block
with `first <= last <= capacity`, and either the buffer is the empty one with all three
pointers null, or `first` is the start of a live block of exactly `capacity - first`
cells. -/
def buffer.Valid (m : Mem α) (b : buffer) : Prop :=
  b.first.off = 0 ∧ b.last.blk = b.first.blk ∧ b.capacity.blk = b.first.blk ∧
  b.last.off ≤ b.capacity.off ∧
  ((b.first = nullptr ∧ b.capacity.off = 0) ∨ m.blockSize b.first.blk = some b.capacity.off)

instance (m : Mem α) (b : buffer) : Decidable (b.Valid m) := by
  unfold buffer.Valid; infer_instance

/-- The constant `SIZE_MAX` of the 64-bit `size_t` the sizes of the source are computed
in. -/
def size_max : Nat := 2 ^ 64 - 1

/-- The constant `PTRDIFF_MAX` of the same platform: no object has more bytes, so the
allocator meets no larger request, and a pointer moved forward by at most that many bytes
stays in the address space. -/
def ptrdiff_max : Nat := 2 ^ 63 - 1

/-- The value the `size_t` arithmetic of the source gives to an expression whose exact value
is `n`: unsigned arithmetic is modulo `2 ^ 64`. -/
def size_t (n : Nat) : Nat := n % 2 ^ 64

/-- The value of `sizeof(T)` for an element type: the number of bytes of a cell, at least 1.
The source multiplies the cell counts by it when it calls the allocator and when it moves a
`T*`; the memory of the model is made of cells, and this value only enters the bounds that
keep the byte counts of the source exact. -/
class ElemSize (α : Type) where
  sizeof : Nat
  sizeof_pos : 0 < sizeof

/-- The type `char` has one byte. -/
instance : ElemSize CChar := ⟨1, Nat.one_pos⟩

/-- The header invariant `begin <= end <= capacity_end`: pointers are ordered inside one
block. -/
def buffer.Ordered (b : buffer) : Prop :=
  b.last.blk = b.first.blk ∧ b.capacity.blk = b.first.blk ∧
  b.first.off ≤ b.last.off ∧ b.last.off ≤ b.capacity.off

instance (b : buffer) : Decidable b.Ordered := by
  unfold buffer.Ordered; infer_instance

/-- The block `k` is live and has at least `c` cells. -/
def Mem.Holds (m : Mem α) (k c : Nat) : Prop :=
  match m.blockSize k with
  | some n => c ≤ n
  | none => False

instance (m : Mem α) (k c : Nat) : Decidable (m.Holds k c) := by
  unfold Mem.Holds
  cases m.blockSize k <;> infer_instance

/-- A buffer that can be handed to the primitives of `buffer.h`: the header is ordered, and
either the buffer is the empty one with all three pointers null, or `first` is the start of
a live block that holds at least `capacity - first` cells (the primitives called with
padding 1 leave one cell more than the capacity). -/
def buffer.Owns (m : Mem α) (b : buffer) : Prop :=
  b.first.off = 0 ∧ b.last.blk = b.first.blk ∧ b.capacity.blk = b.first.blk ∧
  b.last.off ≤ b.capacity.off ∧
  ((b.first = nullptr ∧ b.capacity.off = 0) ∨ m.Holds b.first.blk b.capacity.off)

instance (m : Mem α) (b : buffer) : Decidable (b.Owns m) := by
  unfold buffer.Owns; infer_instance

namespace basic_string

/-- The bytes `[begin, end)` of a string. -/
def contents (m : Mem CChar) (s : basic_string) : Option (List CChar) :=
  s.m_buffer.contents m

/-- Inline mode: `m_buffer.first == m_small`. -/
def isInline (s : basic_string) : Prop := s.m_buffer.first = s.small

instance (s : basic_string) : Decidable s.isInline := by
  unfold isInline; infer_instance

/-- The byte at index `size()` is the terminator. -/
def terminated (m : Mem CChar) (s : basic_string) : Prop :=
  m.read s.m_buffer.last = some 0

instance (m : Mem CChar) (s : basic_string) : Decidable (s.terminated m) := by
  unfold terminated; infer_instance

/-- The representation invariant of the data model: the three header pointers lie in one
block with `first <= last <= capacity`, `m_small` is a live array of 12 bytes, the string is
terminated, and either it is in inline mode, with capacity 12 and the terminator inside
`m_small`, or `first` is the start of a heap block of `capacity() + 1` bytes. -/
def Valid (m : Mem CChar) (s : basic_string) : Prop :=
  s.m_buffer.last.blk = s.m_buffer.first.blk ∧
  s.m_buffer.capacity.blk = s.m_buffer.first.blk ∧
  s.m_buffer.first.off = 0 ∧
  s.m_buffer.last.off ≤ s.m_buffer.capacity.off ∧
  m.blockSize s.m_small = some c_nbuffer ∧
  (if s.m_buffer.first.blk = s.m_small then
     s.m_buffer.capacity.off = c_nbuffer ∧ s.m_buffer.last.off + 1 ≤ c_nbuffer
   else m.blockSize s.m_buffer.first.blk = some (s.m_buffer.capacity.off + 1)) ∧
  s.terminated m

instance (m : Mem CChar) (s : basic_string) : Decidable (s.Valid m) := by
  unfold Valid; infer_instance

/-- Two string objects that share no storage: different inline arrays, neither points at
the inline array of the other, and they do not point at the same heap block. -/
def Separate (a b : basic_string) : Prop :=
  a.m_small ≠ b.m_small ∧
  a.m_buffer.first.blk ≠ b.m_small ∧
  b.m_buffer.first.blk ≠ a.m_small ∧
  a.m_buffer.first.blk ≠ b.m_buffer.first.blk

instance (a b : basic_string) : Decidable (Separate a b) := by
  unfold Separate; infer_instance

/-- The header `x.swap(y)` leaves in `x`: the header of `y` when `y` is in heap mode, and a
header over the inline array of `x` with the size of `y` when `y` is in inline mode. -/
def swapped_header (x y : basic_string) : buffer :=
  if y.m_buffer.first = y.small then
    { first := x.small, last := x.small.add y.m_buffer.size, capacity := x.small.add c_nbuffer }
  else y.m_buffer

end basic_string

/-- The needle `n` occurs in the haystack `h` at index `i`: `i + |n| <= |h|` and
`h[i .. i + |n|) = n`. -/
def MatchAt (h n : List CChar) (i : Nat) : Prop :=
  i + n.length ≤ h.length ∧ (h.drop i).take n.length = n

instance (h n : List CChar) (i : Nat) : Decidable (MatchAt h n i) := by
  unfold MatchAt; infer_instance

/-! ## Example data

One memory with a few string objects in it, used to run the definitions on concrete
inputs. -/

namespace Example

/-- An allocator that hands out storage filled with the byte `0xCD`. -/
def junk : Nat → Nat → CChar := fun _ _ => 205

/-- The memory: block 1 to 5 are the `m_small` arrays of `hay`, `needle`, `empty`, `eleven`
and `big`, block 6 is the heap block of `big`, block 7 is a plain array of 13 bytes, block 8
is the `m_small` array of an object that is not constructed yet. -/
def mem : Mem CChar :=
  { blocks :=
      [ none,
        some [97, 98, 99, 97, 98, 99, 0, 7, 7, 7, 7, 7],
        some [98, 99, 0, 7, 7, 7, 7, 7, 7, 7, 7, 7],
        some [0, 7, 7, 7, 7, 7, 7, 7, 7, 7, 7, 7],
        some [97, 98, 99, 100, 101, 102, 103, 104, 105, 106, 107, 0],
        some [7, 7, 7, 7, 7, 7, 7, 7, 7, 7, 7, 7],
        some [97, 98, 99, 100, 101, 102, 103, 104, 105, 106, 107, 108, 109, 110, 0, 7, 7, 7, 7,
          7, 7],
        some [97, 98, 99, 100, 101, 102, 103, 104, 105, 106, 107, 108, 109],
        some [7, 7, 7, 7, 7, 7, 7, 7, 7, 7, 7, 7] ],
    junk := junk }

/-- The inline string `"abcabc"`. -/
def hay : basic_string := ⟨1, ⟨⟨1, 0⟩, ⟨1, 6⟩, ⟨1, 12⟩⟩⟩

/-- The inline string `"bc"`. -/
def needle : basic_string := ⟨2, ⟨⟨2, 0⟩, ⟨2, 2⟩, ⟨2, 12⟩⟩⟩

/-- The empty inline string. -/
def empty : basic_string := ⟨3, ⟨⟨3, 0⟩, ⟨3, 0⟩, ⟨3, 12⟩⟩⟩

/-- The inline string `"abcdefghijk"` of 11 bytes: the largest that fits with its
terminator. -/
def eleven : basic_string := ⟨4, ⟨⟨4, 0⟩, ⟨4, 11⟩, ⟨4, 12⟩⟩⟩

/-- The heap string `"abcdefghijklmn"` of 14 bytes with capacity 20. -/
def big : basic_string := ⟨5, ⟨⟨6, 0⟩, ⟨6, 14⟩, ⟨6, 20⟩⟩⟩

/-- The 13 bytes `"abcdefghijklm"` of block 7. -/
def thirteen : List CChar := [97, 98, 99, 100, 101, 102, 103, 104, 105, 106, 107, 108, 109]

/-- A second memory: block 1 to 3 are the `m_small` arrays of `abc`, `abd` and `ab`, block 4
is the `m_small` array of an object that is not constructed yet. -/
def mem2 : Mem CChar :=
  { blocks :=
      [ none,
        some [97, 98, 99, 0, 7, 7, 7, 7, 7, 7, 7, 7],
        some [97, 98, 100, 0, 7, 7, 7, 7, 7, 7, 7, 7],
        some [97, 98, 0, 7, 7, 7, 7, 7, 7, 7, 7, 7],
        some [7, 7, 7, 7, 7, 7, 7, 7, 7, 7, 7, 7] ],
    junk := junk }

/-- A buffer of bytes that owns block 7 of `mem`: the 5 elements `"abcde"`, capacity 13. -/
def vec : buffer := ⟨⟨7, 0⟩, ⟨7, 5⟩, ⟨7, 13⟩⟩

/-- The inline string `"abc"`. -/
def abc : basic_string := ⟨1, ⟨⟨1, 0⟩, ⟨1, 3⟩, ⟨1, 12⟩⟩⟩

/-- The inline string `"abd"`. -/
def abd : basic_string := ⟨2, ⟨⟨2, 0⟩, ⟨2, 3⟩, ⟨2, 12⟩⟩⟩

/-- The inline string `"ab"`. -/
def ab : basic_string := ⟨3, ⟨⟨3, 0⟩, ⟨3, 2⟩, ⟨3, 12⟩⟩⟩

end Example

/-! # Theorems -/

/-! ## Memory -/

namespace Mem

variable {α : Type}

theorem block_eq_some {m : Mem α} {k : Nat} {cells : List α} :
    m.block k = some cells ↔ m.blocks[k]? = some (some cells) := by
  unfold block
  constructor
  · intro h
    split at h
    · rename_i c hc
      injection h with h
      rw [hc, h]
    · simp at h
  · intro h
    rw [h]

theorem block_lt {m : Mem α} {k : Nat} {cells : List α} (h : m.block k = some cells) :
    k < m.next := by
  unfold block at h
  unfold next
  by_contra hk
  rw [List.getElem?_eq_none (by omega)] at h
  simp at h

theorem read_fresh (m : Mem α) (p : Ptr) (h : m.next ≤ p.blk) : m.read p = none := by
  unfold read
  cases hb : m.block p.blk with
  | none => rfl
  | some cells => have := block_lt hb; omega

theorem read_lt {m : Mem α} {p : Ptr} {v : α} (h : m.read p = some v) : p.blk < m.next := by
  by_contra hk
  rw [read_fresh m p (by omega)] at h
  simp at h

theorem block_write {m m1 : Mem α} {p : Ptr} {v : α} (h : m.write p v = some m1) (k : Nat) :
    m1.block k = if k = p.blk then (m.block k).map (fun cells => cells.set p.off v)
      else m.block k := by
  unfold write at h
  cases hb : m.block p.blk with
  | none => simp [hb] at h
  | some cells =>
    simp only [hb] at h
    split at h
    · injection h with h
      subst h
      have hlt := block_lt hb
      unfold next at hlt
      by_cases hk : k = p.blk
      · subst hk
        rw [if_pos rfl, hb]
        simp [block, List.getElem?_set, hlt]
      · have hk2 : p.blk ≠ k := fun h => hk h.symm
        simp [block, hk, List.getElem?_set, hk2]
    · simp at h

theorem read_write {m m1 : Mem α} {p : Ptr} {v : α} (h : m.write p v = some m1) (q : Ptr) :
    m1.read q = if q = p then some v else m.read q := by
  have hb := block_write h q.blk
  have h0 := h
  unfold write at h0
  unfold read
  rw [hb]
  cases hc : m.block p.blk with
  | none => simp [hc] at h0
  | some cells =>
    simp only [hc] at h0
    split at h0
    · rename_i hlt
      by_cases hk : q.blk = p.blk
      · rw [if_pos hk, hk, hc]
        simp only [Option.map_some']
        by_cases ho : q.off = p.off
        · have hqp : q = p := by cases q; cases p; simp_all
          simp [hqp, hlt]
        · have hqp : q ≠ p := fun h => ho (by rw [h])
          have ho2 : p.off ≠ q.off := fun h => ho h.symm
          simp [hqp, List.getElem?_set, ho2]
      · have hqp : q ≠ p := fun h => hk (by rw [h])
        simp [hk, hqp]
    · simp at h0

theorem write_some {m : Mem α} {p : Ptr} {w : α} (h : m.read p = some w) (v : α) :
    ∃ m1, m.write p v = some m1 := by
  unfold read at h
  unfold write
  cases hb : m.block p.blk with
  | none => simp [hb] at h
  | some cells =>
    simp only [hb] at h
    have : p.off < cells.length := by
      by_contra hlt
      rw [List.getElem?_eq_none (by omega)] at h
      simp at h
    simp [this]

theorem write_none {m : Mem α} {p : Ptr} (h : m.read p = none) (v : α) :
    m.write p v = none := by
  unfold read at h
  unfold write
  cases hb : m.block p.blk with
  | none => rfl
  | some cells =>
    simp only [hb] at h
    have : ¬ p.off < cells.length := by
      intro hlt
      rw [List.getElem?_eq_getElem hlt] at h
      simp at h
    simp [this]

theorem next_write {m m1 : Mem α} {p : Ptr} {v : α} (h : m.write p v = some m1) :
    m1.next = m.next := by
  unfold write at h
  cases hb : m.block p.blk with
  | none => simp [hb] at h
  | some cells =>
    simp only [hb] at h
    split at h
    · injection h with h
      subst h
      simp [next]
    · simp at h

theorem junk_write {m m1 : Mem α} {p : Ptr} {v : α} (h : m.write p v = some m1) :
    m1.junk = m.junk := by
  unfold write at h
  cases hb : m.block p.blk with
  | none => simp [hb] at h
  | some cells =>
    simp only [hb] at h
    split at h
    · injection h with h
      subst h
      rfl
    · simp at h

theorem alloc_fst (m : Mem α) (n : Nat) : (m.alloc n).1 = ⟨m.next, 0⟩ := rfl

theorem next_alloc (m : Mem α) (n : Nat) : (m.alloc n).2.next = m.next + 1 := by
  simp [alloc, next]

theorem junk_alloc (m : Mem α) (n : Nat) : (m.alloc n).2.junk = m.junk := rfl

theorem block_alloc (m : Mem α) (n : Nat) (k : Nat) :
    (m.alloc n).2.block k =
      if k = m.next then some ((List.range n).map (m.junk m.next)) else m.block k := by
  unfold alloc block next
  by_cases hk : k = m.blocks.length
  · subst hk
    simp
  · simp only [if_neg hk]
    by_cases hlt : k < m.blocks.length
    · rw [List.getElem?_append_left hlt]
    · rw [List.getElem?_eq_none (by simp; omega), List.getElem?_eq_none (by omega)]

theorem read_alloc (m : Mem α) (n : Nat) (q : Ptr) :
    (m.alloc n).2.read q =
      if q.blk = m.next then (if q.off < n then some (m.junk m.next q.off) else none)
      else m.read q := by
  unfold read
  rw [block_alloc]
  by_cases hk : q.blk = m.next
  · simp only [if_pos hk]
    by_cases ho : q.off < n
    · simp [ho]
    · simp [ho]
      omega
  · simp only [if_neg hk]

theorem block_free {m m1 : Mem α} {p : Ptr} (h : m.free p = some m1) (hp : p ≠ nullptr)
    (k : Nat) : m1.block k = if k = p.blk then none else m.block k := by
  unfold free at h
  rw [if_neg hp] at h
  cases hb : m.block p.blk with
  | none => simp [hb] at h
  | some cells =>
    simp only [hb] at h
    split at h
    · injection h with h
      subst h
      have hlt := block_lt hb
      unfold next at hlt
      by_cases hk : k = p.blk
      · subst hk
        simp [block, List.getElem?_set, hlt]
      · have hk2 : p.blk ≠ k := fun h => hk h.symm
        simp [block, hk, List.getElem?_set, hk2]
    · simp at h

theorem read_free {m m1 : Mem α} {p : Ptr} (h : m.free p = some m1) (hp : p ≠ nullptr)
    (q : Ptr) : m1.read q = if q.blk = p.blk then none else m.read q := by
  unfold read
  rw [block_free h hp]
  by_cases hk : q.blk = p.blk
  · simp [hk]
  · simp [hk]

theorem next_free {m m1 : Mem α} {p : Ptr} (h : m.free p = some m1) : m1.next = m.next := by
  unfold free at h
  split at h
  · injection h with h
    rw [h]
  · cases hb : m.block p.blk with
    | none => simp [hb] at h
    | some cells =>
      simp only [hb] at h
      split at h
      · injection h with h
        subst h
        simp [next]
      · simp at h

theorem free_some {m : Mem α} {p : Ptr} {v : α} (h : m.read p = some v) (h0 : p.off = 0) :
    ∃ m1, m.free p = some m1 := by
  unfold read at h
  unfold free
  cases hb : m.block p.blk with
  | none => simp [hb] at h
  | some cells =>
    by_cases hp : p = nullptr
    · simp [hp]
    · simp [hp, h0]

theorem blockSize_write {m m1 : Mem α} {p : Ptr} {v : α} (h : m.write p v = some m1) (k : Nat) :
    m1.blockSize k = m.blockSize k := by
  unfold blockSize
  rw [block_write h k]
  by_cases hk : k = p.blk
  · rw [if_pos hk]
    cases m.block k <;> simp
  · rw [if_neg hk]

theorem blockSize_alloc (m : Mem α) (n k : Nat) :
    (m.alloc n).2.blockSize k = if k = m.next then some n else m.blockSize k := by
  unfold blockSize
  rw [block_alloc]
  by_cases hk : k = m.next
  · simp [hk]
  · simp [hk]

theorem blockSize_free {m m1 : Mem α} {p : Ptr} (h : m.free p = some m1) (hp : p ≠ nullptr)
    (k : Nat) : m1.blockSize k = if k = p.blk then none else m.blockSize k := by
  unfold blockSize
  rw [block_free h hp]
  by_cases hk : k = p.blk
  · simp [hk]
  · simp [hk]

theorem junk_free {m m1 : Mem α} {p : Ptr} (h : m.free p = some m1) : m1.junk = m.junk := by
  unfold free at h
  split at h
  · injection h with h
    rw [h]
  · cases hb : m.block p.blk with
    | none => simp [hb] at h
    | some cells =>
      simp only [hb] at h
      split at h
      · injection h with h
        subst h
        rfl
      · simp at h

theorem read_some_iff (m : Mem α) (p : Ptr) :
    (∃ v, m.read p = some v) ↔ ∃ n, m.blockSize p.blk = some n ∧ p.off < n := by
  unfold read blockSize
  cases hb : m.block p.blk with
  | none => simp
  | some cells =>
    simp only [Option.some.injEq, exists_eq_left']
    constructor
    · rintro ⟨v, hv⟩
      by_contra hlt
      rw [List.getElem?_eq_none (by omega)] at hv
      simp at hv
    · intro hlt
      exact ⟨cells[p.off], List.getElem?_eq_getElem hlt⟩

theorem read_of_blockSize {m : Mem α} {k n : Nat} (h : m.blockSize k = some n) (i : Nat)
    (hi : i < n) : ∃ v, m.read ⟨k, i⟩ = some v :=
  (read_some_iff m ⟨k, i⟩).2 ⟨n, h, hi⟩

theorem read_none_of_blockSize {m : Mem α} {k n : Nat} (h : m.blockSize k = some n) (i : Nat)
    (hi : n ≤ i) : m.read ⟨k, i⟩ = none := by
  cases hr : m.read ⟨k, i⟩ with
  | none => rfl
  | some v =>
    obtain ⟨n1, h1, h2⟩ := (read_some_iff m ⟨k, i⟩).1 ⟨v, hr⟩
    simp only at h1 h2
    rw [h] at h1
    injection h1 with h1
    omega

theorem readRange_eq_some (m : Mem α) (n : Nat) : ∀ (p : Ptr) (xs : List α),
    m.readRange p n = some xs ↔
      xs.length = n ∧ ∀ i, i < n → m.read (p.add i) = xs[i]? := by
  induction n with
  | zero =>
    intro p xs
    simp [readRange]
  | succ n ih =>
    intro p xs
    unfold readRange
    constructor
    · intro h
      cases hv : m.read p with
      | none => simp [hv] at h
      | some v =>
        cases hr : m.readRange (p.add 1) n with
        | none => simp [hv, hr] at h
        | some vs =>
          simp only [hv, hr, Option.some.injEq] at h
          subst h
          obtain ⟨hl, hi⟩ := (ih (p.add 1) vs).1 hr
          refine ⟨by simp [hl], ?_⟩
          intro i hlt
          cases i with
          | zero => simpa [Ptr.add] using hv
          | succ i =>
            have := hi i (by omega)
            simp only [Ptr.add] at this ⊢
            rw [List.getElem?_cons_succ, ← this]
            congr 2
            omega
    · rintro ⟨hl, hi⟩
      cases xs with
      | nil => simp at hl
      | cons x xs =>
        have h0 := hi 0 (by omega)
        simp only [Ptr.add, Nat.add_zero, List.getElem?_cons_zero] at h0
        have hr : m.readRange (p.add 1) n = some xs := by
          rw [ih]
          refine ⟨by simpa using hl, ?_⟩
          intro i hlt
          have := hi (i + 1) (by omega)
          simp only [Ptr.add, List.getElem?_cons_succ] at this ⊢
          rw [← this]
          congr 2
          omega
        simp only [h0, hr]

end Mem

/-! ## Pointers and the copy loop -/

theorem Ptr.eq_iff (p q : Ptr) : p = q ↔ p.blk = q.blk ∧ p.off = q.off := by
  cases p; cases q; simp

@[simp] theorem Ptr.add_zero (p : Ptr) : p.add 0 = p := rfl

@[simp] theorem Ptr.add_blk (p : Ptr) (n : Nat) : (p.add n).blk = p.blk := rfl

@[simp] theorem Ptr.add_off (p : Ptr) (n : Nat) : (p.add n).off = p.off + n := rfl

theorem Ptr.add_add (p : Ptr) (a b : Nat) : (p.add a).add b = p.add (a + b) := by
  simp [Ptr.add, Nat.add_assoc]

theorem Mem.SameShape.refl (m : Mem α) : m.SameShape m := ⟨rfl, rfl, fun _ => rfl⟩

theorem Mem.SameShape.trans {m m1 m2 : Mem α} (h1 : m.SameShape m1) (h2 : m1.SameShape m2) :
    m.SameShape m2 :=
  ⟨h2.1.trans h1.1, h2.2.1.trans h1.2.1, fun k => (h2.2.2 k).trans (h1.2.2 k)⟩

theorem Mem.sameShape_write {m m1 : Mem α} {p : Ptr} {v : α} (h : m.write p v = some m1) :
    m.SameShape m1 :=
  ⟨Mem.next_write h, Mem.junk_write h, Mem.blockSize_write h⟩

theorem copy_loop_spec (n : Nat) : ∀ (dest first : Ptr) (m : Mem α),
    (∀ i, i < n → ∃ v, m.read (first.add i) = some v) →
    (∀ i, i < n → ∃ v, m.read (dest.add i) = some v) →
    (dest.blk ≠ first.blk ∨ dest.off ≤ first.off) →
    ∃ m1, copy_loop n dest first m = some m1 ∧ m.SameShape m1 ∧
      ∀ q, m1.read q =
        if q.blk = dest.blk ∧ dest.off ≤ q.off ∧ q.off < dest.off + n then
          m.read ⟨first.blk, first.off + (q.off - dest.off)⟩
        else m.read q := by
  induction n with
  | zero =>
    intro dest first m _ _ _
    refine ⟨m, rfl, Mem.SameShape.refl m, ?_⟩
    intro q
    rw [if_neg (by omega)]
  | succ n ih =>
    intro dest first m hsrc hdst hsafe
    obtain ⟨v, hv⟩ := hsrc 0 (by omega)
    obtain ⟨w, hw⟩ := hdst 0 (by omega)
    rw [Ptr.add_zero] at hv hw
    obtain ⟨m0, hm0⟩ := Mem.write_some hw v
    have hrd := Mem.read_write hm0
    have hsrc1 : ∀ i, i < n → ∃ v, m0.read ((first.add 1).add i) = some v := by
      intro i hi
      rw [hrd]
      split
      · exact ⟨v, rfl⟩
      · rw [Ptr.add_add]
        exact hsrc (1 + i) (by omega)
    have hdst1 : ∀ i, i < n → ∃ v, m0.read ((dest.add 1).add i) = some v := by
      intro i hi
      rw [hrd]
      split
      · exact ⟨v, rfl⟩
      · rw [Ptr.add_add]
        exact hdst (1 + i) (by omega)
    have hsafe1 : (dest.add 1).blk ≠ (first.add 1).blk ∨ (dest.add 1).off ≤ (first.add 1).off := by
      simp only [Ptr.add_blk, Ptr.add_off]
      omega
    simp only [Ptr.add_blk, Ptr.add_off] at hsafe1
    obtain ⟨m1, hm1, hshape, hread⟩ := ih (dest.add 1) (first.add 1) m0 hsrc1 hdst1 hsafe1
    refine ⟨m1, ?_, (Mem.sameShape_write hm0).trans hshape, ?_⟩
    · simp only [copy_loop, hv, hm0, hm1]
    · intro q
      rw [hread]
      simp only [Ptr.add_blk, Ptr.add_off]
      by_cases hb : q.blk = dest.blk
      · by_cases h1 : dest.off + 1 ≤ q.off ∧ q.off < dest.off + 1 + n
        · have h2 : dest.off ≤ q.off ∧ q.off < dest.off + (n + 1) := by omega
          rw [if_pos ⟨hb, h1⟩, if_pos ⟨hb, h2⟩, hrd, if_neg]
          · congr 2
            omega
          · rw [Ptr.eq_iff]
            simp only
            omega
        · by_cases h4 : q.off = dest.off
          · have h2 : dest.off ≤ q.off ∧ q.off < dest.off + (n + 1) := by omega
            rw [if_neg (by tauto), if_pos ⟨hb, h2⟩, hrd, if_pos ((Ptr.eq_iff _ _).2 ⟨hb, h4⟩), ← hv]
            congr 1
            rw [Ptr.eq_iff]
            exact ⟨rfl, by simp only; omega⟩
          · have h2 : ¬ (dest.off ≤ q.off ∧ q.off < dest.off + (n + 1)) := by omega
            rw [if_neg (by tauto), if_neg (by tauto), hrd, if_neg]
            rw [Ptr.eq_iff]
            tauto
      · rw [if_neg (by tauto), if_neg (by tauto), hrd, if_neg]
        rw [Ptr.eq_iff]
        tauto

/-! ## `buffer_erase` and `buffer_erase_unordered` -/

theorem ptrDiff_add (p : Ptr) (i j : Nat) (h : i ≤ j) :
    ptrDiff (p.add j) (p.add i) = some (j - i) := by
  unfold ptrDiff
  simp only [Ptr.add_blk, Ptr.add_off]
  rw [if_pos ⟨trivial, by omega⟩]
  congr 1
  omega

theorem ptrDiff_eq_some {last first : Ptr} (hb : first.blk = last.blk) (h : first.off ≤ last.off) :
    ptrDiff last first = some (last.off - first.off) := by
  unfold ptrDiff
  rw [if_pos ⟨hb, h⟩]

/-- C7: `buffer_erase(b, begin+i, begin+j)` keeps the elements before `i` and after `j` in
order, shrinks the size by `j - i`, leaves `first` and `capacity` alone and returns
`begin + i`. -/
theorem buffer_erase_order_preserving (m : Mem α) (b : buffer) (xs : List α) (i j : Nat)
    (hblk : b.last.blk = b.first.blk) (hle : b.first.off ≤ b.last.off)
    (hxs : b.contents m = some xs) (hij : i ≤ j) (hj : j ≤ xs.length) :
    ∃ m1 b1, buffer_erase m b (b.first.add i) (b.first.add j) = some (m1, b1, b.first.add i) ∧
      b1.first = b.first ∧ b1.capacity = b.capacity ∧
      b1.size = xs.length - (j - i) ∧
      b1.contents m1 = some (xs.take i ++ xs.drop j) := by
  unfold buffer.contents at hxs
  obtain ⟨hlen, hrd⟩ := (Mem.readRange_eq_some m _ _ _).1 hxs
  unfold buffer.size at hlen hrd
  have hsrc : ∀ k, k < b.last.off - b.first.off - j →
      ∃ v, m.read ((b.first.add j).add k) = some v := by
    intro k hk
    rw [Ptr.add_add, hrd _ (by omega)]
    exact ⟨xs[j + k], List.getElem?_eq_getElem (by omega)⟩
  have hdst : ∀ k, k < b.last.off - b.first.off - j →
      ∃ v, m.read ((b.first.add i).add k) = some v := by
    intro k hk
    rw [Ptr.add_add, hrd _ (by omega)]
    exact ⟨xs[i + k], List.getElem?_eq_getElem (by omega)⟩
  obtain ⟨m1, hm1, _, hread⟩ := copy_loop_spec (b.last.off - b.first.off - j) (b.first.add i)
    (b.first.add j) m hsrc hdst (Or.inr (by simp only [Ptr.add_off]; omega))
  have hd1 : ptrDiff (b.first.add j) (b.first.add i) = some (j - i) := ptrDiff_add _ _ _ hij
  have hd2 : ptrDiff b.last (b.first.add j) = some (b.last.off - b.first.off - j) := by
    rw [ptrDiff_eq_some (by simp [hblk]) (by simp only [Ptr.add_off]; omega)]
    simp only [Ptr.add_off]
    congr 1
    omega
  have hsub : b.last.sub (j - i) = some ⟨b.last.blk, b.last.off - (j - i)⟩ := by
    unfold Ptr.sub
    rw [if_pos (by omega)]
  refine ⟨m1, { b with last := ⟨b.last.blk, b.last.off - (j - i)⟩ }, ?_, rfl, rfl, ?_, ?_⟩
  · simp only [buffer_erase, hd1, hd2, hm1, hsub]
  · simp only [buffer.size]
    omega
  · unfold buffer.contents buffer.size
    simp only
    rw [Mem.readRange_eq_some]
    constructor
    · simp only [List.length_append, List.length_take, List.length_drop]
      omega
    · intro k hk
      rw [hread]
      simp only [Ptr.add_blk, Ptr.add_off]
      by_cases hki : k < i
      · rw [if_neg (by omega), hrd k (by omega),
          List.getElem?_append_left (by simp only [List.length_take]; omega),
          List.getElem?_take_of_lt hki]
      · have hrng : b.first.off + i ≤ b.first.off + k ∧
            b.first.off + k < b.first.off + i + (b.last.off - b.first.off - j) := by omega
        rw [if_pos ⟨trivial, hrng⟩,
          List.getElem?_append_right (by simp only [List.length_take]; omega),
          List.getElem?_drop]
        have := hrd (j + (k - i)) (by omega)
        simp only [List.length_take]
        rw [Nat.min_eq_left (by omega), ← this]
        congr 1
        rw [Ptr.eq_iff]
        simp only [Ptr.add_blk, Ptr.add_off]
        exact ⟨trivial, by omega⟩

/-- C8: `buffer_erase_unordered(b, begin+i, begin+j)` shrinks the size by `j - i`, keeps the
elements before `i` where they are, and what is left is a permutation of the elements that
were outside `[i, j)`. -/
theorem buffer_erase_unordered_perm (m : Mem α) (b : buffer) (xs : List α) (i j : Nat)
    (hblk : b.last.blk = b.first.blk) (hle : b.first.off ≤ b.last.off)
    (hxs : b.contents m = some xs) (hij : i ≤ j) (hj : j ≤ xs.length) :
    ∃ m1 b1 ys, buffer_erase_unordered m b (b.first.add i) (b.first.add j)
        = some (m1, b1, b.first.add i) ∧
      b1.first = b.first ∧ b1.capacity = b.capacity ∧
      b1.size = xs.length - (j - i) ∧
      b1.contents m1 = some ys ∧
      ys.length = xs.length - (j - i) ∧
      ys.take i = xs.take i ∧
      ys.Perm (xs.take i ++ xs.drop j) := by
  unfold buffer.contents at hxs
  obtain ⟨hlen, hrd⟩ := (Mem.readRange_eq_some m _ _ _).1 hxs
  unfold buffer.size at hlen hrd
  -- the number of elements moved into the hole and where they come from
  obtain ⟨c, hc⟩ : ∃ c, c = (if j - i < xs.length - j then j - i else xs.length - j) := ⟨_, rfl⟩
  have hcle : c ≤ j - i ∧ c ≤ xs.length - j := by
    rw [hc]; split <;> omega
  have hsrc : ∀ k, k < c →
      ∃ v, m.read ((b.first.add (xs.length - c)).add k) = some v := by
    intro k hk
    rw [Ptr.add_add, hrd _ (by omega)]
    exact ⟨xs[xs.length - c + k], List.getElem?_eq_getElem (by omega)⟩
  have hdst : ∀ k, k < c → ∃ v, m.read ((b.first.add i).add k) = some v := by
    intro k hk
    rw [Ptr.add_add, hrd _ (by omega)]
    exact ⟨xs[i + k], List.getElem?_eq_getElem (by omega)⟩
  obtain ⟨m1, hm1, _, hread⟩ := copy_loop_spec c (b.first.add i)
    (b.first.add (xs.length - c)) m hsrc hdst (Or.inr (by simp only [Ptr.add_off]; omega))
  have hd1 : ptrDiff (b.first.add j) (b.first.add i) = some (j - i) := ptrDiff_add _ _ _ hij
  have hd2 : ptrDiff b.last (b.first.add j) = some (xs.length - j) := by
    rw [ptrDiff_eq_some (by simp [hblk]) (by simp only [Ptr.add_off]; omega)]
    simp only [Ptr.add_off]
    congr 1
    omega
  have hit : b.last.sub c = some (b.first.add (xs.length - c)) := by
    unfold Ptr.sub
    rw [if_pos (by omega)]
    congr 1
    rw [Ptr.eq_iff]
    exact ⟨hblk, by simp only [Ptr.add_off]; omega⟩
  have hd3 : ptrDiff b.last (b.first.add (xs.length - c)) = some c := by
    rw [ptrDiff_eq_some (by simp [hblk]) (by simp only [Ptr.add_off]; omega)]
    simp only [Ptr.add_off]
    congr 1
    omega
  have hsub : b.last.sub (j - i) = some ⟨b.last.blk, b.last.off - (j - i)⟩ := by
    unfold Ptr.sub
    rw [if_pos (by omega)]
  obtain ⟨ys, hysdef⟩ : ∃ ys, ys = xs.take i ++ ((xs.drop (xs.length - c)).take c ++
      (xs.drop (i + c)).take (xs.length - (j - i) - i - c)) := ⟨_, rfl⟩
  have hyl : ys.length = xs.length - (j - i) := by
    rw [hysdef]
    simp only [List.length_append, List.length_take, List.length_drop]
    omega
  have hys : m1.readRange b.first (xs.length - (j - i)) = some ys := by
    rw [Mem.readRange_eq_some]
    refine ⟨hyl, ?_⟩
    intro k hk
    rw [hread, hysdef]
    simp only [Ptr.add_blk, Ptr.add_off]
    by_cases hki : k < i
    · rw [if_neg (by omega), hrd k (by omega),
        List.getElem?_append_left (by simp only [List.length_take]; omega),
        List.getElem?_take_of_lt hki]
    · rw [List.getElem?_append_right (by simp only [List.length_take]; omega)]
      simp only [List.length_take]
      rw [Nat.min_eq_left (by omega)]
      by_cases hkc : k < i + c
      · rw [if_pos ⟨trivial, by omega⟩,
          List.getElem?_append_left (by
            simp only [List.length_take, List.length_drop]; omega),
          List.getElem?_take_of_lt (by omega), List.getElem?_drop,
          ← hrd (xs.length - c + (k - i)) (by omega)]
        congr 1
        rw [Ptr.eq_iff]
        exact ⟨rfl, by simp only [Ptr.add_off]; omega⟩
      · rw [if_neg (by omega),
          List.getElem?_append_right (by
            simp only [List.length_take, List.length_drop]; omega)]
        simp only [List.length_take, List.length_drop]
        rw [List.getElem?_take_of_lt (by omega), List.getElem?_drop, hrd k (by omega)]
        congr 1
        omega
  refine ⟨m1, { b with last := ⟨b.last.blk, b.last.off - (j - i)⟩ }, ys, ?_, rfl, rfl, ?_, ?_,
    hyl, ?_, ?_⟩
  · simp only [buffer_erase_unordered, hd1, hd2, ← hc, hit, hd3, hm1, hsub]
  · simp only [buffer.size]
    omega
  · unfold buffer.contents buffer.size
    simp only
    rw [← hys]
    congr 1
    omega
  · rw [hysdef]
    exact List.take_left' (by simp only [List.length_take]; omega)
  · rw [hysdef]
    apply List.Perm.append_left
    by_cases hct : j - i < xs.length - j
    · have hcv : c = j - i := by rw [hc, if_pos hct]
      have h1 : (xs.drop (xs.length - c)).take c = xs.drop (xs.length - c) :=
        List.take_of_length_le (by simp only [List.length_drop]; omega)
      have h2 : xs.drop j = (xs.drop j).take (xs.length - (j - i) - i - c) ++
          xs.drop (xs.length - c) := by
        conv_lhs => rw [← List.take_append_drop (xs.length - (j - i) - i - c) (xs.drop j)]
        rw [List.drop_drop]
        congr 2
        omega
      have h3 : i + c = j := by omega
      rw [h1, h3]
      conv_rhs => rw [h2]
      exact List.perm_append_comm
    · have hcv : c = xs.length - j := by rw [hc, if_neg hct]
      have h1 : xs.length - c = j := by omega
      have h2 : xs.length - (j - i) - i - c = 0 := by omega
      rw [h1, h2, List.take_zero, List.append_nil,
        List.take_of_length_le (by simp only [List.length_drop]; omega)]

/-! ## Construction from a range and move construction -/

theorem ptrDiff_add_self (p : Ptr) (n : Nat) : ptrDiff (p.add n) p = some n := by
  have := ptrDiff_add p 0 n (Nat.zero_le n)
  simpa using this

/-- What `string_copy` does when the source `[first, first + n)` holds `xs`, lies in another
block than the destination, and the `n + 1` cells from `b.last` on exist. -/
theorem string_copy_spec (m : Mem CChar) (b : buffer) (first : Ptr) (xs : List CChar)
    (hsrc : m.readRange first xs.length = some xs)
    (hdst : ∀ k, k ≤ xs.length → ∃ v, m.read (b.last.add k) = some v)
    (hne : b.last.blk ≠ first.blk) :
    ∃ m2, string_copy m b first (first.add xs.length)
        = some (m2, { b with last := b.last.add xs.length }) ∧
      m.SameShape m2 ∧
      ∀ q, m2.read q =
        if q.blk = b.last.blk ∧ b.last.off ≤ q.off ∧ q.off ≤ b.last.off + xs.length then
          (if q.off = b.last.off + xs.length then some 0 else xs[q.off - b.last.off]?)
        else m.read q := by
  obtain ⟨_, hrd⟩ := (Mem.readRange_eq_some m _ _ _).1 hsrc
  have hs : ∀ k, k < xs.length → ∃ v, m.read (first.add k) = some v := by
    intro k hk
    rw [hrd k hk]
    exact ⟨xs[k], List.getElem?_eq_getElem hk⟩
  obtain ⟨m1, hm1, hshape1, hread1⟩ := copy_loop_spec xs.length b.last first m hs
    (fun k hk => hdst k (by omega)) (Or.inl hne)
  have hterm : ∃ v, m1.read (b.last.add xs.length) = some v := by
    rw [hread1, if_neg (by simp only [Ptr.add_off]; omega)]
    exact hdst _ (Nat.le_refl _)
  obtain ⟨v, hv⟩ := hterm
  obtain ⟨m2, hm2⟩ := Mem.write_some hv 0
  refine ⟨m2, ?_, hshape1.trans (Mem.sameShape_write hm2), ?_⟩
  · simp only [string_copy, buffer_copy_urange, ptrDiff_add_self, hm1, hm2]
  · intro q
    rw [Mem.read_write hm2, hread1]
    by_cases hq : q.blk = b.last.blk ∧ b.last.off ≤ q.off ∧ q.off ≤ b.last.off + xs.length
    · rw [if_pos hq]
      by_cases he : q.off = b.last.off + xs.length
      · rw [if_pos ((Ptr.eq_iff q (b.last.add xs.length)).2 ⟨hq.1, he⟩), if_pos he]
      · rw [if_neg (by rw [Ptr.eq_iff]; simp only [Ptr.add_off]; tauto), if_neg he,
          if_pos ⟨hq.1, hq.2.1, by omega⟩, ← hrd _ (by omega)]
        congr 1
    · rw [if_neg hq, if_neg (by rw [Ptr.eq_iff]; simp only [Ptr.add_off, Ptr.add_blk]; omega),
        if_neg (by omega)]

theorem Mem.readRange_congr {m m1 : Mem α} {p : Ptr} {n : Nat}
    (h : ∀ i, i < n → m1.read (p.add i) = m.read (p.add i)) :
    m1.readRange p n = m.readRange p n := by
  apply Option.ext
  intro xs
  simp only [Option.mem_def, Mem.readRange_eq_some]
  constructor
  · rintro ⟨hl, hr⟩
    exact ⟨hl, fun i hi => by rw [← h i hi]; exact hr i hi⟩
  · rintro ⟨hl, hr⟩
    exact ⟨hl, fun i hi => by rw [h i hi]; exact hr i hi⟩

theorem Mem.readRange_blk_lt {m : Mem α} {p : Ptr} {n : Nat} {xs : List α}
    (h : m.readRange p n = some xs) (hn : 0 < n) : p.blk < m.next := by
  obtain ⟨hl, hr⟩ := (Mem.readRange_eq_some m _ _ _).1 h
  have h0 := hr 0 hn
  rw [Ptr.add_zero, List.getElem?_eq_getElem (by omega)] at h0
  exact Mem.read_lt h0

/-- Reading back a string whose header is `first = (k, 0)`, `last = (k, |xs|)` from a memory
where block `k` starts with `xs` followed by `0`. -/
theorem basic_string.observe_of_read (m : Mem CChar) (s : basic_string) (k : Nat)
    (xs : List CChar) (hf : s.m_buffer.first = ⟨k, 0⟩) (hl : s.m_buffer.last = ⟨k, xs.length⟩)
    (hread : ∀ i, i ≤ xs.length →
      m.read ⟨k, i⟩ = if i = xs.length then some 0 else xs[i]?) :
    s.size = xs.length ∧
      (∀ i, i < xs.length → s.get m i = xs[i]?) ∧
      s.get m s.size = some 0 ∧
      s.contents m = some xs ∧
      s.terminated m := by
  have hsize : s.size = xs.length := by
    simp [basic_string.size, buffer.size, hf, hl]
  have hget : ∀ i, i < xs.length → s.get m i = xs[i]? := by
    intro i hi
    simp only [basic_string.get, hf, Ptr.add, Nat.zero_add]
    rw [hread i (by omega), if_neg (by omega)]
  refine ⟨hsize, hget, ?_, ?_, ?_⟩
  · simp only [basic_string.get, hf, Ptr.add, Nat.zero_add, hsize]
    rw [hread _ (Nat.le_refl _), if_pos rfl]
  · simp only [basic_string.contents, buffer.contents]
    rw [show s.m_buffer.size = xs.length from hsize, Mem.readRange_eq_some]
    exact ⟨rfl, fun i hi => hget i hi⟩
  · simp only [basic_string.terminated, hl]
    rw [hread _ (Nat.le_refl _), if_pos rfl]

/-- What the range constructor does: the new string holds `xs`, is valid, and no cell of an
older block other than its own `m_small` is written. -/
theorem ctor_range_spec (m : Mem CChar) (self : Nat) (first : Ptr) (xs : List CChar)
    (hself : m.blockSize self = some c_nbuffer)
    (hsrc : m.readRange first xs.length = some xs)
    (hne : first.blk ≠ self) :
    ∃ m1 s, basic_string.ctor_range m self first (first.add xs.length) = some (m1, s) ∧
      s.m_small = self ∧
      s.size = xs.length ∧
      (∀ i, i < xs.length → s.get m1 i = xs[i]?) ∧
      s.get m1 s.size = some 0 ∧
      s.contents m1 = some xs ∧
      s.Valid m1 ∧
      (∀ q : Ptr, q.blk ≠ self → q.blk < m.next → m1.read q = m.read q) := by
  by_cases hn : xs.length + 1 ≤ c_nbuffer
  · -- the bytes and the terminator fit in `m_small`
    have hdst : ∀ k, k ≤ xs.length →
        ∃ v, m.read ((basic_string.ctor_default self).m_buffer.last.add k) = some v := by
      intro k hk
      exact Mem.read_of_blockSize hself _ (by simp only [basic_string.ctor_default]; omega)
    obtain ⟨m2, hm2, hshape, hread⟩ := string_copy_spec m (basic_string.ctor_default self).m_buffer
      first xs hsrc hdst (fun h => hne h.symm)
    have hres : string_reserve m (basic_string.ctor_default self).m_buffer
        (basic_string.ctor_default self).small xs.length
        = some (m, (basic_string.ctor_default self).m_buffer) := by
      simp only [string_reserve, buffer_reserve, basic_string.ctor_default, Ptr.add, Nat.zero_add]
      rw [if_pos hn]
    have hgoal : basic_string.ctor_range m self first (first.add xs.length) = some (m2,
        ⟨self, ⟨⟨self, 0⟩, ⟨self, xs.length⟩, ⟨self, c_nbuffer⟩⟩⟩) := by
      simp only [basic_string.ctor_range, ptrDiff_add_self, hres, hm2]
      simp only [basic_string.ctor_default, Ptr.add, Nat.zero_add]
    simp only [basic_string.ctor_default, Ptr.add, Nat.zero_add] at hread
    have hobs := basic_string.observe_of_read m2
      ⟨self, ⟨⟨self, 0⟩, ⟨self, xs.length⟩, ⟨self, c_nbuffer⟩⟩⟩ self xs rfl rfl (by
        intro i hi
        rw [hread, if_pos ⟨rfl, Nat.zero_le _, hi⟩]
        rfl)
    refine ⟨m2, _, hgoal, rfl, hobs.1, hobs.2.1, hobs.2.2.1, hobs.2.2.2.1, ?_, ?_⟩
    · refine ⟨rfl, rfl, rfl, ?_, ?_, ?_, hobs.2.2.2.2⟩
      · simp only; omega
      · simp only; rw [hshape.2.2, hself]
      · simp only; rw [if_pos trivial]; exact ⟨trivial, hn⟩
    · intro q hq _
      rw [hread, if_neg (fun h => hq h.1)]
  · -- a heap block of `|xs| + 1` bytes is allocated
    have hpos : 0 < xs.length := by unfold c_nbuffer at hn; omega
    have hlt := Mem.readRange_blk_lt hsrc hpos
    obtain ⟨m1, hm1⟩ : ∃ m1, m1 = (m.alloc (xs.length + 1)).2 := ⟨_, rfl⟩
    have hsrc1 : m1.readRange first xs.length = some xs := by
      rw [← hsrc, hm1]
      apply Mem.readRange_congr
      intro i _
      rw [Mem.read_alloc, if_neg (by simp only [Ptr.add_blk]; omega)]
    have hdst : ∀ k, k ≤ xs.length →
        ∃ v, m1.read ((⟨m.next, 0⟩ : Ptr).add k) = some v := by
      intro k hk
      rw [hm1, Mem.read_alloc]
      have h1 : ((⟨m.next, 0⟩ : Ptr).add k).blk = m.next := rfl
      have h2 : ((⟨m.next, 0⟩ : Ptr).add k).off < xs.length + 1 := by
        simp only [Ptr.add_off]; omega
      rw [if_pos h1, if_pos h2]
      exact ⟨_, rfl⟩
    obtain ⟨m2, hm2, hshape, hread⟩ := string_copy_spec m1
      ⟨⟨m.next, 0⟩, ⟨m.next, 0⟩, ⟨m.next, xs.length⟩⟩
      first xs hsrc1 hdst (by simp only; omega)
    have hres : string_reserve m (basic_string.ctor_default self).m_buffer
        (basic_string.ctor_default self).small xs.length
        = some (m1, ⟨⟨m.next, 0⟩, ⟨m.next, 0⟩, ⟨m.next, xs.length⟩⟩) := by
      simp only [string_reserve, buffer_reserve, basic_string.ctor_default, Ptr.add, Nat.zero_add]
      rw [if_neg hn]
      simp only [buffer_realloc, buffer_move_urange, ptrDiff, Mem.alloc_fst, buffer.size,
        Nat.sub_self, copy_loop, basic_string.small, decide_True, if_true, and_self, Nat.le_refl,
        Ptr.add, Nat.add_zero, Nat.zero_add, ← hm1]
    have hgoal : basic_string.ctor_range m self first (first.add xs.length) = some (m2,
        ⟨self, ⟨⟨m.next, 0⟩, ⟨m.next, xs.length⟩, ⟨m.next, xs.length⟩⟩⟩) := by
      simp only [basic_string.ctor_range, ptrDiff_add_self, hres, hm2]
      simp only [basic_string.ctor_default, Ptr.add, Nat.zero_add]
    simp only [Ptr.add, Nat.zero_add] at hread
    have hobs := basic_string.observe_of_read m2
      ⟨self, ⟨⟨m.next, 0⟩, ⟨m.next, xs.length⟩, ⟨m.next, xs.length⟩⟩⟩ m.next xs rfl rfl (by
        intro i hi
        rw [hread, if_pos ⟨rfl, Nat.zero_le _, hi⟩]
        rfl)
    have hselflt : self < m.next := by
      obtain ⟨v, hv⟩ := Mem.read_of_blockSize hself 0 (by decide)
      exact Mem.read_lt hv
    refine ⟨m2, _, hgoal, rfl, hobs.1, hobs.2.1, hobs.2.2.1, hobs.2.2.2.1, ?_, ?_⟩
    · refine ⟨rfl, rfl, rfl, Nat.le_refl _, ?_, ?_, hobs.2.2.2.2⟩
      · simp only
        rw [hshape.2.2, hm1, Mem.blockSize_alloc, if_neg (by omega), hself]
      · simp only
        rw [if_neg (by omega), hshape.2.2, hm1, Mem.blockSize_alloc, if_pos rfl]
    · intro q _ hq
      rw [hread, if_neg (fun h => by omega), hm1, Mem.read_alloc, if_neg (by omega)]

/-- C3: the string built from the range `[first, first + |xs|)` holding `xs` has size `|xs|`,
holds `xs` and is terminated, whatever the length of `xs`. -/
theorem ctor_range_round_trip (m : Mem CChar) (self : Nat) (first : Ptr) (xs : List CChar)
    (hself : m.blockSize self = some c_nbuffer)
    (hsrc : m.readRange first xs.length = some xs)
    (hne : first.blk ≠ self) :
    ∃ m1 s, basic_string.ctor_range m self first (first.add xs.length) = some (m1, s) ∧
      s.size = xs.length ∧
      (∀ i, i < xs.length → s.get m1 i = xs[i]?) ∧
      s.get m1 s.size = some 0 ∧
      s.contents m1 = some xs ∧
      s.Valid m1 := by
  obtain ⟨m1, s, h1, _, h2, h3, h4, h5, h6, _⟩ := ctor_range_spec m self first xs hself hsrc hne
  exact ⟨m1, s, h1, h2, h3, h4, h5, h6⟩

namespace basic_string

theorem Valid.inline_iff {m : Mem CChar} {s : basic_string} (h : s.Valid m) :
    s.m_buffer.first = s.small ↔ s.m_buffer.first.blk = s.m_small := by
  rw [Ptr.eq_iff]
  simp only [small]
  exact ⟨fun h1 => h1.1, fun h1 => ⟨h1, h.2.2.1⟩⟩

theorem Valid.last_eq {m : Mem CChar} {s : basic_string} (h : s.Valid m) :
    s.m_buffer.last = s.m_buffer.first.add s.size := by
  rw [Ptr.eq_iff]
  refine ⟨h.1, ?_⟩
  simp only [Ptr.add_off, size, buffer.size, h.2.2.1]
  omega

theorem contents_length {m : Mem CChar} {s : basic_string} {xs : List CChar}
    (h : s.contents m = some xs) : xs.length = s.size :=
  ((Mem.readRange_eq_some m _ _ _).1 h).1

theorem contents_read {m : Mem CChar} {s : basic_string} {xs : List CChar}
    (h : s.contents m = some xs) (i : Nat) (hi : i < xs.length) :
    m.read (s.m_buffer.first.add i) = xs[i]? := by
  obtain ⟨hl, hr⟩ := (Mem.readRange_eq_some m _ _ _).1 h
  exact hr i (by rw [← hl]; exact hi)

end basic_string

/-- C6: move construction gives the new string the bytes and size of the source and leaves
the source empty, inline, with capacity 12 and a terminator at index 0. -/
theorem ctor_move_transfers (m : Mem CChar) (self : Nat) (src : basic_string)
    (xs : List CChar) (hv : src.Valid m) (hxs : src.contents m = some xs)
    (hself : m.blockSize self = some c_nbuffer)
    (hne1 : self ≠ src.m_small) (hne2 : self ≠ src.m_buffer.first.blk) :
    ∃ m1 dst src1, basic_string.ctor_move m self src = some (m1, dst, src1) ∧
      dst.contents m1 = some xs ∧ dst.size = xs.length ∧
      src1.size = 0 ∧ src1.isInline ∧ src1.capacity = c_nbuffer ∧ src1.get m1 0 = some 0 ∧
      src1.m_small = src.m_small ∧ dst.Valid m1 ∧ src1.Valid m1 := by
  have hlen := basic_string.contents_length hxs
  have hrd := basic_string.contents_read hxs
  obtain ⟨hv1, hv2, hv3, hv4, hv5, hv6, hv7⟩ := hv
  have hvalid : src.Valid m := ⟨hv1, hv2, hv3, hv4, hv5, hv6, hv7⟩
  by_cases hin : src.m_buffer.first = src.small
  · -- inline source: the bytes are copied into the new object's `m_small`
    have hblk : src.m_buffer.first.blk = src.m_small := hvalid.inline_iff.1 hin
    rw [if_pos hblk] at hv6
    have hsz : src.size = src.m_buffer.last.off := by
      simp [basic_string.size, buffer.size, hv3]
    have hsrc : m.readRange src.m_buffer.first xs.length = some xs := by
      rw [hlen]; exact hxs
    have hdst : ∀ k, k ≤ xs.length →
        ∃ v, m.read ((basic_string.ctor_default self).m_buffer.last.add k) = some v := by
      intro k hk
      exact Mem.read_of_blockSize hself _ (by simp only [basic_string.ctor_default]; omega)
    obtain ⟨m1, hm1, hshape1, hread1⟩ := string_copy_spec m
      (basic_string.ctor_default self).m_buffer src.m_buffer.first xs hsrc hdst hne2
    rw [hlen, ← hvalid.last_eq] at hm1
    obtain ⟨w, hw⟩ : ∃ w, m1.read src.small = some w := by
      apply Mem.read_of_blockSize (n := c_nbuffer) _ _ (by decide)
      rw [hshape1.2.2, hv5]
    obtain ⟨m2, hm2⟩ := Mem.write_some hw 0
    have hshape2 := hshape1.trans (Mem.sameShape_write hm2)
    have hread2 := Mem.read_write hm2
    have hgoal : basic_string.ctor_move m self src = some (m2,
        ⟨self, ⟨⟨self, 0⟩, ⟨self, xs.length⟩, ⟨self, c_nbuffer⟩⟩⟩,
        ⟨src.m_small, ⟨src.small, src.small, src.small.add c_nbuffer⟩⟩) := by
      simp only [basic_string.ctor_move, if_pos hin, hm1, string_reset, hm2]
      simp only [basic_string.ctor_default, Ptr.add, Nat.zero_add, hlen]
    simp only [basic_string.ctor_default, Ptr.add, Nat.zero_add] at hread1
    have hobs := basic_string.observe_of_read m2
      ⟨self, ⟨⟨self, 0⟩, ⟨self, xs.length⟩, ⟨self, c_nbuffer⟩⟩⟩ self xs rfl rfl (by
        intro i hi
        rw [hread2, if_neg (by rw [Ptr.eq_iff]; simp only [basic_string.small]; tauto),
          hread1, if_pos ⟨rfl, Nat.zero_le _, hi⟩]
        rfl)
    have hsrc0 : m2.read src.small = some 0 := by rw [hread2, if_pos rfl]
    refine ⟨m2, _, _, hgoal, hobs.2.2.2.1, hobs.1, ?_, rfl, ?_, ?_, rfl, ?_, ?_⟩
    · simp [basic_string.size, buffer.size]
    · simp [basic_string.capacity, buffer.cap, basic_string.small, Ptr.add]
    · simpa [basic_string.get] using hsrc0
    · refine ⟨rfl, rfl, rfl, ?_, ?_, ?_, hobs.2.2.2.2⟩
      · simp only; omega
      · simp only; rw [hshape2.2.2, hself]
      · simp only; rw [if_pos trivial]; exact ⟨trivial, by omega⟩
    · refine ⟨rfl, rfl, rfl, ?_, ?_, ?_, hsrc0⟩
      · simp [basic_string.small, Ptr.add]
      · simp only; rw [hshape2.2.2, hv5]
      · simp only [basic_string.small, Ptr.add]
        rw [if_pos trivial]
        exact ⟨by simp, by decide⟩
  · -- heap source: the header is taken over
    have hblk : src.m_buffer.first.blk ≠ src.m_small := fun h => hin (hvalid.inline_iff.2 h)
    rw [if_neg hblk] at hv6
    obtain ⟨w, hw⟩ : ∃ w, m.read src.small = some w :=
      Mem.read_of_blockSize hv5 _ (by decide)
    obtain ⟨m2, hm2⟩ := Mem.write_some hw 0
    have hshape2 := Mem.sameShape_write hm2
    have hread2 := Mem.read_write hm2
    have hgoal : basic_string.ctor_move m self src = some (m2, ⟨self, src.m_buffer⟩,
        ⟨src.m_small, ⟨src.small, src.small, src.small.add c_nbuffer⟩⟩) := by
      simp only [basic_string.ctor_move, if_neg hin, string_reset, hm2]
      rfl
    have hsrc0 : m2.read src.small = some 0 := by rw [hread2, if_pos rfl]
    have hkeep : ∀ q : Ptr, q.blk = src.m_buffer.first.blk → m2.read q = m.read q := by
      intro q hq
      rw [hread2, if_neg (by rw [Ptr.eq_iff]; simp only [basic_string.small]; rw [hq]; tauto)]
    refine ⟨m2, _, _, hgoal, ?_, hlen.symm, ?_, rfl, ?_, ?_, rfl, ?_, ?_⟩
    · simp only [basic_string.contents, buffer.contents]
      rw [← hxs]
      exact Mem.readRange_congr (fun i _ => hkeep _ rfl)
    · simp [basic_string.size, buffer.size]
    · simp [basic_string.capacity, buffer.cap, basic_string.small, Ptr.add]
    · simpa [basic_string.get] using hsrc0
    · refine ⟨hv1, hv2, hv3, hv4, ?_, ?_, ?_⟩
      · simp only; rw [hshape2.2.2, hself]
      · simp only; rw [if_neg (fun h => hne2 h.symm), hshape2.2.2, hv6]
      · simp only [basic_string.terminated]
        rw [hkeep _ hv1]
        exact hv7
    · refine ⟨rfl, rfl, rfl, ?_, ?_, ?_, hsrc0⟩
      · simp [basic_string.small, Ptr.add]
      · simp only; rw [hshape2.2.2, hv5]
      · simp only [basic_string.small, Ptr.add]
        rw [if_pos trivial]
        exact ⟨by simp, by decide⟩

/-! ## `swap` -/

/-- The three steps by which `swap` installs `n` bytes read from `src` in the inline array
`t`: `string_reset` with a size, the copy loop, the terminator. -/
theorem swap_install_spec (m : Mem CChar) (t : Nat) (src : Ptr) (n : Nat)
    (hn : n + 1 ≤ c_nbuffer) (ht : m.blockSize t = some c_nbuffer)
    (hsrc : ∀ i, i < n → ∃ v, m.read (src.add i) = some v) (hne : t ≠ src.blk) :
    ∃ m2 m3 m4,
      string_reset_size m ⟨t, 0⟩ c_nbuffer n
        = some (m2, ⟨⟨t, 0⟩, Ptr.add ⟨t, 0⟩ n, Ptr.add ⟨t, 0⟩ c_nbuffer⟩) ∧
      copy_loop n ⟨t, 0⟩ src m2 = some m3 ∧
      m3.write (Ptr.add ⟨t, 0⟩ n) 0 = some m4 ∧
      m.SameShape m4 ∧
      ∀ q, m4.read q =
        if q.blk = t ∧ q.off ≤ n then
          (if q.off = n then some 0 else m.read ⟨src.blk, src.off + q.off⟩)
        else m.read q := by
  obtain ⟨w, hw⟩ := Mem.read_of_blockSize ht n (by omega)
  obtain ⟨m2, hm2⟩ := Mem.write_some hw 0
  have hsh2 := Mem.sameShape_write hm2
  have hr2 := Mem.read_write hm2
  have hsrc2 : ∀ i, i < n → ∃ v, m2.read (src.add i) = some v := by
    intro i hi
    rw [hr2, if_neg (by rw [Ptr.eq_iff]; simp only [Ptr.add_blk]; tauto)]
    exact hsrc i hi
  have hdst2 : ∀ i, i < n → ∃ v, m2.read ((⟨t, 0⟩ : Ptr).add i) = some v := by
    intro i hi
    apply Mem.read_of_blockSize (n := c_nbuffer) _ _ (by simp only [Nat.zero_add]; omega)
    rw [hsh2.2.2, ht]
  obtain ⟨m3, hm3, hsh3, hr3⟩ := copy_loop_spec n ⟨t, 0⟩ src m2 hsrc2 hdst2 (Or.inl hne)
  obtain ⟨w3, hw3⟩ : ∃ v, m3.read ⟨t, n⟩ = some v := by
    apply Mem.read_of_blockSize (n := c_nbuffer) _ _ (by omega)
    rw [hsh3.2.2, hsh2.2.2, ht]
  obtain ⟨m4, hm4⟩ := Mem.write_some hw3 0
  have hr4 := Mem.read_write hm4
  refine ⟨m2, m3, m4, ?_, hm3, ?_, (hsh2.trans hsh3).trans (Mem.sameShape_write hm4), ?_⟩
  · simp only [string_reset_size, Ptr.add, Nat.zero_add, hm2]
  · simpa [Ptr.add] using hm4
  · have hr3a : ∀ q : Ptr, m3.read q =
        if q.blk = t ∧ q.off < n then m2.read ⟨src.blk, src.off + q.off⟩ else m2.read q := by
      intro q
      rw [hr3]
      simp only [Nat.zero_le, true_and, Nat.zero_add, Nat.sub_zero]
    intro q
    by_cases hq : q.blk = t
    · by_cases hqn : q.off = n
      · rw [hr4, if_pos ((Ptr.eq_iff q ⟨t, n⟩).2 ⟨hq, hqn⟩), if_pos ⟨hq, by omega⟩, if_pos hqn]
      · have hqne : ¬ q = ⟨t, n⟩ := by rw [Ptr.eq_iff]; tauto
        by_cases hlt : q.off < n
        · rw [hr4, if_neg hqne, hr3a, if_pos ⟨hq, hlt⟩, if_pos ⟨hq, by omega⟩, if_neg hqn, hr2,
            if_neg (by rw [Ptr.eq_iff]; simp only; tauto)]
        · rw [hr4, if_neg hqne, hr3a, if_neg (by tauto), hr2, if_neg hqne,
            if_neg (by omega)]
    · have hqne : ¬ q = ⟨t, n⟩ := by rw [Ptr.eq_iff]; tauto
      rw [hr4, if_neg hqne, hr3a, if_neg (by tauto), hr2, if_neg hqne, if_neg (by tauto)]

theorem Mem.blockSize_lt {m : Mem α} {k n : Nat} (h : m.blockSize k = some n) : k < m.next := by
  unfold Mem.blockSize at h
  cases hb : m.block k with
  | none => simp [hb] at h
  | some cells => exact Mem.block_lt hb

namespace basic_string

theorem Valid.inline_size {m : Mem CChar} {s : basic_string} (h : s.Valid m)
    (hin : s.m_buffer.first = s.small) :
    s.m_buffer.size + 1 ≤ c_nbuffer ∧ s.m_buffer.capacity.off = c_nbuffer := by
  have h6 := h.2.2.2.2.2.1
  rw [if_pos (h.inline_iff.1 hin)] at h6
  simp only [buffer.size]
  omega

theorem Valid.header_inline {m : Mem CChar} {s : basic_string} (h : s.Valid m)
    (hin : s.m_buffer.first = s.small) :
    s.m_buffer = ⟨s.small, s.small.add s.m_buffer.size, s.small.add c_nbuffer⟩ := by
  obtain ⟨h1, h2, h3, h4, h5, h6, h7⟩ := h
  have hv : s.Valid m := ⟨h1, h2, h3, h4, h5, h6, h7⟩
  have hs := hv.inline_size hin
  have hl := hv.last_eq
  cases hb : s.m_buffer with
  | mk f l c =>
    rw [hb] at hin hl h2 h3 hs
    simp only at hin hl h2 h3 hs
    subst hin
    simp only [basic_string.size, hb] at hl
    congr 1
    rw [Ptr.eq_iff]
    simp only [small, Ptr.add] at h2 ⊢
    exact ⟨h2, by omega⟩

end basic_string

/-- What `a.swap(b)` does to the headers and to the memory, for two valid strings that share
no storage. -/
theorem swap_spec (m : Mem CChar) (a b : basic_string)
    (hva : a.Valid m) (hvb : b.Valid m) (hsep : basic_string.Separate a b) :
    ∃ m1, basic_string.swap m a b
        = some (m1, ⟨a.m_small, basic_string.swapped_header a b⟩,
            ⟨b.m_small, basic_string.swapped_header b a⟩) ∧
      (∀ k, k < m.next → m1.blockSize k = m.blockSize k) ∧
      (∀ q : Ptr, q.blk < m.next → q.blk ≠ a.m_small → q.blk ≠ b.m_small →
        m1.read q = m.read q) ∧
      (b.m_buffer.first = b.small → ∀ i, i ≤ b.m_buffer.size →
        m1.read ⟨a.m_small, i⟩ = if i = b.m_buffer.size then some 0 else m.read ⟨b.m_small, i⟩) ∧
      (a.m_buffer.first = a.small → ∀ i, i ≤ a.m_buffer.size →
        m1.read ⟨b.m_small, i⟩ = if i = a.m_buffer.size then some 0 else m.read ⟨a.m_small, i⟩) := by
  have halt : a.m_small < m.next := Mem.blockSize_lt hva.2.2.2.2.1
  have hblt : b.m_small < m.next := Mem.blockSize_lt hvb.2.2.2.2.1
  have hab : a.m_small ≠ b.m_small := hsep.1
  obtain ⟨m0, hm0⟩ : ∃ m0, m0 = (m.alloc c_nbuffer).2 := ⟨_, rfl⟩
  have halloc : m.alloc c_nbuffer = (⟨m.next, 0⟩, m0) := by rw [hm0]; rfl
  have hr0 : ∀ q : Ptr, q.blk ≠ m.next → m0.read q = m.read q := by
    intro q hq
    rw [hm0, Mem.read_alloc, if_neg hq]
  have hs0 : ∀ k, m0.blockSize k = if k = m.next then some c_nbuffer else m.blockSize k := by
    intro k
    rw [hm0, Mem.blockSize_alloc]
  have hs0a : m0.blockSize a.m_small = some c_nbuffer := by
    rw [hs0, if_neg (by omega)]; exact hva.2.2.2.2.1
  have hs0b : m0.blockSize b.m_small = some c_nbuffer := by
    rw [hs0, if_neg (by omega)]; exact hvb.2.2.2.2.1
  have hs0t : m0.blockSize m.next = some c_nbuffer := by rw [hs0, if_pos rfl]
  -- phase 1: the bytes of an inline `b` are saved in `tbuffer`
  have P1 : ∃ m1, (b.m_buffer.first = b.small →
        copy_loop b.m_buffer.size ⟨m.next, 0⟩ b.small m0 = some m1) ∧
      (¬ b.m_buffer.first = b.small → m1 = m0) ∧ m0.SameShape m1 ∧
      ∀ q : Ptr, m1.read q =
        if b.m_buffer.first = b.small ∧ q.blk = m.next ∧ q.off < b.m_buffer.size then
          m0.read ⟨b.m_small, q.off⟩
        else m0.read q := by
    by_cases hb : b.m_buffer.first = b.small
    · have hbs := hvb.inline_size hb
      obtain ⟨m1, hm1, hsh1, hr1⟩ := copy_loop_spec b.m_buffer.size ⟨m.next, 0⟩ b.small m0
        (fun i hi => Mem.read_of_blockSize hs0b _ (by
          simp only [basic_string.small, Nat.zero_add]; omega))
        (fun i hi => Mem.read_of_blockSize hs0t _ (by simp only [Nat.zero_add]; omega))
        (Or.inl (by simp only [basic_string.small]; omega))
      refine ⟨m1, fun _ => hm1, fun h => absurd hb h, hsh1, ?_⟩
      intro q
      rw [hr1]
      simp only [basic_string.small, Nat.zero_le, true_and, Nat.zero_add, Nat.sub_zero, hb]
    · exact ⟨m0, fun h => absurd h hb, fun _ => rfl, Mem.SameShape.refl m0,
        fun q => by rw [if_neg (by tauto)]⟩
  obtain ⟨m1, hE1, hN1, hsh1, hr1⟩ := P1
  -- phase 2: the bytes of an inline `a` are installed in the inline array of `b`
  have P2 : ∃ m5, (a.m_buffer.first = a.small → ∃ m2 m3,
        string_reset_size m1 b.small c_nbuffer a.m_buffer.size
          = some (m2, ⟨b.small, b.small.add a.m_buffer.size, b.small.add c_nbuffer⟩) ∧
        copy_loop a.m_buffer.size b.small a.small m2 = some m3 ∧
        m3.write (b.small.add a.m_buffer.size) 0 = some m5) ∧
      (¬ a.m_buffer.first = a.small → m5 = m1) ∧ m1.SameShape m5 ∧
      ∀ q : Ptr, m5.read q =
        if a.m_buffer.first = a.small ∧ q.blk = b.m_small ∧ q.off ≤ a.m_buffer.size then
          (if q.off = a.m_buffer.size then some 0 else m1.read ⟨a.m_small, q.off⟩)
        else m1.read q := by
    by_cases ha : a.m_buffer.first = a.small
    · have has := hva.inline_size ha
      obtain ⟨m2, m3, m4, h2, h3, h4, hsh, hr⟩ := swap_install_spec m1 b.m_small a.small
        a.m_buffer.size has.1 (by rw [hsh1.2.2, hs0b])
        (fun i hi => Mem.read_of_blockSize (n := c_nbuffer) ((hsh1.2.2 _).trans hs0a) _ (by
          simp only [basic_string.small, Nat.zero_add]; omega))
        (fun h => hab h.symm)
      refine ⟨m4, fun _ => ⟨m2, m3, h2, h3, h4⟩, fun h => absurd ha h, hsh, ?_⟩
      intro q
      rw [hr]
      simp only [basic_string.small, Nat.zero_add, ha, true_and]
    · exact ⟨m1, fun h => absurd h ha, fun _ => rfl, Mem.SameShape.refl m1,
        fun q => by rw [if_neg (by tauto)]⟩
  obtain ⟨m5, hE2, hN2, hsh2, hr2⟩ := P2
  -- phase 3: the saved bytes of an inline `b` are installed in the inline array of `a`
  have P3 : ∃ m9, (b.m_buffer.first = b.small → ∃ m6 m7,
        string_reset_size m5 a.small c_nbuffer b.m_buffer.size
          = some (m6, ⟨a.small, a.small.add b.m_buffer.size, a.small.add c_nbuffer⟩) ∧
        copy_loop b.m_buffer.size a.small ⟨m.next, 0⟩ m6 = some m7 ∧
        m7.write (a.small.add b.m_buffer.size) 0 = some m9) ∧
      (¬ b.m_buffer.first = b.small → m9 = m5) ∧ m5.SameShape m9 ∧
      ∀ q : Ptr, m9.read q =
        if b.m_buffer.first = b.small ∧ q.blk = a.m_small ∧ q.off ≤ b.m_buffer.size then
          (if q.off = b.m_buffer.size then some 0 else m5.read ⟨m.next, q.off⟩)
        else m5.read q := by
    by_cases hb : b.m_buffer.first = b.small
    · have hbs := hvb.inline_size hb
      obtain ⟨m6, m7, m8, h6, h7, h8, hsh, hr⟩ := swap_install_spec m5 a.m_small ⟨m.next, 0⟩
        b.m_buffer.size hbs.1 (by rw [hsh2.2.2, hsh1.2.2, hs0a])
        (fun i hi => Mem.read_of_blockSize (n := c_nbuffer)
          (by rw [hsh2.2.2, hsh1.2.2, hs0t]) _ (by simp only [Nat.zero_add]; omega))
        (by simp only; omega)
      refine ⟨m8, fun _ => ⟨m6, m7, h6, h7, h8⟩, fun h => absurd hb h, hsh, ?_⟩
      intro q
      rw [hr]
      simp only [Nat.zero_add, hb, true_and]
    · exact ⟨m5, fun h => absurd h hb, fun _ => rfl, Mem.SameShape.refl m5,
        fun q => by rw [if_neg (by tauto)]⟩
  obtain ⟨m9, hE3, hN3, hsh3, hr3⟩ := P3
  -- phase 4: `tbuffer` goes out of scope
  have hs9 : ∀ k, m9.blockSize k = m0.blockSize k := fun k => by
    rw [hsh3.2.2, hsh2.2.2, hsh1.2.2]
  obtain ⟨w, hw⟩ := Mem.read_of_blockSize (n := c_nbuffer) (by rw [hs9, hs0t]) 0 (by decide)
  obtain ⟨m10, hm10⟩ := Mem.free_some hw rfl
  have htb : (⟨m.next, 0⟩ : Ptr) ≠ nullptr := by
    rw [Ne, Ptr.eq_iff]
    simp only [nullptr]
    omega
  have hr10 : ∀ q : Ptr, q.blk ≠ m.next → m10.read q = m9.read q := by
    intro q hq
    rw [Mem.read_free hm10 htb, if_neg hq]
  refine ⟨m10, ?_, ?_, ?_, ?_, ?_⟩
  · by_cases hb : b.m_buffer.first = b.small
    · have hpd : ptrDiff b.m_buffer.last b.small = some b.m_buffer.size := by
        have := hvb.last_eq
        rw [hb] at this
        rw [this]
        exact ptrDiff_add_self _ _
      obtain ⟨m6, m7, h6, h7, h8⟩ := hE3 hb
      by_cases ha : a.m_buffer.first = a.small
      · obtain ⟨m2, m3, h2, h3, h4⟩ := hE2 ha
        simp only [basic_string.swap, halloc, if_pos hb, if_pos ha, hpd, hE1 hb, h2, h3, h4,
          ptrDiff_add_self, h6, h7, h8, hm10, basic_string.swapped_header]
      · have h51 := hN2 ha
        subst h51
        simp only [basic_string.swap, halloc, if_pos hb, if_neg ha, hpd, hE1 hb,
          ptrDiff_add_self, h6, h7, h8, hm10, basic_string.swapped_header]
    · have h10 := hN1 hb
      have h95 := hN3 hb
      subst h10
      subst h95
      by_cases ha : a.m_buffer.first = a.small
      · obtain ⟨m2, m3, h2, h3, h4⟩ := hE2 ha
        simp only [basic_string.swap, halloc, if_neg hb, if_pos ha, h2, h3, h4,
          ptrDiff_add_self, hm10, basic_string.swapped_header]
      · have h51 := hN2 ha
        subst h51
        simp only [basic_string.swap, halloc, if_neg hb, if_neg ha, hm10,
          basic_string.swapped_header]
  · intro k hk
    rw [Mem.blockSize_free hm10 htb, if_neg (by simp only; omega), hs9, hs0,
      if_neg (by omega)]
  · intro q hq hqa hqb
    rw [hr10 q (by omega), hr3, if_neg (by tauto), hr2, if_neg (by tauto), hr1,
      if_neg (by omega), hr0 q (by omega)]
  · intro hb i hi
    rw [hr10 _ (by simp only; omega), hr3, if_pos ⟨hb, rfl, hi⟩]
    by_cases hie : i = b.m_buffer.size
    · rw [if_pos hie, if_pos hie]
    · rw [if_neg hie, if_neg hie, hr2, if_neg (by simp only; omega), hr1,
        if_pos ⟨hb, rfl, by simp only; omega⟩, hr0 _ (by simp only; omega)]
  · intro ha i hi
    rw [hr10 _ (by simp only; omega), hr3, if_neg (fun h => hab h.2.1.symm), hr2,
      if_pos ⟨ha, rfl, hi⟩]
    by_cases hie : i = a.m_buffer.size
    · rw [if_pos hie, if_pos hie]
    · rw [if_neg hie, if_neg hie, hr1, if_neg (by simp only; omega),
        hr0 _ (by simp only; omega)]

/-- One side of `swap`: `x` ends up valid and holding the bytes of `y`. -/
theorem swap_side (m m1 : Mem CChar) (x y : basic_string) (ys : List CChar)
    (hvx : x.Valid m) (hvy : y.Valid m)
    (hyx : y.m_buffer.first.blk ≠ x.m_small)
    (hys : y.contents m = some ys)
    (hsize : ∀ k, k < m.next → m1.blockSize k = m.blockSize k)
    (hkeep : ∀ q : Ptr, q.blk < m.next → q.blk ≠ x.m_small → q.blk ≠ y.m_small →
      m1.read q = m.read q)
    (hinst : y.m_buffer.first = y.small → ∀ i, i ≤ y.m_buffer.size →
      m1.read ⟨x.m_small, i⟩ = if i = y.m_buffer.size then some 0 else m.read ⟨y.m_small, i⟩) :
    (basic_string.mk x.m_small (basic_string.swapped_header x y)).Valid m1 ∧
      (basic_string.mk x.m_small (basic_string.swapped_header x y)).contents m1 = some ys ∧
      (basic_string.mk x.m_small (basic_string.swapped_header x y)).size = ys.length := by
  have hlen : ys.length = y.m_buffer.size := basic_string.contents_length hys
  have hrd := basic_string.contents_read hys
  have hxsz : m1.blockSize x.m_small = some c_nbuffer := by
    rw [hsize _ (Mem.blockSize_lt hvx.2.2.2.2.1)]
    exact hvx.2.2.2.2.1
  by_cases hy : y.m_buffer.first = y.small
  · have hysz := hvy.inline_size hy
    have hhdr : basic_string.swapped_header x y
        = ⟨⟨x.m_small, 0⟩, ⟨x.m_small, ys.length⟩, ⟨x.m_small, c_nbuffer⟩⟩ := by
      unfold basic_string.swapped_header
      rw [if_pos hy]
      simp only [basic_string.small, Ptr.add, Nat.zero_add, hlen]
    rw [hhdr]
    have hobs := basic_string.observe_of_read m1
      ⟨x.m_small, ⟨⟨x.m_small, 0⟩, ⟨x.m_small, ys.length⟩, ⟨x.m_small, c_nbuffer⟩⟩⟩ x.m_small
      ys rfl rfl (by
        intro i hi
        rw [hinst hy i (by omega), hlen]
        by_cases hie : i = y.m_buffer.size
        · rw [if_pos hie, if_pos hie]
        · rw [if_neg hie, if_neg hie, ← hrd i (by omega), hy]
          simp only [basic_string.small, Ptr.add, Nat.zero_add])
    refine ⟨⟨rfl, rfl, rfl, ?_, hxsz, ?_, hobs.2.2.2.2⟩, hobs.2.2.2.1, hobs.1⟩
    · simp only; omega
    · simp only; rw [if_pos trivial]; exact ⟨trivial, by omega⟩
  · have hhdr : basic_string.swapped_header x y = y.m_buffer := by
      simp only [basic_string.swapped_header, if_neg hy]
    rw [hhdr]
    obtain ⟨h1, h2, h3, h4, h5, h6, h7⟩ := hvy
    have hvy : y.Valid m := ⟨h1, h2, h3, h4, h5, h6, h7⟩
    have hblk : y.m_buffer.first.blk ≠ y.m_small := fun h => hy (hvy.inline_iff.2 h)
    rw [if_neg hblk] at h6
    have hk : ∀ q : Ptr, q.blk = y.m_buffer.first.blk → m1.read q = m.read q := by
      intro q hq
      exact hkeep q (by rw [hq]; exact Mem.blockSize_lt h6) (by rw [hq]; exact hyx)
        (by rw [hq]; exact hblk)
    refine ⟨⟨h1, h2, h3, h4, hxsz, ?_, ?_⟩, ?_, hlen.symm⟩
    · simp only
      rw [if_neg hyx, hsize _ (Mem.blockSize_lt h6)]
      exact h6
    · simp only [basic_string.terminated]
      rw [hk _ h1]
      exact h7
    · simp only [basic_string.contents, buffer.contents]
      rw [← hys]
      exact Mem.readRange_congr (fun i _ => hk _ rfl)

/-- After `x.swap(y)` and then again, the header of `x` is what it was. -/
theorem swapped_header_twice (m : Mem CChar) (x y : basic_string) (hvx : x.Valid m)
    (hyx : x.m_buffer.first.blk ≠ y.m_small) :
    basic_string.swapped_header ⟨x.m_small, basic_string.swapped_header x y⟩
      ⟨y.m_small, basic_string.swapped_header y x⟩ = x.m_buffer := by
  by_cases hx : x.m_buffer.first = x.small
  · have h1 : basic_string.swapped_header y x
        = ⟨y.small, y.small.add x.m_buffer.size, y.small.add c_nbuffer⟩ := by
      simp only [basic_string.swapped_header, if_pos hx]
    rw [h1]
    simp only [basic_string.swapped_header, basic_string.small, if_true]
    have h2 := hvx.header_inline hx
    simp only [basic_string.small] at h2
    conv_rhs => rw [h2]
    simp [buffer.size, Ptr.add]
  · have h1 : basic_string.swapped_header y x = x.m_buffer := by
      simp only [basic_string.swapped_header, if_neg hx]
    rw [h1]
    have h2 : ¬ x.m_buffer.first = (basic_string.mk y.m_small x.m_buffer).small := by
      intro h
      apply hyx
      rw [h]
      rfl
    simp only [basic_string.swapped_header, if_neg h2]

/-- The strings after `a.swap(b)`: both valid, still sharing no storage, contents
exchanged. -/
theorem swap_exchange (m : Mem CChar) (a b : basic_string) (xs ys : List CChar)
    (hva : a.Valid m) (hvb : b.Valid m) (hsep : basic_string.Separate a b)
    (hxs : a.contents m = some xs) (hys : b.contents m = some ys) :
    ∃ m1, basic_string.swap m a b
        = some (m1, ⟨a.m_small, basic_string.swapped_header a b⟩,
            ⟨b.m_small, basic_string.swapped_header b a⟩) ∧
      (basic_string.mk a.m_small (basic_string.swapped_header a b)).Valid m1 ∧
      (basic_string.mk b.m_small (basic_string.swapped_header b a)).Valid m1 ∧
      basic_string.Separate ⟨a.m_small, basic_string.swapped_header a b⟩
        ⟨b.m_small, basic_string.swapped_header b a⟩ ∧
      (basic_string.mk a.m_small (basic_string.swapped_header a b)).contents m1 = some ys ∧
      (basic_string.mk b.m_small (basic_string.swapped_header b a)).contents m1 = some xs ∧
      (basic_string.mk a.m_small (basic_string.swapped_header a b)).size = ys.length ∧
      (basic_string.mk b.m_small (basic_string.swapped_header b a)).size = xs.length := by
  obtain ⟨m1, hm1, hsize, hkeep, hib, hia⟩ := swap_spec m a b hva hvb hsep
  obtain ⟨hs1, hs2, hs3, hs4⟩ := hsep
  have sa := swap_side m m1 a b ys hva hvb hs3 hys hsize hkeep hib
  have sb := swap_side m m1 b a xs hvb hva hs2 hxs hsize
    (fun q h1 h2 h3 => hkeep q h1 h3 h2) hia
  refine ⟨m1, hm1, sa.1, sb.1, ?_, sa.2.1, sb.2.1, sa.2.2, sb.2.2⟩
  have hfa : (basic_string.swapped_header a b).first.blk
      = if b.m_buffer.first = b.small then a.m_small else b.m_buffer.first.blk := by
    unfold basic_string.swapped_header
    split <;> rfl
  have hfb : (basic_string.swapped_header b a).first.blk
      = if a.m_buffer.first = a.small then b.m_small else a.m_buffer.first.blk := by
    unfold basic_string.swapped_header
    split <;> rfl
  have hia2 := hva.inline_iff
  have hib2 := hvb.inline_iff
  refine ⟨hs1, ?_, ?_, ?_⟩
  · simp only [hfa]
    split
    · exact hs1
    · rename_i h; exact fun h2 => h (hib2.2 h2)
  · simp only [hfb]
    split
    · exact fun h => hs1 h.symm
    · rename_i h; exact fun h2 => h (hia2.2 h2)
  · simp only [hfa, hfb]
    split <;> split
    · exact hs1
    · rename_i h; exact fun h2 => h (hia2.2 h2.symm)
    · rename_i h _; exact fun h2 => h (hib2.2 h2)
    · exact fun h => hs4 h.symm

/-- C4: `a.swap(b)` exchanges the bytes and sizes of two valid strings that share no
storage, in every combination of inline and heap mode; afterwards each string points at its
own inline array or at a heap block, never at the inline array of the other, and both are
terminated. -/
theorem swap_exchanges_contents (m : Mem CChar) (a b : basic_string) (xs ys : List CChar)
    (hva : a.Valid m) (hvb : b.Valid m) (hsep : basic_string.Separate a b)
    (hxs : a.contents m = some xs) (hys : b.contents m = some ys) :
    ∃ m1 a1 b1, basic_string.swap m a b = some (m1, a1, b1) ∧
      a1.contents m1 = some ys ∧ b1.contents m1 = some xs ∧
      a1.size = ys.length ∧ b1.size = xs.length ∧
      a1.m_small = a.m_small ∧ b1.m_small = b.m_small ∧
      a1.m_buffer.first.blk ≠ b1.m_small ∧ b1.m_buffer.first.blk ≠ a1.m_small ∧
      a1.terminated m1 ∧ b1.terminated m1 ∧
      a1.Valid m1 ∧ b1.Valid m1 ∧ basic_string.Separate a1 b1 := by
  obtain ⟨m1, hm1, hv1, hv2, hsep1, hc1, hc2, hz1, hz2⟩ :=
    swap_exchange m a b xs ys hva hvb hsep hxs hys
  exact ⟨m1, _, _, hm1, hc1, hc2, hz1, hz2, rfl, rfl, hsep1.2.1, hsep1.2.2.1,
    hv1.2.2.2.2.2.2, hv2.2.2.2.2.2.2, hv1, hv2, hsep1⟩

/-- C5: swapping two valid strings that share no storage twice gives back the two headers
unchanged (so the same size, capacity and storage mode) over the same bytes. -/
theorem swap_involution (m : Mem CChar) (a b : basic_string) (xs ys : List CChar)
    (hva : a.Valid m) (hvb : b.Valid m) (hsep : basic_string.Separate a b)
    (hxs : a.contents m = some xs) (hys : b.contents m = some ys) :
    ∃ m1 a1 b1 m2, basic_string.swap m a b = some (m1, a1, b1) ∧
      basic_string.swap m1 a1 b1 = some (m2, a, b) ∧
      a.contents m2 = some xs ∧ b.contents m2 = some ys ∧
      a.Valid m2 ∧ b.Valid m2 := by
  obtain ⟨m1, hm1, hv1, hv2, hsep1, hc1, hc2, _, _⟩ :=
    swap_exchange m a b xs ys hva hvb hsep hxs hys
  obtain ⟨m2, hm2, hw1, hw2, _, hd1, hd2, _, _⟩ :=
    swap_exchange m1 _ _ ys xs hv1 hv2 hsep1 hc1 hc2
  have ha := swapped_header_twice m a b hva hsep.2.1
  have hb := swapped_header_twice m b a hvb hsep.2.2.1
  simp only at hm2 hw1 hw2 hd1 hd2
  rw [ha, hb] at hm2
  rw [ha] at hw1 hd1
  rw [hb] at hw2 hd2
  exact ⟨m1, _, _, m2, hm1, hm2, hd1, hd2, hw1, hw2⟩

/-! ## `find` -/

theorem take_succ_drop (l : List CChar) (i cnt : Nat) (hi : i < l.length) :
    (l.drop i).take (cnt + 1) = l[i] :: (l.drop (i + 1)).take cnt := by
  rw [List.drop_eq_getElem_cons hi, List.take_succ_cons]

/-- Models `string_compare` over two ranges holding known bytes: the result is `0` exactly when
the compared bytes agree. -/
theorem string_compare_spec (m : Mem CChar) (p1 p2 : Ptr) (h n : List CChar)
    (hh : ∀ i, i < h.length → m.read (p1.add i) = h[i]?)
    (hn : ∀ i, i < n.length → m.read (p2.add i) = n[i]?) (cnt : Nat) :
    ∀ i j, i + cnt ≤ h.length → j + cnt ≤ n.length →
      ∃ r, string_compare m (p1.add i) (p2.add j) cnt = some r ∧
        (r = 0 ↔ (h.drop i).take cnt = (n.drop j).take cnt) := by
  induction cnt with
  | zero =>
    intro i j _ _
    exact ⟨0, rfl, by simp⟩
  | succ cnt ih =>
    intro i j hi hj
    have h1 : m.read (p1.add i) = some h[i] := by
      rw [hh i (by omega), List.getElem?_eq_getElem]
    have h2 : m.read (p2.add j) = some n[j] := by
      rw [hn j (by omega), List.getElem?_eq_getElem]
    rw [take_succ_drop h i cnt (by omega), take_succ_drop n j cnt (by omega)]
    by_cases hc : h[i] = n[j]
    · obtain ⟨r, hr, hiff⟩ := ih (i + 1) (j + 1) (by omega) (by omega)
      refine ⟨r, ?_, ?_⟩
      · simp only [string_compare, h1, h2, ne_eq, hc, not_true_eq_false, if_false,
          Ptr.add_add, hr]
      · rw [hiff, hc]
        simp
    · refine ⟨if h[i] < n[j] then -1 else 1, ?_, ?_⟩
      · simp only [string_compare, h1, h2, ne_eq, hc, not_false_eq_true, if_true]
      · constructor
        · intro h0
          split at h0 <;> simp at h0
        · intro h0
          injection h0 with h0 _
          exact absurd h0 hc

/-- Models `string_find` over a range holding known bytes: the first occurrence, or `nullptr`. -/
theorem string_find_spec (m : Mem CChar) (p : Ptr) (h : List CChar) (c : CChar)
    (hh : ∀ i, i < h.length → m.read (p.add i) = h[i]?) (cnt : Nat) :
    ∀ i, i + cnt ≤ h.length →
      (string_find m (p.add i) cnt c = some none ∧
        ∀ k, i ≤ k → k < i + cnt → h[k]? ≠ some c) ∨
      (∃ k, string_find m (p.add i) cnt c = some (some (p.add k)) ∧ i ≤ k ∧ k < i + cnt ∧
        h[k]? = some c ∧ ∀ k', i ≤ k' → k' < k → h[k']? ≠ some c) := by
  induction cnt with
  | zero =>
    intro i _
    exact Or.inl ⟨rfl, fun k h1 h2 => by omega⟩
  | succ cnt ih =>
    intro i hi
    have h1 : m.read (p.add i) = some h[i] := by
      rw [hh i (by omega), List.getElem?_eq_getElem]
    by_cases hc : h[i] = c
    · refine Or.inr ⟨i, ?_, Nat.le_refl _, by omega, ?_, fun k' h1 h2 => by omega⟩
      · simp only [string_find, h1, hc, if_true]
      · rw [List.getElem?_eq_getElem (by omega), hc]
    · have hstep : string_find m (p.add i) (cnt + 1) c = string_find m (p.add (i + 1)) cnt c := by
        simp only [string_find, h1, hc, if_false, Ptr.add_add]
      have hki : ∀ k, i ≤ k → k < i + 1 → h[k]? ≠ some c := by
        intro k hk1 hk2
        have : k = i := by omega
        subst this
        rw [List.getElem?_eq_getElem (by omega)]
        intro h0
        injection h0 with h0
        exact hc h0
      rcases ih (i + 1) (by omega) with ⟨hr, hnone⟩ | ⟨k, hr, hk1, hk2, hk3, hk4⟩
      · refine Or.inl ⟨by rw [hstep, hr], ?_⟩
        intro k hk1 hk2
        by_cases hk : k < i + 1
        · exact hki k hk1 hk
        · exact hnone k (by omega) (by omega)
      · refine Or.inr ⟨k, by rw [hstep, hr], by omega, by omega, hk3, ?_⟩
        intro k' hk1' hk2'
        by_cases hk : k' < i + 1
        · exact hki k' hk1' hk
        · exact hk4 k' (by omega) hk2'

theorem MatchAt.head {h n : List CChar} {i : Nat} (hm : MatchAt h n i) (hne : 0 < n.length) :
    h[i]? = n[0]? := by
  obtain ⟨h1, h2⟩ := hm
  have : ((h.drop i).take n.length)[0]? = n[0]? := by rw [h2]
  rw [List.getElem?_take_of_lt hne, List.getElem?_drop] at this
  simpa using this

/-- The loop of the substring `find`, started at index `k` with enough fuel, returns `npos`
when the needle does not occur at or after `k`, and otherwise the first index at or after
`k` where it occurs. -/
theorem find_loop_spec (m : Mem CChar) (hay needle : Ptr) (h n : List CChar)
    (hh : ∀ i, i < h.length → m.read (hay.add i) = h[i]?)
    (hn : ∀ i, i < n.length → m.read (needle.add i) = n[i]?)
    (hne : 0 < n.length) (hle : n.length ≤ h.length) (fuel : Nat) :
    ∀ k, k ≤ h.length - n.length + 1 → h.length - n.length + 1 - k < fuel →
      ∃ r, find_loop m hay needle (hay.add (h.length - n.length + 1)) n.length fuel (hay.add k)
          = some r ∧
        ((r = npos ∧ ∀ i, k ≤ i → ¬ MatchAt h n i) ∨
         (k ≤ r ∧ MatchAt h n r ∧ ∀ i, k ≤ i → i < r → ¬ MatchAt h n i)) := by
  induction fuel with
  | zero => intro k _ hf; omega
  | succ fuel ih =>
    intro k hk hf
    have hc : m.read needle = some n[0] := by
      have := hn 0 hne
      rw [Ptr.add_zero, List.getElem?_eq_getElem hne] at this
      exact this
    have hcnt : (hay.add (h.length - n.length + 1)).off - (hay.add k).off
        = h.length - n.length + 1 - k := by
      simp only [Ptr.add_off]; omega
    have hnomatch : ∀ i, h[i]? ≠ some n[0] → ¬ MatchAt h n i := by
      intro i hi hm
      apply hi
      rw [hm.head hne, List.getElem?_eq_getElem hne]
    have hbound : ∀ i, MatchAt h n i → i < h.length - n.length + 1 := by
      intro i hm
      have := hm.1
      omega
    rcases string_find_spec m hay h n[0] hh (h.length - n.length + 1 - k) k (by omega) with
      ⟨hr, hnone⟩ | ⟨k1, hr, hk1, hk2, hk3, hk4⟩
    · refine ⟨npos, ?_, Or.inl ⟨rfl, ?_⟩⟩
      · simp only [find_loop, hc, hcnt, hr]
      · intro i hi hm
        exact hnomatch i (hnone i hi (by have := hbound i hm; omega)) hm
    · obtain ⟨r, hcmp, hiff⟩ := string_compare_spec m hay needle h n hh hn n.length k1 0
        (by omega) (by omega)
      rw [Ptr.add_zero] at hcmp
      rw [List.drop_zero, List.take_length] at hiff
      have hbefore : ∀ i, k ≤ i → i < k1 → ¬ MatchAt h n i :=
        fun i hi1 hi2 => hnomatch i (hk4 i hi1 hi2)
      by_cases hr0 : r = 0
      · refine ⟨k1, ?_, Or.inr ⟨hk1, ⟨by omega, hiff.1 hr0⟩, hbefore⟩⟩
        simp only [find_loop, hc, hcnt, hr, hcmp, hr0, if_true]
        simp only [Ptr.add_off]
        congr 1
        omega
      · have hno : ¬ MatchAt h n k1 := fun hm => hr0 (hiff.2 hm.2)
        obtain ⟨r2, hr2, hpost⟩ := ih (k1 + 1) (by omega) (by omega)
        refine ⟨r2, ?_, ?_⟩
        · simp only [find_loop, hc, hcnt, hr, hcmp, hr0, if_false, Ptr.add_add, hr2]
        · have hbefore2 : ∀ i, k ≤ i → i < k1 + 1 → ¬ MatchAt h n i := by
            intro i hi1 hi2
            by_cases hik : i = k1
            · rw [hik]; exact hno
            · exact hbefore i hi1 (by omega)
          rcases hpost with ⟨h1, h2⟩ | ⟨h1, h2, h3⟩
          · refine Or.inl ⟨h1, fun i hi => ?_⟩
            by_cases hik : i < k1 + 1
            · exact hbefore2 i hi hik
            · exact h2 i (by omega)
          · refine Or.inr ⟨by omega, h2, fun i hi1 hi2 => ?_⟩
            by_cases hik : i < k1 + 1
            · exact hbefore2 i hi1 hik
            · exact h3 i (by omega) hi2

/-- C9: with a non-empty needle, `find(needle, offset)` returns the first index at or after
`offset` where the needle occurs in the haystack, and `npos` when there is none. -/
theorem find_first_match (m : Mem CChar) (s other : basic_string) (h n : List CChar) (o : Nat)
    (hh : s.contents m = some h) (hn : other.contents m = some n) (hne : n ≠ []) :
    ∃ r, basic_string.find m s other o = some r ∧
      ((∃ i, o ≤ i ∧ MatchAt h n i) →
        o ≤ r ∧ MatchAt h n r ∧ ∀ i, o ≤ i → i < r → ¬ MatchAt h n i) ∧
      ((¬ ∃ i, o ≤ i ∧ MatchAt h n i) → r = npos) := by
  have hhl := basic_string.contents_length hh
  have hnl := basic_string.contents_length hn
  have hpos : 0 < n.length := List.length_pos.2 hne
  by_cases hguard : other.size > s.size ∨ o > s.size - other.size
  · -- no index at or after `o` leaves room for the needle
    have hnone : ¬ ∃ i, o ≤ i ∧ MatchAt h n i := by
      rintro ⟨i, hi, hm⟩
      have := hm.1
      omega
    refine ⟨npos, ?_, fun hex => absurd hex hnone, fun _ => rfl⟩
    simp only [basic_string.find, if_pos hguard]
  · have hsz : ¬ other.size = 0 := by omega
    have hlast : (s.m_buffer.first.add (s.size - other.size)).add 1
        = s.m_buffer.first.add (h.length - n.length + 1) := by
      rw [Ptr.add_add, hhl, hnl]
    obtain ⟨r, hr, hpost⟩ := find_loop_spec m s.m_buffer.first other.m_buffer.first h n
      (basic_string.contents_read hh) (basic_string.contents_read hn) hpos (by omega)
      (s.size + 1) o (by omega) (by omega)
    refine ⟨r, ?_, ?_, ?_⟩
    · unfold basic_string.find
      simp only []
      rw [if_neg hguard, if_neg hsz, hlast, ← hnl]
      exact hr
    · rintro ⟨i, hi, hm⟩
      rcases hpost with ⟨_, h2⟩ | h3
      · exact absurd hm (h2 i hi)
      · exact h3
    · intro hnone
      rcases hpost with ⟨h1, _⟩ | ⟨h1, h2, _⟩
      · exact h1
      · exact absurd ⟨r, h1, h2⟩ hnone

/-- C10, as the code has it: with an empty needle `find` returns the offset when it is at
most `size()`, and `npos` when it is past the end. -/
theorem find_empty_needle (m : Mem CChar) (s other : basic_string) (o : Nat)
    (hempty : other.size = 0) :
    basic_string.find m s other o = some (if o ≤ s.size then o else npos) := by
  unfold basic_string.find
  simp only []
  rw [hempty]
  by_cases ho : o ≤ s.size
  · rw [if_neg (by omega), if_pos rfl, if_pos ho]
  · rw [if_pos (by omega), if_neg ho]

/-! ## The theorems on the example data -/

/-- C3 at a range of 13 bytes, one more than the inline array holds. -/
theorem ctor_range_round_trip_witness :
    Example.mem.blockSize 8 = some c_nbuffer ∧
    Example.mem.readRange ⟨7, 0⟩ Example.thirteen.length = some Example.thirteen ∧
    ∃ m1 s, basic_string.ctor_range Example.mem 8 ⟨7, 0⟩ (Ptr.add ⟨7, 0⟩ Example.thirteen.length)
        = some (m1, s) ∧
      s.size = Example.thirteen.length ∧
      (∀ i, i < Example.thirteen.length → s.get m1 i = Example.thirteen[i]?) ∧
      s.get m1 s.size = some 0 ∧
      s.contents m1 = some Example.thirteen ∧
      s.Valid m1 :=
  ⟨by decide, by decide,
    ctor_range_round_trip Example.mem 8 ⟨7, 0⟩ Example.thirteen (by decide) (by decide)
      (by decide)⟩

/-- C4 at an inline string and a heap string. -/
theorem swap_exchanges_contents_witness :
    Example.hay.Valid Example.mem ∧ Example.big.Valid Example.mem ∧
    basic_string.Separate Example.hay Example.big ∧
    ∃ m1 a1 b1, basic_string.swap Example.mem Example.hay Example.big = some (m1, a1, b1) ∧
      a1.contents m1
        = some [97, 98, 99, 100, 101, 102, 103, 104, 105, 106, 107, 108, 109, 110] ∧
      b1.contents m1 = some [97, 98, 99, 97, 98, 99] ∧
      a1.size = 14 ∧ b1.size = 6 ∧
      a1.m_small = Example.hay.m_small ∧ b1.m_small = Example.big.m_small ∧
      a1.m_buffer.first.blk ≠ b1.m_small ∧ b1.m_buffer.first.blk ≠ a1.m_small ∧
      a1.terminated m1 ∧ b1.terminated m1 ∧
      a1.Valid m1 ∧ b1.Valid m1 ∧ basic_string.Separate a1 b1 :=
  ⟨by decide, by decide, by decide,
    swap_exchanges_contents Example.mem Example.hay Example.big [97, 98, 99, 97, 98, 99]
      [97, 98, 99, 100, 101, 102, 103, 104, 105, 106, 107, 108, 109, 110]
      (by decide) (by decide) (by decide) (by decide) (by decide)⟩

/-- C5 at an inline string and a heap string. -/
theorem swap_involution_witness :
    Example.hay.Valid Example.mem ∧ Example.big.Valid Example.mem ∧
    basic_string.Separate Example.hay Example.big ∧
    ∃ m1 a1 b1 m2, basic_string.swap Example.mem Example.hay Example.big = some (m1, a1, b1) ∧
      basic_string.swap m1 a1 b1 = some (m2, Example.hay, Example.big) ∧
      Example.hay.contents m2 = some [97, 98, 99, 97, 98, 99] ∧
      Example.big.contents m2
        = some [97, 98, 99, 100, 101, 102, 103, 104, 105, 106, 107, 108, 109, 110] ∧
      Example.hay.Valid m2 ∧ Example.big.Valid m2 :=
  ⟨by decide, by decide, by decide,
    swap_involution Example.mem Example.hay Example.big [97, 98, 99, 97, 98, 99]
      [97, 98, 99, 100, 101, 102, 103, 104, 105, 106, 107, 108, 109, 110]
      (by decide) (by decide) (by decide) (by decide) (by decide)⟩

/-- C6 at a heap source. -/
theorem ctor_move_transfers_witness :
    Example.big.Valid Example.mem ∧ Example.mem.blockSize 8 = some c_nbuffer ∧
    ∃ m1 dst src1, basic_string.ctor_move Example.mem 8 Example.big = some (m1, dst, src1) ∧
      dst.contents m1
        = some [97, 98, 99, 100, 101, 102, 103, 104, 105, 106, 107, 108, 109, 110] ∧
      dst.size = 14 ∧
      src1.size = 0 ∧ src1.isInline ∧ src1.capacity = c_nbuffer ∧ src1.get m1 0 = some 0 ∧
      src1.m_small = Example.big.m_small ∧ dst.Valid m1 ∧ src1.Valid m1 :=
  ⟨by decide, by decide,
    ctor_move_transfers Example.mem 8 Example.big
      [97, 98, 99, 100, 101, 102, 103, 104, 105, 106, 107, 108, 109, 110]
      (by decide) (by decide) (by decide) (by decide) (by decide)⟩

/-- C7 at `"abcabc"`, erasing the indices 1 and 2. -/
theorem buffer_erase_order_preserving_witness :
    Example.hay.m_buffer.contents Example.mem = some [97, 98, 99, 97, 98, 99] ∧
    ∃ m1 b1, buffer_erase Example.mem Example.hay.m_buffer (Example.hay.m_buffer.first.add 1)
        (Example.hay.m_buffer.first.add 3) = some (m1, b1, Example.hay.m_buffer.first.add 1) ∧
      b1.first = Example.hay.m_buffer.first ∧ b1.capacity = Example.hay.m_buffer.capacity ∧
      b1.size = 4 ∧ b1.contents m1 = some [97, 97, 98, 99] :=
  ⟨by decide,
    buffer_erase_order_preserving Example.mem Example.hay.m_buffer [97, 98, 99, 97, 98, 99] 1 3
      (by decide) (by decide) (by decide) (by decide) (by decide)⟩

/-- C8 at `"abcabc"`, erasing the index 1. -/
theorem buffer_erase_unordered_perm_witness :
    Example.hay.m_buffer.contents Example.mem = some [97, 98, 99, 97, 98, 99] ∧
    ∃ m1 b1 ys, buffer_erase_unordered Example.mem Example.hay.m_buffer
        (Example.hay.m_buffer.first.add 1) (Example.hay.m_buffer.first.add 2)
        = some (m1, b1, Example.hay.m_buffer.first.add 1) ∧
      b1.first = Example.hay.m_buffer.first ∧ b1.capacity = Example.hay.m_buffer.capacity ∧
      b1.size = 5 ∧ b1.contents m1 = some ys ∧ ys.length = 5 ∧
      ys.take 1 = [97] ∧ ys.Perm [97, 99, 97, 98, 99] :=
  ⟨by decide,
    buffer_erase_unordered_perm Example.mem Example.hay.m_buffer [97, 98, 99, 97, 98, 99] 1 2
      (by decide) (by decide) (by decide) (by decide) (by decide)⟩

/-- C9 at the example of the specification: `"abcabc".find("bc", 2)`. -/
theorem find_first_match_witness :
    Example.hay.contents Example.mem = some [97, 98, 99, 97, 98, 99] ∧
    Example.needle.contents Example.mem = some [98, 99] ∧
    ∃ r, basic_string.find Example.mem Example.hay Example.needle 2 = some r ∧
      ((∃ i, 2 ≤ i ∧ MatchAt [97, 98, 99, 97, 98, 99] [98, 99] i) →
        2 ≤ r ∧ MatchAt [97, 98, 99, 97, 98, 99] [98, 99] r ∧
          ∀ i, 2 ≤ i → i < r → ¬ MatchAt [97, 98, 99, 97, 98, 99] [98, 99] i) ∧
      ((¬ ∃ i, 2 ≤ i ∧ MatchAt [97, 98, 99, 97, 98, 99] [98, 99] i) → r = npos) :=
  ⟨by decide, by decide,
    find_first_match Example.mem Example.hay Example.needle [97, 98, 99, 97, 98, 99] [98, 99] 2
      (by decide) (by decide) (by decide)⟩

/-- The two searches the specification gives as examples: `"abcabc".find("bc", 0)` is 1 and
`"abcabc".find("bc", 2)` is 4; from offset 5 the needle is not found. -/
theorem find_examples :
    basic_string.find Example.mem Example.hay Example.needle 0 = some 1 ∧
    basic_string.find Example.mem Example.hay Example.needle 2 = some 4 ∧
    basic_string.find Example.mem Example.hay Example.needle 5 = some npos := by
  decide

/-- C10 fails past the end: `"abcabc".find("", 7)` is `npos`, not `min(7, 6) = 6`. -/
theorem find_empty_needle_past_end :
    Example.empty.size = 0 ∧ Example.hay.size = 6 ∧
    basic_string.find Example.mem Example.hay Example.empty 7 = some npos ∧
    basic_string.find Example.mem Example.hay Example.empty 7 ≠ some (min 7 Example.hay.size) := by
  decide

/-- C10 as amended, at `"abcabc".find("", 2)`. -/
theorem find_empty_needle_witness :
    Example.empty.size = 0 ∧
    basic_string.find Example.mem Example.hay Example.empty 2
      = some (if 2 ≤ Example.hay.size then 2 else npos) :=
  ⟨by decide, find_empty_needle Example.mem Example.hay Example.empty 2 (by decide)⟩

/-- C1 fails for `reserve` and `shrink_to_fit`: on the valid strings `hay` and `big`, with an
allocator whose fresh storage holds `0xCD`, both leave the header on a new block where the
byte at index `size()` is `0xCD`; the same happens to a string that comes straight from the
range constructor. -/
theorem reserve_and_shrink_lose_terminator :
    Example.hay.Valid Example.mem ∧ Example.big.Valid Example.mem ∧
    ((basic_string.ctor_range Example.mem 8 ⟨7, 0⟩ ⟨7, 6⟩).bind fun r =>
        (basic_string.reserve r.1 r.2 20).map fun r2 =>
          (decide (r.2.terminated r.1), r2.2.size, r2.1.read r2.2.m_buffer.last))
      = some (true, 6, some 205) ∧
    (basic_string.reserve Example.mem Example.hay 20).map
        (fun r => (r.2, r.1.read r.2.m_buffer.last, decide (r.2.terminated r.1)))
      = some (⟨1, ⟨⟨9, 0⟩, ⟨9, 6⟩, ⟨9, 20⟩⟩⟩, some 205, false) ∧
    (basic_string.shrink_to_fit Example.mem Example.big).map
        (fun r => (r.2, r.1.read r.2.m_buffer.last, decide (r.2.terminated r.1)))
      = some (⟨5, ⟨⟨9, 0⟩, ⟨9, 14⟩, ⟨9, 14⟩⟩⟩, some 205, false) := by
  decide

/-- C2 fails when an inline string grows from 11 to 12 bytes: `buffer_grow_count` and
`buffer_grow` see room for the byte and leave the header on `m_small`, and the terminator
is then written at `m_small[12]`, outside the array.  The string of 11 bytes is one the
range constructor builds. -/
theorem growth_to_twelve_stays_inline :
    ((basic_string.ctor_range Example.mem 8 ⟨7, 0⟩ ⟨7, 11⟩).map fun r =>
        (decide (r.2.Valid r.1), decide r.2.isInline, r.2.size,
          (basic_string.push_back r.1 r.2 108).isNone))
      = some (true, true, 11, true) ∧
    Example.eleven.Valid Example.mem ∧ Example.eleven.isInline ∧ Example.eleven.size = 11 ∧
    (buffer_grow_count Example.mem Example.eleven.m_buffer 1 1 true).map (fun r => r.2)
      = some Example.eleven.m_buffer ∧
    (Example.mem.write (Example.eleven.small.add 11) 108).isSome = true ∧
    (Example.mem.write (Example.eleven.small.add 12) 0).isNone = true ∧
    (basic_string.push_back Example.mem Example.eleven 108).isNone = true ∧
    Example.empty.Valid Example.mem ∧
    (buffer_grow Example.mem Example.empty.m_buffer 12 1 true).map (fun r => r.2)
      = some Example.empty.m_buffer ∧
    (basic_string.append Example.mem Example.empty ⟨7, 0⟩ ⟨7, 12⟩).isNone = true := by
  decide

/-! ## `compare` -/

/-- The loop of `compare` over two ranges holding known bytes: it ends without a result
when the compared bytes agree, and otherwise stops at the first index where they differ. -/
theorem compare_loop_spec (m : Mem CChar) (p1 p2 : Ptr) (xs ys : List CChar)
    (hx : ∀ i, i < xs.length → m.read (p1.add i) = xs[i]?)
    (hy : ∀ i, i < ys.length → m.read (p2.add i) = ys[i]?) (cnt : Nat) :
    ∀ i, i + cnt ≤ xs.length → i + cnt ≤ ys.length →
      (basic_string.compare_loop m cnt (p1.add i) (p2.add i) = some none ∧
        ∀ k, i ≤ k → k < i + cnt → xs[k]? = ys[k]?) ∨
      (∃ k x y, basic_string.compare_loop m cnt (p1.add i) (p2.add i)
          = some (some (if x < y then -1 else 1)) ∧
        i ≤ k ∧ k < i + cnt ∧ xs[k]? = some x ∧ ys[k]? = some y ∧ x ≠ y ∧
        ∀ j, i ≤ j → j < k → xs[j]? = ys[j]?) := by
  induction cnt with
  | zero =>
    intro i _ _
    exact Or.inl ⟨rfl, fun k h1 h2 => by omega⟩
  | succ cnt ih =>
    intro i hi hj
    have e1 : xs[i]? = some xs[i] := List.getElem?_eq_getElem (by omega)
    have e2 : ys[i]? = some ys[i] := List.getElem?_eq_getElem (by omega)
    have h1 : m.read (p1.add i) = some xs[i] := by rw [hx i (by omega), e1]
    have h2 : m.read (p2.add i) = some ys[i] := by rw [hy i (by omega), e2]
    by_cases hc : xs[i] = ys[i]
    · have hstep : basic_string.compare_loop m (cnt + 1) (p1.add i) (p2.add i)
          = basic_string.compare_loop m cnt (p1.add (i + 1)) (p2.add (i + 1)) := by
        simp only [basic_string.compare_loop, h1, h2, ne_eq, hc, not_true_eq_false, if_false, Ptr.add_add]
      have hhere : ∀ k, i ≤ k → k < i + 1 → xs[k]? = ys[k]? := by
        intro k hk1 hk2
        have : k = i := by omega
        subst this
        rw [e1, e2, hc]
      rcases ih (i + 1) (by omega) (by omega) with ⟨hr, hall⟩ | ⟨k, x, y, hr, hk1, hk2, hx1, hy1, hne, hbefore⟩
      · refine Or.inl ⟨by rw [hstep, hr], ?_⟩
        intro k hk1 hk2
        by_cases hk : k < i + 1
        · exact hhere k hk1 hk
        · exact hall k (by omega) (by omega)
      · refine Or.inr ⟨k, x, y, by rw [hstep, hr], by omega, by omega, hx1, hy1, hne, ?_⟩
        intro j hj1 hj2
        by_cases hk : j < i + 1
        · exact hhere j hj1 hk
        · exact hbefore j (by omega) hj2
    · refine Or.inr ⟨i, xs[i], ys[i], ?_, Nat.le_refl _, by omega, e1, e2, hc,
        fun j h1 h2 => by omega⟩
      simp only [basic_string.compare_loop, h1, h2, ne_eq, hc, not_false_eq_true, if_true]

/-- C11: `compare` returns -1, 0 or 1; at the first index below both sizes where the strings
differ the result is -1 when the byte of `a` is the smaller one and 1 when it is the greater
one; when the strings agree up to the shorter size the result is -1, 1 or 0 as the size of
`a` is smaller than, greater than or equal to the size of `b`. -/
theorem compare_three_way (m : Mem CChar) (a b : basic_string) (xs ys : List CChar)
    (hxs : a.contents m = some xs) (hys : b.contents m = some ys) :
    ∃ r, basic_string.compare m a b = some r ∧
      (r = -1 ∨ r = 0 ∨ r = 1) ∧
      (∀ (k : Nat) (x y : CChar), xs[k]? = some x → ys[k]? = some y → x ≠ y →
        (∀ i, i < k → xs[i]? = ys[i]?) →
        (x < y → r = -1) ∧ (y < x → r = 1)) ∧
      ((∀ i, i < xs.length → i < ys.length → xs[i]? = ys[i]?) →
        (xs.length < ys.length → r = -1) ∧ (ys.length < xs.length → r = 1) ∧
        (xs.length = ys.length → r = 0)) := by
  have hxl := basic_string.contents_length hxs
  have hyl := basic_string.contents_length hys
  obtain ⟨cnt, hcnt⟩ : ∃ cnt, cnt = (if a.size < b.size then a.size else b.size) := ⟨_, rfl⟩
  have hcx : cnt ≤ xs.length := by rw [hcnt]; split <;> omega
  have hcy : cnt ≤ ys.length := by rw [hcnt]; split <;> omega
  have hcmin : xs.length ≤ cnt ∨ ys.length ≤ cnt := by rw [hcnt]; split <;> omega
  have hspec := compare_loop_spec m a.m_buffer.first b.m_buffer.first xs ys
    (basic_string.contents_read hxs) (basic_string.contents_read hys) cnt 0
    (by omega) (by omega)
  simp only [Ptr.add_zero, Nat.zero_add, Nat.zero_le, true_implies] at hspec
  rcases hspec with ⟨hr, hall⟩ | ⟨k0, x0, y0, hr, _, hk0, hx0, hy0, hne0, hbefore0⟩
  · -- no difference below both sizes: the sizes decide
    have hres : basic_string.compare m a b
        = some (if a.size < b.size then -1 else if a.size > b.size then 1 else 0) := by
      unfold basic_string.compare
      simp only [← hcnt, hr]
      split
      · rfl
      · split <;> rfl
    refine ⟨_, hres, ?_, ?_, ?_⟩
    · split
      · exact Or.inl rfl
      · split
        · exact Or.inr (Or.inr rfl)
        · exact Or.inr (Or.inl rfl)
    · intro k x y hx hy hne _
      exfalso
      have hkx : k < xs.length := by
        by_contra h
        rw [List.getElem?_eq_none (by omega)] at hx
        simp at hx
      have hky : k < ys.length := by
        by_contra h
        rw [List.getElem?_eq_none (by omega)] at hy
        simp at hy
      have := hall k (by omega)
      rw [hx, hy] at this
      injection this with this
      exact hne this
    · intro _
      rw [← hxl, ← hyl]
      refine ⟨fun h => by rw [if_pos h], fun h => ?_, fun h => ?_⟩
      · rw [if_neg (by omega), if_pos h]
      · rw [if_neg (by omega), if_neg (by omega)]
  · -- the loop stopped at the first difference `k0`
    have hres : basic_string.compare m a b = some (if x0 < y0 then -1 else 1) := by
      unfold basic_string.compare
      simp only [← hcnt, hr]
    refine ⟨_, hres, ?_, ?_, ?_⟩
    · split
      · exact Or.inl rfl
      · exact Or.inr (Or.inr rfl)
    · intro k x y hx hy hne hbefore
      have hkk : k = k0 := by
        rcases Nat.lt_trichotomy k k0 with h | h | h
        · exfalso
          have := hbefore0 k h
          rw [hx, hy] at this
          injection this with this
          exact hne this
        · exact h
        · exfalso
          have := hbefore k0 h
          rw [hx0, hy0] at this
          injection this with this
          exact hne0 this
      subst hkk
      rw [hx0] at hx
      rw [hy0] at hy
      injection hx with hx
      injection hy with hy
      rw [hx, hy]
      exact ⟨fun h => by rw [if_pos h],
        fun h => by rw [if_neg (Int.not_lt.2 (Int.le_of_lt h))]⟩
    · intro hagree
      exfalso
      have := hagree k0 (by omega) (by omega)
      rw [hx0, hy0] at this
      injection this with this
      exact hne0 this

variable {α : Type}

/-! ## The fill loop and `buffer_realloc` -/

theorem Mem.free_of_blockSize {m : Mem α} {p : Ptr} {n : Nat}
    (h : m.blockSize p.blk = some n) (h0 : p.off = 0) : ∃ m1, m.free p = some m1 := by
  unfold Mem.blockSize at h
  unfold Mem.free
  cases hb : m.block p.blk with
  | none => simp [hb] at h
  | some cells =>
    by_cases hp : p = nullptr
    · simp [hp]
    · simp [hp, h0]

theorem fill_loop_spec (n : Nat) : ∀ (p : Ptr) (v : α) (m : Mem α),
    (∀ i, i < n → ∃ w, m.read (p.add i) = some w) →
    ∃ m1, fill_loop n p v m = some m1 ∧ m.SameShape m1 ∧
      ∀ q : Ptr, m1.read q =
        if q.blk = p.blk ∧ p.off ≤ q.off ∧ q.off < p.off + n then some v else m.read q := by
  induction n with
  | zero =>
    intro p v m _
    exact ⟨m, rfl, Mem.SameShape.refl m, fun q => by rw [if_neg (by omega)]⟩
  | succ n ih =>
    intro p v m hrd
    obtain ⟨w, hw⟩ := hrd 0 (by omega)
    rw [Ptr.add_zero] at hw
    obtain ⟨m0, hm0⟩ := Mem.write_some hw v
    have hr0 := Mem.read_write hm0
    have hrd1 : ∀ i, i < n → ∃ w, m0.read ((p.add 1).add i) = some w := by
      intro i hi
      rw [hr0]
      split
      · exact ⟨v, rfl⟩
      · rw [Ptr.add_add]
        exact hrd (1 + i) (by omega)
    obtain ⟨m1, hm1, hsh, hr1⟩ := ih (p.add 1) v m0 hrd1
    refine ⟨m1, ?_, (Mem.sameShape_write hm0).trans hsh, ?_⟩
    · simp only [fill_loop, hm0, hm1]
    · intro q
      rw [hr1]
      simp only [Ptr.add_blk, Ptr.add_off]
      by_cases hb : q.blk = p.blk
      · by_cases h1 : p.off + 1 ≤ q.off ∧ q.off < p.off + 1 + n
        · rw [if_pos ⟨hb, h1⟩, if_pos ⟨hb, by omega⟩]
        · by_cases h4 : q.off = p.off
          · rw [if_neg (by tauto), if_pos ⟨hb, by omega⟩, hr0,
              if_pos ((Ptr.eq_iff q p).2 ⟨hb, h4⟩)]
          · rw [if_neg (by tauto), if_neg (by omega), hr0, if_neg]
            rw [Ptr.eq_iff]
            tauto
      · rw [if_neg (by tauto), if_neg (by tauto), hr0, if_neg]
        rw [Ptr.eq_iff]
        tauto

/-- What `buffer_realloc` does on a buffer whose elements can be read and fit in the new
block.  The old block is released unless `nodealloc` is set or `first` is null. -/
theorem buffer_realloc_spec (m : Mem α) (b : buffer) (capacity padding : Nat) (nd : Bool)
    (hblk : b.last.blk = b.first.blk) (hle : b.first.off ≤ b.last.off)
    (hrd : ∀ i, i < b.size → ∃ v, m.read (b.first.add i) = some v)
    (hfit : b.size ≤ capacity + padding)
    (hfree : nd = true ∨ b.first = nullptr ∨
      (b.first.off = 0 ∧ ∃ n, m.blockSize b.first.blk = some n)) :
    ∃ m1, buffer_realloc m b capacity padding nd
        = some (m1, ⟨⟨m.next, 0⟩, ⟨m.next, b.size⟩, ⟨m.next, capacity⟩⟩) ∧
      m1.next = m.next + 1 ∧ m1.junk = m.junk ∧
      m1.blockSize m.next = some (capacity + padding) ∧
      (∀ i, i < b.size → m1.read ⟨m.next, i⟩ = m.read (b.first.add i)) ∧
      (∀ i, b.size ≤ i → i < capacity + padding →
        m1.read ⟨m.next, i⟩ = some (m.junk m.next i)) ∧
      (∀ q : Ptr, q.blk ≠ m.next → q.blk ≠ b.first.blk → m1.read q = m.read q) ∧
      (∀ k, k ≠ m.next → k ≠ b.first.blk → m1.blockSize k = m.blockSize k) ∧
      (nd = true → (∀ q : Ptr, q.blk ≠ m.next → m1.read q = m.read q) ∧
        ∀ k, k ≠ m.next → m1.blockSize k = m.blockSize k) := by
  obtain ⟨m0, hm0⟩ : ∃ m0, m0 = (m.alloc (capacity + padding)).2 := ⟨_, rfl⟩
  have halloc : m.alloc (capacity + padding) = (⟨m.next, 0⟩, m0) := by rw [hm0]; rfl
  have hr0 : ∀ q : Ptr, m0.read q =
      if q.blk = m.next then
        (if q.off < capacity + padding then some (m.junk m.next q.off) else none)
      else m.read q := by
    intro q; rw [hm0, Mem.read_alloc]
  have hs0 : ∀ k, m0.blockSize k
      = if k = m.next then some (capacity + padding) else m.blockSize k := by
    intro k; rw [hm0, Mem.blockSize_alloc]
  have hn0 : m0.next = m.next + 1 := by rw [hm0, Mem.next_alloc]
  have hj0 : m0.junk = m.junk := by rw [hm0]; rfl
  -- the elements lie in an older block
  have hold : ∀ i, i < b.size → (b.first.add i).blk ≠ m.next := by
    intro i hi
    obtain ⟨v, hv⟩ := hrd i hi
    have := Mem.read_lt hv
    omega
  have hsrc : ∀ i, i < b.size → ∃ v, m0.read (b.first.add i) = some v := by
    intro i hi
    rw [hr0, if_neg (hold i hi)]
    exact hrd i hi
  have hdst : ∀ i, i < b.size → ∃ v, m0.read ((⟨m.next, 0⟩ : Ptr).add i) = some v := by
    intro i hi
    rw [hr0]
    have h1 : ((⟨m.next, 0⟩ : Ptr).add i).blk = m.next := rfl
    have h2 : ((⟨m.next, 0⟩ : Ptr).add i).off < capacity + padding := by
      simp only [Ptr.add_off]; omega
    rw [if_pos h1, if_pos h2]
    exact ⟨_, rfl⟩
  obtain ⟨m1, hm1, hsh1, hr1⟩ := copy_loop_spec b.size ⟨m.next, 0⟩ b.first m0 hsrc hdst
    (Or.inr (Nat.zero_le _))
  have hr1a : ∀ q : Ptr, m1.read q =
      if q.blk = m.next ∧ q.off < b.size then m0.read ⟨b.first.blk, b.first.off + q.off⟩
      else m0.read q := by
    intro q
    rw [hr1]
    simp only [Nat.zero_le, true_and, Nat.zero_add, Nat.sub_zero]
  have hmove : buffer_move_urange m0 ⟨m.next, 0⟩ b.first b.last = some m1 := by
    unfold buffer_move_urange
    rw [ptrDiff_eq_some hblk.symm hle]
    exact hm1
  -- reads of the new block after the move
  have hnew1 : ∀ i, i < b.size → m1.read ⟨m.next, i⟩ = m.read (b.first.add i) := by
    intro i hi
    rw [hr1a, if_pos ⟨rfl, hi⟩]
    have h := hr0 (b.first.add i)
    rw [if_neg (hold i hi)] at h
    exact h
  have hnew2 : ∀ i, b.size ≤ i → i < capacity + padding →
      m1.read ⟨m.next, i⟩ = some (m.junk m.next i) := by
    intro i h1 h2
    rw [hr1a, if_neg (by simp only; omega), hr0, if_pos rfl, if_pos h2]
  have hoth1 : ∀ q : Ptr, q.blk ≠ m.next → m1.read q = m.read q := by
    intro q hq
    rw [hr1a, if_neg (by tauto), hr0, if_neg hq]
  have hbs1 : ∀ k, m1.blockSize k
      = if k = m.next then some (capacity + padding) else m.blockSize k := by
    intro k; rw [hsh1.2.2, hs0]
  have hres : ∀ m3, (if nd = true then some m1 else m1.free b.first) = some m3 →
      buffer_realloc m b capacity padding nd
        = some (m3, ⟨⟨m.next, 0⟩, ⟨m.next, b.size⟩, ⟨m.next, capacity⟩⟩) := by
    intro m3 h3
    unfold buffer_realloc
    simp only [halloc, hmove, h3]
    simp [Ptr.add]
  by_cases hnd : nd = true
  · refine ⟨m1, hres m1 (by rw [if_pos hnd]), by rw [hsh1.1, hn0], by rw [hsh1.2.1, hj0],
      by rw [hbs1, if_pos rfl], hnew1, hnew2, fun q h1 _ => hoth1 q h1,
      fun k h1 _ => by rw [hbs1, if_neg h1],
      fun _ => ⟨hoth1, fun k h1 => by rw [hbs1, if_neg h1]⟩⟩
  · by_cases hnull : b.first = nullptr
    · have hfr : m1.free b.first = some m1 := by
        unfold Mem.free
        rw [if_pos hnull]
      refine ⟨m1, hres m1 (by rw [if_neg hnd]; exact hfr), by rw [hsh1.1, hn0],
        by rw [hsh1.2.1, hj0], by rw [hbs1, if_pos rfl], hnew1, hnew2,
        fun q h1 _ => hoth1 q h1, fun k h1 _ => by rw [hbs1, if_neg h1],
        fun h => absurd h hnd⟩
    · obtain ⟨hoff, n, hn⟩ : b.first.off = 0 ∧ ∃ n, m.blockSize b.first.blk = some n := by
        rcases hfree with h | h | h
        · exact absurd h hnd
        · exact absurd h hnull
        · exact h
      have hlt : b.first.blk < m.next := Mem.blockSize_lt hn
      obtain ⟨m3, hm3⟩ := Mem.free_of_blockSize (m := m1) (p := b.first) (n := n)
        (by rw [hbs1, if_neg (by omega)]; exact hn) hoff
      have hr3 := Mem.read_free hm3 hnull
      have hs3 := Mem.blockSize_free hm3 hnull
      refine ⟨m3, hres m3 (by rw [if_neg hnd]; exact hm3),
        by rw [Mem.next_free hm3, hsh1.1, hn0],
        by rw [Mem.junk_free hm3, hsh1.2.1, hj0],
        by rw [hs3, if_neg (by omega), hbs1, if_pos rfl], ?_, ?_, ?_, ?_,
        fun h => absurd h hnd⟩
      · intro i hi
        rw [hr3, if_neg (by simp only; omega)]
        exact hnew1 i hi
      · intro i h1 h2
        rw [hr3, if_neg (by simp only; omega)]
        exact hnew2 i h1 h2
      · intro q h1 h2
        rw [hr3, if_neg h2]
        exact hoth1 q h1
      · intro k h1 h2
        rw [hs3, if_neg h2, hbs1, if_neg h1]

/-! ## `resize` -/

/-- The last two steps of `string_resize` on a header `first = (k, 0)`, `last = (k, sz)` over
a block with at least `n + 1` cells: the cells from `sz` to `n` are zeroed and the cells
below `min sz n` keep their value. -/
theorem resize_tail_spec (m1 : Mem CChar) (b1 : buffer) (k sz n : Nat)
    (hf : b1.first = ⟨k, 0⟩) (hl : b1.last = ⟨k, sz⟩)
    (hcells : ∀ i, i ≤ n → ∃ v, m1.read ⟨k, i⟩ = some v) :
    ∃ m2 m3, buffer_fill_urange m1 b1.last (b1.first.add (n + 1)) 0 = some m2 ∧
      m2.write (b1.first.add n) 0 = some m3 ∧ m1.SameShape m3 ∧
      (∀ i, i ≤ n → m3.read ⟨k, i⟩ = if i < sz ∧ i < n then m1.read ⟨k, i⟩ else some 0) ∧
      (∀ q : Ptr, q.blk ≠ k → m3.read q = m1.read q) := by
  have hrd : ∀ i, i < n + 1 - sz → ∃ w, m1.read ((⟨k, sz⟩ : Ptr).add i) = some w := by
    intro i hi
    exact hcells (sz + i) (by omega)
  obtain ⟨m2, hm2, hsh2, hr2⟩ := fill_loop_spec (n + 1 - sz) ⟨k, sz⟩ (0 : CChar) m1 hrd
  obtain ⟨w, hw⟩ : ∃ w, m2.read ⟨k, n⟩ = some w := by
    rw [hr2]
    split
    · exact ⟨_, rfl⟩
    · exact hcells n (Nat.le_refl _)
  obtain ⟨m3, hm3⟩ := Mem.write_some hw 0
  have hr3 := Mem.read_write hm3
  refine ⟨m2, m3, ?_, ?_, hsh2.trans (Mem.sameShape_write hm3), ?_, ?_⟩
  · unfold buffer_fill_urange
    rw [hl, hf]
    simpa [Ptr.add] using hm2
  · rw [hf]
    simpa [Ptr.add] using hm3
  · intro i hi
    rw [hr3]
    by_cases hin : i = n
    · rw [if_pos (by rw [hin]), if_neg (by omega)]
    · rw [if_neg (by rw [Ptr.eq_iff]; simp only; omega), hr2]
      by_cases hlt : i < sz
      · rw [if_neg (by simp only; omega), if_pos ⟨hlt, by omega⟩]
      · rw [if_pos ⟨rfl, by simp only; omega, by simp only; omega⟩, if_neg (by omega)]
  · intro q hq
    rw [hr3, if_neg (by rw [Ptr.eq_iff]; simp only; tauto), hr2, if_neg (by simp only; tauto)]

/-- C16: `resize(n)` gives size `n`, keeps the first `min(n, |xs|)` bytes, zeroes the bytes
from `|xs|` to `n` and writes the terminator at index `n`, for every `n` whose `n + 1`
bytes are at most `ptrdiff_max`: up to there the sums `b.first + n + 1` of `string_reserve`
and of the fill are exact in the source, and a larger string cannot exist. -/
theorem resize_spec (m : Mem CChar) (s : basic_string) (xs : List CChar) (n : Nat)
    (hv : s.Valid m) (hxs : s.contents m = some xs) (_hn : n + 1 ≤ ptrdiff_max) :
    ∃ m1 s1, basic_string.resize m s n = some (m1, s1) ∧
      s1.size = n ∧
      (∀ i, i < n → i < xs.length → s1.get m1 i = xs[i]?) ∧
      (∀ i, xs.length ≤ i → i < n → s1.get m1 i = some 0) ∧
      s1.get m1 n = some 0 ∧
      s1.Valid m1 := by
  have hlen := basic_string.contents_length hxs
  have hrd := basic_string.contents_read hxs
  obtain ⟨h1, h2, h3, h4, h5, h6, h7⟩ := hv
  have hvalid : s.Valid m := ⟨h1, h2, h3, h4, h5, h6, h7⟩
  have hsz : s.size = s.m_buffer.last.off := by
    simp [basic_string.size, buffer.size, h3]
  have hfst : s.m_buffer.first = ⟨s.m_buffer.first.blk, 0⟩ := by
    rw [Ptr.eq_iff]; exact ⟨rfl, h3⟩
  have hlst : s.m_buffer.last = ⟨s.m_buffer.first.blk, xs.length⟩ := by
    rw [Ptr.eq_iff]; exact ⟨h1, by simp only; omega⟩
  have hrd0 : ∀ i, i < xs.length → m.read ⟨s.m_buffer.first.blk, i⟩ = xs[i]? := by
    intro i hi
    rw [← hrd i hi]
    congr 1
    rw [Ptr.eq_iff]
    simp only [Ptr.add_blk, Ptr.add_off, h3]
    exact ⟨trivial, by omega⟩
  by_cases hfit : s.m_buffer.first.off + n + 1 ≤ s.m_buffer.capacity.off
  · -- the storage at hand has room for `n` bytes and the terminator
    have hres : string_reserve m s.m_buffer s.small n = some (m, s.m_buffer) := by
      unfold string_reserve buffer_reserve
      rw [if_pos hfit]
    have hcells : ∀ i, i ≤ n → ∃ v, m.read ⟨s.m_buffer.first.blk, i⟩ = some v := by
      intro i hi
      by_cases hin : s.m_buffer.first.blk = s.m_small
      · rw [if_pos hin] at h6
        rw [hin]
        exact Mem.read_of_blockSize h5 i (by omega)
      · rw [if_neg hin] at h6
        exact Mem.read_of_blockSize h6 i (by omega)
    obtain ⟨m2, m3, hfill, hwr, hsh, hr3, _⟩ := resize_tail_spec m s.m_buffer
      s.m_buffer.first.blk xs.length n hfst hlst hcells
    refine ⟨m3, ⟨s.m_small, { s.m_buffer with last := s.m_buffer.first.add n }⟩, ?_, ?_, ?_,
      ?_, ?_, ?_⟩
    · simp only [basic_string.resize, string_resize, hres, hfill, hwr]
    · simp [basic_string.size, buffer.size]
    · intro i hi1 hi2
      simp only [basic_string.get]
      have : s.m_buffer.first.add i = ⟨s.m_buffer.first.blk, i⟩ := by
        rw [Ptr.eq_iff]; simp only [Ptr.add_blk, Ptr.add_off, h3]; exact ⟨trivial, by omega⟩
      rw [this, hr3 i (by omega), if_pos ⟨hi2, hi1⟩, hrd0 i hi2]
    · intro i hi1 hi2
      simp only [basic_string.get]
      have : s.m_buffer.first.add i = ⟨s.m_buffer.first.blk, i⟩ := by
        rw [Ptr.eq_iff]; simp only [Ptr.add_blk, Ptr.add_off, h3]; exact ⟨trivial, by omega⟩
      rw [this, hr3 i (by omega), if_neg (by omega)]
    · simp only [basic_string.get]
      have : s.m_buffer.first.add n = ⟨s.m_buffer.first.blk, n⟩ := by
        rw [Ptr.eq_iff]; simp only [Ptr.add_blk, Ptr.add_off, h3]; exact ⟨trivial, by omega⟩
      rw [this, hr3 n (Nat.le_refl _), if_neg (by omega)]
    · refine ⟨rfl, h2, h3, ?_, ?_, ?_, ?_⟩
      · simp only [Ptr.add_off]; omega
      · simp only; rw [hsh.2.2, h5]
      · simp only [Ptr.add_off]
        by_cases hin : s.m_buffer.first.blk = s.m_small
        · rw [if_pos hin] at h6
          rw [if_pos hin]
          exact ⟨h6.1, by omega⟩
        · rw [if_neg hin] at h6
          rw [if_neg hin, hsh.2.2, h6]
      · simp only [basic_string.terminated]
        have : s.m_buffer.first.add n = ⟨s.m_buffer.first.blk, n⟩ := by
          rw [Ptr.eq_iff]; simp only [Ptr.add_blk, Ptr.add_off, h3]; exact ⟨trivial, by omega⟩
        rw [this, hr3 n (Nat.le_refl _), if_neg (by omega)]
  · -- a block of `n + 1` bytes is allocated
    have hin_iff := hvalid.inline_iff
    have hfree : decide (s.m_buffer.first = s.small) = true ∨ s.m_buffer.first = nullptr ∨
        (s.m_buffer.first.off = 0 ∧ ∃ k, m.blockSize s.m_buffer.first.blk = some k) := by
      by_cases hin : s.m_buffer.first = s.small
      · exact Or.inl (by simp [hin])
      · have hb : s.m_buffer.first.blk ≠ s.m_small := fun h => hin (hin_iff.2 h)
        rw [if_neg hb] at h6
        exact Or.inr (Or.inr ⟨h3, _, h6⟩)
    have hsize : s.m_buffer.size = xs.length := hlen.symm
    obtain ⟨m1, hm1, hnx, _, hbs, hnew1, hnew2, hoth, hobs, hnd⟩ := buffer_realloc_spec m
      s.m_buffer n 1 (decide (s.m_buffer.first = s.small)) h1 (by omega)
      (fun i hi => by
        rw [hrd i (by rw [← hsize]; exact hi)]
        exact ⟨_, List.getElem?_eq_getElem (by rw [← hsize]; exact hi)⟩)
      (by simp only [buffer.size]; omega) hfree
    rw [hsize] at hm1 hnew1 hnew2
    have hres : string_reserve m s.m_buffer s.small n
        = some (m1, ⟨⟨m.next, 0⟩, ⟨m.next, xs.length⟩, ⟨m.next, n⟩⟩) := by
      unfold string_reserve buffer_reserve
      rw [if_neg hfit]
      exact hm1
    have hcells : ∀ i, i ≤ n → ∃ v, m1.read ⟨m.next, i⟩ = some v :=
      fun i hi => Mem.read_of_blockSize hbs i (by omega)
    obtain ⟨m2, m3, hfill, hwr, hsh, hr3, _⟩ := resize_tail_spec m1
      ⟨⟨m.next, 0⟩, ⟨m.next, xs.length⟩, ⟨m.next, n⟩⟩ m.next xs.length n rfl rfl hcells
    have hsmall_lt : s.m_small < m.next := Mem.blockSize_lt h5
    have hsmall : m3.blockSize s.m_small = some c_nbuffer := by
      rw [hsh.2.2]
      by_cases hin : s.m_buffer.first = s.small
      · rw [(hnd (by simp [hin])).2 _ (by omega)]
        exact h5
      · have hb : s.m_buffer.first.blk ≠ s.m_small := fun h => hin (hin_iff.2 h)
        rw [hobs _ (by omega) (fun h => hb h.symm)]
        exact h5
    refine ⟨m3, ⟨s.m_small, ⟨⟨m.next, 0⟩, ⟨m.next, n⟩, ⟨m.next, n⟩⟩⟩, ?_, ?_, ?_, ?_, ?_, ?_⟩
    · simp only [basic_string.resize, string_resize, hres, hfill, hwr]
      simp [Ptr.add]
    · simp [basic_string.size, buffer.size]
    · intro i hi1 hi2
      simp only [basic_string.get, Ptr.add, Nat.zero_add]
      rw [hr3 i (by omega), if_pos ⟨hi2, hi1⟩, hnew1 i hi2, hrd i hi2]
    · intro i hi1 hi2
      simp only [basic_string.get, Ptr.add, Nat.zero_add]
      rw [hr3 i (by omega), if_neg (by omega)]
    · simp only [basic_string.get, Ptr.add, Nat.zero_add]
      rw [hr3 n (Nat.le_refl _), if_neg (by omega)]
    · refine ⟨rfl, rfl, rfl, Nat.le_refl _, hsmall, ?_, ?_⟩
      · simp only
        rw [if_neg (by omega), hsh.2.2, hbs]
      · simp only [basic_string.terminated]
        rw [hr3 n (Nat.le_refl _), if_neg (by omega)]

/-! ## `substr` -/

theorem basic_string.ctor_ptr_len_eq (m : Mem CChar) (self : Nat) (p : Ptr) (len : Nat) :
    basic_string.ctor_ptr_len m self p len = basic_string.ctor_range m self p (p.add len) := by
  simp only [basic_string.ctor_ptr_len, basic_string.ctor_range, ptrDiff_add_self]

/-- What `substr(pos, count)` does for `pos <= size()`: the new string holds the
`min(count, size() - pos)` bytes of `s` that start at index `pos`, and `s` is not touched. -/
theorem substr_spec (m : Mem CChar) (s : basic_string) (self pos count : Nat)
    (xs : List CChar) (hxs : s.contents m = some xs) (hpos : pos ≤ xs.length)
    (hself : m.blockSize self = some c_nbuffer) (hne : s.m_buffer.first.blk ≠ self) :
    ∃ m1 r, basic_string.substr m s self pos count = some (m1, r) ∧
      r.m_small = self ∧
      r.size = (if count < xs.length - pos then count else xs.length - pos) ∧
      r.contents m1 = some ((xs.drop pos).take count) ∧
      (∀ i, i < r.size → r.get m1 i = xs[pos + i]?) ∧
      r.get m1 r.size = some 0 ∧
      r.Valid m1 ∧
      s.contents m1 = some xs ∧
      (∀ q : Ptr, q.blk ≠ self → q.blk < m.next → m1.read q = m.read q) := by
  have hlen := basic_string.contents_length hxs
  have hrd := basic_string.contents_read hxs
  obtain ⟨ys, hys⟩ : ∃ ys, ys = (xs.drop pos).take count := ⟨_, rfl⟩
  have hyl : ys.length = (if count < xs.length - pos then count else xs.length - pos) := by
    rw [hys, List.length_take, List.length_drop]
    split <;> omega
  have hyi : ∀ i, i < ys.length → ys[i]? = xs[pos + i]? := by
    intro i hi
    rw [hys, List.getElem?_take_of_lt (by rw [hyl] at hi; split at hi <;> omega),
      List.getElem?_drop]
  have hsrc : m.readRange (s.m_buffer.first.add pos) ys.length = some ys := by
    rw [Mem.readRange_eq_some]
    refine ⟨rfl, fun i hi => ?_⟩
    rw [Ptr.add_add, hyi i hi]
    exact hrd (pos + i) (by rw [hyl] at hi; split at hi <;> omega)
  obtain ⟨m1, r, hr, hsm, hsz, hget, hterm, hcont, hval, hframe⟩ := ctor_range_spec m self
    (s.m_buffer.first.add pos) ys hself hsrc hne
  refine ⟨m1, r, ?_, hsm, by rw [hsz, hyl], by rw [hcont, hys], ?_, hterm, hval, ?_, hframe⟩
  · unfold basic_string.substr
    rw [basic_string.ctor_ptr_len_eq, ← hlen, ← hyl]
    exact hr
  · intro i hi
    rw [hsz] at hi
    rw [hget i hi, hyi i hi]
  · simp only [basic_string.contents, buffer.contents]
    have : m1.readRange s.m_buffer.first s.m_buffer.size
        = m.readRange s.m_buffer.first s.m_buffer.size := by
      apply Mem.readRange_congr
      intro i hi
      have hi2 : i < xs.length := by rw [hlen]; exact hi
      have hsome : m.read (s.m_buffer.first.add i) = some xs[i] := by
        rw [hrd i hi2, List.getElem?_eq_getElem hi2]
      exact hframe _ hne (Mem.read_lt hsome)
    rw [this]
    exact hxs

/-- C17, as the code has it: for `pos <= size()`, `substr(pos, count)` is the string made of
the bytes of `s` in the index range `[pos, pos + min(count, size() - pos))`. -/
theorem substr_range (m : Mem CChar) (s : basic_string) (self pos count : Nat)
    (xs : List CChar) (hxs : s.contents m = some xs) (hpos : pos ≤ xs.length)
    (hself : m.blockSize self = some c_nbuffer) (hne : s.m_buffer.first.blk ≠ self) :
    ∃ m1 r, basic_string.substr m s self pos count = some (m1, r) ∧
      r.contents m1 = some ((xs.take (pos + min count (xs.length - pos))).drop pos) ∧
      r.size = min count (xs.length - pos) := by
  obtain ⟨m1, r, hr, _, hsz, hcont, _, _, _, _⟩ :=
    substr_spec m s self pos count xs hxs hpos hself hne
  refine ⟨m1, r, hr, ?_, ?_⟩
  · rw [hcont]
    congr 1
    apply List.ext_getElem?
    intro i
    by_cases hi : i < min count (xs.length - pos)
    · rw [List.getElem?_take_of_lt (by omega), List.getElem?_drop, List.getElem?_drop,
        List.getElem?_take_of_lt (by omega)]
    · rw [List.getElem?_eq_none (by
          simp only [List.length_take, List.length_drop]; omega),
        List.getElem?_eq_none (by
          simp only [List.length_take, List.length_drop]; omega)]
  · rw [hsz]
    split <;> omega

variable {α : Type}

/-! ## `buffer_append` and growth -/

theorem buffer.eq_of_fields (b : buffer) {f l c : Ptr} (h1 : b.first = f) (h2 : b.last = l)
    (h3 : b.capacity = c) : b = ⟨f, l, c⟩ := by
  cases b
  simp only at h1 h2 h3
  rw [h1, h2, h3]

/-- One `buffer_append` on a valid buffer: the element is added at the end, and the
capacity changes only when the buffer was full, to `((size + 1) * 3) / 2`. -/
theorem buffer_append_spec (m : Mem α) (b : buffer) (x : α) (xs : List α)
    (hv : b.Valid m) (hxs : b.contents m = some xs) :
    ∃ m1 b1, buffer_append m b x = some (m1, b1) ∧ b1.Valid m1 ∧
      b1.contents m1 = some (xs ++ [x]) ∧
      b1.size = b.size + 1 ∧
      (b.size + 1 ≤ b.cap → b1.cap = b.cap) ∧
      (b.cap < b.size + 1 → b1.cap = ((b.size + 1) * 3) / 2) := by
  obtain ⟨h1, h2, h3, h4, h5⟩ := hv
  obtain ⟨hlen, hrd⟩ := (Mem.readRange_eq_some m _ _ _).1 hxs
  have hsz : b.size = b.last.off := by simp [buffer.size, h1]
  have hcp : b.cap = b.capacity.off := by simp [buffer.cap, h1]
  have hrd0 : ∀ i, i < xs.length → m.read ⟨b.first.blk, i⟩ = xs[i]? := by
    intro i hi
    rw [← hrd i (by rw [← hlen]; exact hi)]
    congr 1
    rw [Ptr.eq_iff]
    simp only [Ptr.add_blk, Ptr.add_off, h1]
    exact ⟨trivial, by omega⟩
  -- the state after `buffer_grow_count`
  have hgrow : ∃ m1 k c, buffer_grow_count m b 1 0 false
        = some (m1, ⟨⟨k, 0⟩, ⟨k, xs.length⟩, ⟨k, c⟩⟩) ∧
      m1.blockSize k = some c ∧ xs.length < c ∧
      (∀ i, i < xs.length → m1.read ⟨k, i⟩ = xs[i]?) ∧
      (b.size + 1 ≤ b.cap → c = b.cap) ∧
      (b.cap < b.size + 1 → c = ((b.size + 1) * 3) / 2) := by
    by_cases hfull : b.last.off + 1 > b.capacity.off
    · have hfree : false = true ∨ b.first = nullptr ∨
          (b.first.off = 0 ∧ ∃ n, m.blockSize b.first.blk = some n) := by
        rcases h5 with h | h
        · exact Or.inr (Or.inl h.1)
        · exact Or.inr (Or.inr ⟨h1, _, h⟩)
      obtain ⟨m1, hm1, _, _, hbs, hnew1, _, _, _, _⟩ := buffer_realloc_spec m b
        (((b.size + 1) * 3) / 2) 0 false h2 (by omega)
        (fun i hi => by
          rw [hrd i hi]
          exact ⟨_, List.getElem?_eq_getElem (by rw [hlen]; exact hi)⟩)
        (by omega) hfree
      refine ⟨m1, m.next, ((b.size + 1) * 3) / 2, ?_, hbs, by omega, ?_, ?_, fun _ => rfl⟩
      · unfold buffer_grow_count
        rw [if_pos hfull, hm1, hlen]
      · intro i hi
        rw [hnew1 i (by rw [← hlen]; exact hi)]
        exact hrd i (by rw [← hlen]; exact hi)
      · intro h; omega
    · have hbs : m.blockSize b.first.blk = some b.capacity.off := by
        rcases h5 with h | h
        · omega
        · exact h
      refine ⟨m, b.first.blk, b.capacity.off, ?_, hbs, by omega, hrd0, fun _ => hcp.symm, ?_⟩
      · unfold buffer_grow_count
        rw [if_neg hfull]
        congr 2
        exact buffer.eq_of_fields b ((Ptr.eq_iff _ _).2 ⟨rfl, h1⟩)
          ((Ptr.eq_iff _ _).2 ⟨h2, by simp only; omega⟩) ((Ptr.eq_iff _ _).2 ⟨h3, rfl⟩)
      · intro h; omega
  obtain ⟨m1, k, c, hg, hbs, hlt, hr1, hc1, hc2⟩ := hgrow
  obtain ⟨w, hw⟩ := Mem.read_of_blockSize hbs xs.length hlt
  obtain ⟨m2, hm2⟩ := Mem.write_some hw x
  have hr2 := Mem.read_write hm2
  refine ⟨m2, ⟨⟨k, 0⟩, ⟨k, xs.length + 1⟩, ⟨k, c⟩⟩, ?_, ?_, ?_, ?_, ?_, ?_⟩
  · simp only [buffer_append, hg, hm2]
    simp [Ptr.add]
  · refine ⟨rfl, rfl, rfl, by simp only; omega, Or.inr ?_⟩
    simp only
    rw [Mem.blockSize_write hm2, hbs]
  · unfold buffer.contents
    have : (buffer.mk ⟨k, 0⟩ ⟨k, xs.length + 1⟩ ⟨k, c⟩).size = (xs ++ [x]).length := by
      simp [buffer.size]
    rw [this, Mem.readRange_eq_some]
    refine ⟨rfl, fun i hi => ?_⟩
    simp only [Ptr.add, Nat.zero_add]
    rw [hr2]
    by_cases hi2 : i = xs.length
    · rw [if_pos (by rw [hi2]), hi2]
      simp
    · have hi3 : i < xs.length := by
        simp only [List.length_append, List.length_singleton] at hi; omega
      rw [if_neg (by rw [Ptr.eq_iff]; simp only; omega), hr1 i hi3,
        List.getElem?_append_left hi3]
  · simp only [buffer.size]; omega
  · intro h; simpa [buffer.cap] using hc1 h
  · intro h; simpa [buffer.cap] using hc2 h

/-- A run of `buffer_append` from a valid buffer: it succeeds, the elements are appended,
every reallocation grows the capacity by half at least and makes room for the element, and
the number of reallocations is bounded through the capacity at the start. -/
theorem append_all_spec (vals : List α) : ∀ (m : Mem α) (b : buffer) (xs : List α),
    b.Valid m → b.contents m = some xs →
    ∃ m1 b1 log, append_all vals m b = some (m1, b1, log) ∧ b1.Valid m1 ∧
      b1.contents m1 = some (xs ++ vals) ∧
      b1.size = b.size + vals.length ∧
      log.length ≤ vals.length ∧
      (∀ e, e ∈ log → 3 * e.oldCap ≤ 2 * e.newCap ∧ e.sizeAfter ≤ e.newCap) ∧
      (1 ≤ log.length →
        3 ^ (log.length - 1) * (b.cap + 2) ≤ 2 ^ (log.length - 1) * (b.size + vals.length + 1)) := by
  induction vals with
  | nil =>
    intro m b xs hv hxs
    exact ⟨m, b, [], rfl, hv, by simpa using hxs, rfl, Nat.le_refl _,
      fun e he => by simp at he, fun h => by simp at h⟩
  | cons x rest ih =>
    intro m b xs hv hxs
    have hsc : b.size ≤ b.cap := by
      have := hv.2.2.2.1
      simp only [buffer.size, buffer.cap]
      omega
    obtain ⟨m1, b1, hstep, hv1, hc1, hs1, hkeep, hgrow⟩ := buffer_append_spec m b x xs hv hxs
    obtain ⟨m2, b2, log, hrun, hv2, hc2, hs2, hll, hent, hbound⟩ :=
      ih m1 b1 (xs ++ [x]) hv1 hc1
    have hcont : b2.contents m2 = some (xs ++ x :: rest) := by
      rw [hc2]; simp
    have hsize : b2.size = b.size + (x :: rest).length := by
      rw [hs2, hs1, List.length_cons]; omega
    by_cases hfull : b.size + 1 ≤ b.cap
    · -- room at hand: no reallocation in this call
      have hcap : b1.cap = b.cap := hkeep hfull
      refine ⟨m2, b2, log, ?_, hv2, hcont, hsize, ?_, hent, ?_⟩
      · simp only [append_all, hstep, hrun, hcap, if_true]
      · rw [List.length_cons]; omega
      · intro h
        have := hbound h
        rw [hcap, hs1] at this
        rw [List.length_cons]
        have e : b.size + 1 + rest.length + 1 = b.size + (rest.length + 1) + 1 := by omega
        rw [← e]
        exact this
    · -- the buffer is full: this call reallocates
      have hcap : b1.cap = ((b.size + 1) * 3) / 2 := hgrow (by omega)
      have hne : ¬ b1.cap = b.cap := by omega
      have hsz : b.size = b.cap := by omega
      refine ⟨m2, b2, ⟨b.cap, b1.cap, b1.size⟩ :: log, ?_, hv2, hcont, hsize, ?_, ?_, ?_⟩
      · simp only [append_all, hstep, hrun, hne, if_false]
      · simp only [List.length_cons]; omega
      · intro e he
        rcases List.mem_cons.1 he with h | h
        · rw [h]
          simp only
          omega
        · exact hent e h
      · intro _
        simp only [List.length_cons, Nat.add_sub_cancel]
        cases hlog : log.length with
        | zero =>
          simp only [pow_zero, Nat.one_mul]
          omega
        | succ r =>
          have hb := hbound (by omega)
          rw [hlog, Nat.add_sub_cancel, hs1] at hb
          have e : b.size + 1 + rest.length + 1 = b.size + (rest.length + 1) + 1 := by omega
          rw [e] at hb
          have h32 : 3 * (b.cap + 2) ≤ 2 * (b1.cap + 2) := by omega
          calc 3 ^ (r + 1) * (b.cap + 2)
              = 3 ^ r * (3 * (b.cap + 2)) := by rw [pow_succ]; ring
            _ ≤ 3 ^ r * (2 * (b1.cap + 2)) := Nat.mul_le_mul_left _ h32
            _ = 2 * (3 ^ r * (b1.cap + 2)) := by ring
            _ ≤ 2 * (2 ^ r * (b.size + (rest.length + 1) + 1)) := Nat.mul_le_mul_left _ hb
            _ = 2 ^ (r + 1) * (b.size + (rest.length + 1) + 1) := by rw [pow_succ]; ring

/-- C20: appending `N` elements one at a time to the empty buffer succeeds; every
reallocation replaces a capacity `c` by a capacity `c1` with `2 * c1 >= 3 * c` that holds the
appended element, and the number `R` of reallocations satisfies
`3 ^ (R - 2) <= 2 ^ (R - 2) * N` as soon as `R >= 2`. -/
theorem growth_amortization (m : Mem α) (vals : List α) :
    ∃ m1 b1 log, append_all vals m ⟨nullptr, nullptr, nullptr⟩ = some (m1, b1, log) ∧
      b1.size = vals.length ∧
      b1.contents m1 = some vals ∧
      (∀ e, e ∈ log → 2 * e.newCap ≥ 3 * e.oldCap ∧ e.newCap ≥ e.sizeAfter) ∧
      (2 ≤ log.length → 3 ^ (log.length - 2) ≤ 2 ^ (log.length - 2) * vals.length) := by
  have hv : (buffer.mk nullptr nullptr nullptr).Valid m :=
    ⟨rfl, rfl, rfl, Nat.le_refl _, Or.inl ⟨rfl, rfl⟩⟩
  have hxs : (buffer.mk nullptr nullptr nullptr).contents m = some ([] : List α) := rfl
  obtain ⟨m1, b1, log, hrun, _, hcont, hsize, hll, hent, hbound⟩ :=
    append_all_spec vals m _ [] hv hxs
  refine ⟨m1, b1, log, hrun, ?_, by simpa using hcont, hent, ?_⟩
  · rw [hsize]
    simp [buffer.size, nullptr]
  · intro h2
    have hb := hbound (by omega)
    obtain ⟨r, hr⟩ : ∃ r, log.length = r + 2 := ⟨log.length - 2, by omega⟩
    rw [hr] at hb ⊢
    simp only [Nat.add_sub_cancel] at hb ⊢
    have e1 : r + 2 - 1 = r + 1 := by omega
    have e0 : (buffer.mk nullptr nullptr nullptr).cap = 0 := rfl
    have e2 : (buffer.mk nullptr nullptr nullptr).size = 0 := rfl
    rw [e1, e0, e2, pow_succ, pow_succ] at hb
    have hN : 1 ≤ vals.length := by omega
    have hmul : 2 ^ r ≤ 2 ^ r * vals.length := Nat.le_mul_of_pos_right _ hN
    generalize 3 ^ r = A at hb ⊢
    generalize 2 ^ r = B at hb hmul ⊢
    have hexp : B * 2 * (0 + vals.length + 1) = 2 * (B * vals.length) + 2 * B := by ring
    have hexp2 : A * 3 * (0 + 2) = 6 * A := by ring
    rw [hexp, hexp2] at hb
    omega

/-! ## The theorems of `compare`, `rfind`, `insert`, `append`, `resize`, `substr` and the
constructors on the example data -/

/-- C11 at `"abc"` against `"abd"`. -/
theorem compare_three_way_witness :
    Example.abc.contents Example.mem2 = some [97, 98, 99] ∧
    Example.abd.contents Example.mem2 = some [97, 98, 100] ∧
    ∃ r, basic_string.compare Example.mem2 Example.abc Example.abd = some r ∧
      (r = -1 ∨ r = 0 ∨ r = 1) ∧
      (∀ (k : Nat) (x y : CChar), ([97, 98, 99] : List CChar)[k]? = some x →
        ([97, 98, 100] : List CChar)[k]? = some y → x ≠ y →
        (∀ i, i < k → ([97, 98, 99] : List CChar)[i]? = ([97, 98, 100] : List CChar)[i]?) →
        (x < y → r = -1) ∧ (y < x → r = 1)) ∧
      ((∀ i, i < ([97, 98, 99] : List CChar).length → i < ([97, 98, 100] : List CChar).length →
          ([97, 98, 99] : List CChar)[i]? = ([97, 98, 100] : List CChar)[i]?) →
        (([97, 98, 99] : List CChar).length < ([97, 98, 100] : List CChar).length → r = -1) ∧
        (([97, 98, 100] : List CChar).length < ([97, 98, 99] : List CChar).length → r = 1) ∧
        (([97, 98, 99] : List CChar).length = ([97, 98, 100] : List CChar).length → r = 0)) :=
  ⟨by decide, by decide,
    compare_three_way Example.mem2 Example.abc Example.abd [97, 98, 99] [97, 98, 100]
      (by decide) (by decide)⟩

/-- The comparisons the specification gives as examples: `"abc"` against `"abd"` and `"ab"`
against `"abc"` are negative, `"abc"` against `"abc"` is 0. -/
theorem compare_examples :
    basic_string.compare Example.mem2 Example.abc Example.abd = some (-1) ∧
    basic_string.compare Example.mem2 Example.ab Example.abc = some (-1) ∧
    basic_string.compare Example.mem2 Example.abc Example.abc = some 0 ∧
    basic_string.compare Example.mem2 Example.abd Example.abc = some 1 := by
  decide

/-- C12 fails at index 0: the loop of `rfind(char, size_t)` ends when `current` reaches
`hay`, before the byte at index 0 is looked at.  In `"abc"` the byte `'a'` is not found, from
any offset, while `'c'` is found at 2 and the last `'a'` of `"abcabc"` at 3. -/
theorem rfind_char_misses_index_zero :
    Example.abc.Valid Example.mem2 ∧
    Example.abc.contents Example.mem2 = some [97, 98, 99] ∧
    basic_string.rfind_char Example.mem2 Example.abc 97 npos = some npos ∧
    basic_string.rfind_char Example.mem2 Example.abc 97 0 = some npos ∧
    basic_string.rfind_char Example.mem2 Example.abc 99 npos = some 2 ∧
    basic_string.rfind_char Example.mem Example.hay 97 npos = some 3 := by
  decide

/-- C13 fails at index 0: the loop of `rfind(const basic_string&, size_t)` ends when
`current` reaches `hay`, before a match at index 0 is tried.  `"abc".rfind("abc")` is `npos`
and so is `"abc".rfind("ab")`, while `"abcabc".rfind("bc")` is 4. -/
theorem rfind_misses_index_zero :
    Example.abc.Valid Example.mem2 ∧ Example.ab.Valid Example.mem2 ∧
    Example.abc.contents Example.mem2 = some [97, 98, 99] ∧
    Example.ab.contents Example.mem2 = some [97, 98] ∧
    MatchAt [97, 98, 99] [97, 98, 99] 0 ∧ MatchAt [97, 98, 99] [97, 98] 0 ∧
    basic_string.rfind Example.mem2 Example.abc Example.abc npos = some npos ∧
    basic_string.rfind Example.mem2 Example.abc Example.ab npos = some npos ∧
    basic_string.rfind Example.mem Example.hay Example.needle npos = some 4 := by
  decide

/-- C14 fails when an inline string grows to 12 bytes: inserting one byte at index 0 of the
valid string `"abcdefghijk"` does not reallocate (`buffer_grow` returns the header on
`m_small`) and writes the terminator at `m_small[12]`, outside the array.  An insertion that
stays below 12 bytes, or goes well beyond, gives the bytes the claim describes. -/
theorem insert_overruns_inline :
    Example.eleven.Valid Example.mem ∧ Example.eleven.isInline ∧
    Example.eleven.contents Example.mem
      = some [97, 98, 99, 100, 101, 102, 103, 104, 105, 106, 107] ∧
    Example.mem.readRange ⟨7, 0⟩ 1 = some [97] ∧
    (buffer_grow Example.mem Example.eleven.m_buffer 12 1 true).map (fun r => r.2)
      = some Example.eleven.m_buffer ∧
    (basic_string.insert Example.mem Example.eleven 0 ⟨7, 0⟩ ⟨7, 1⟩).isNone = true ∧
    (basic_string.insert Example.mem Example.hay 2 ⟨7, 0⟩ ⟨7, 3⟩).map
        (fun r => (r.2.size, r.2.contents r.1))
      = some (9, some [97, 98, 97, 98, 99, 99, 97, 98, 99]) ∧
    (basic_string.insert Example.mem Example.hay 2 ⟨7, 0⟩ ⟨7, 13⟩).map
        (fun r => (r.2.size, r.2.contents r.1))
      = some (19, some [97, 98, 97, 98, 99, 100, 101, 102, 103, 104, 105, 106, 107, 108, 109,
          99, 97, 98, 99]) := by
  decide

/-- C15 fails when an inline string grows to 12 bytes: appending one byte to the valid
string `"abcdefghijk"` does not reallocate and writes the terminator at `m_small[12]`,
outside the array.  An append that stays below 12 bytes gives the bytes the claim
describes. -/
theorem append_overruns_inline :
    Example.eleven.Valid Example.mem ∧ Example.eleven.isInline ∧
    Example.eleven.contents Example.mem
      = some [97, 98, 99, 100, 101, 102, 103, 104, 105, 106, 107] ∧
    Example.mem.readRange ⟨7, 0⟩ 1 = some [97] ∧
    (buffer_grow Example.mem Example.eleven.m_buffer 12 1 true).map (fun r => r.2)
      = some Example.eleven.m_buffer ∧
    (basic_string.append Example.mem Example.eleven ⟨7, 0⟩ ⟨7, 1⟩).isNone = true ∧
    (basic_string.append Example.mem Example.hay ⟨7, 0⟩ ⟨7, 3⟩).map
        (fun r => (r.2.size, r.2.contents r.1))
      = some (9, some [97, 98, 99, 97, 98, 99, 97, 98, 99]) := by
  decide

/-- C16 at `"abcabc"` resized to 12, one more than the inline array holds with the
terminator. -/
theorem resize_spec_witness :
    Example.hay.Valid Example.mem ∧
    Example.hay.contents Example.mem = some [97, 98, 99, 97, 98, 99] ∧
    12 + 1 ≤ ptrdiff_max ∧
    ∃ m1 s1, basic_string.resize Example.mem Example.hay 12 = some (m1, s1) ∧
      s1.size = 12 ∧
      (∀ i, i < 12 → i < ([97, 98, 99, 97, 98, 99] : List CChar).length →
        s1.get m1 i = ([97, 98, 99, 97, 98, 99] : List CChar)[i]?) ∧
      (∀ i, ([97, 98, 99, 97, 98, 99] : List CChar).length ≤ i → i < 12 →
        s1.get m1 i = some 0) ∧
      s1.get m1 12 = some 0 ∧
      s1.Valid m1 :=
  ⟨by decide, by decide, by decide,
    resize_spec Example.mem Example.hay [97, 98, 99, 97, 98, 99] 12 (by decide) (by decide)
      (by decide)⟩

/-- C17 fails as written: `"abcabc".substr(2, 3)` is `"cab"`, the three bytes from index 2,
while the index range `[2, min(3, 6 - 2))` of the claim holds the single byte `"c"`. -/
theorem substr_range_as_written_fails :
    Example.hay.contents Example.mem = some [97, 98, 99, 97, 98, 99] ∧
    (basic_string.substr Example.mem Example.hay 8 2 3).map (fun r => r.2.contents r.1)
      = some (some [99, 97, 98]) ∧
    (([97, 98, 99, 97, 98, 99] : List CChar).take (min 3 (6 - 2))).drop 2 = [99] ∧
    (basic_string.substr Example.mem Example.hay 8 2 3).map (fun r => r.2.contents r.1)
      ≠ some (some ((([97, 98, 99, 97, 98, 99] : List CChar).take (min 3 (6 - 2))).drop 2)) := by
  decide

/-- C17 as amended, at `"abcabc".substr(2, 3)`. -/
theorem substr_range_witness :
    Example.hay.contents Example.mem = some [97, 98, 99, 97, 98, 99] ∧
    Example.mem.blockSize 8 = some c_nbuffer ∧
    ∃ m1 r, basic_string.substr Example.mem Example.hay 8 2 3 = some (m1, r) ∧
      r.contents m1 = some ((([97, 98, 99, 97, 98, 99] : List CChar).take
        (2 + min 3 (([97, 98, 99, 97, 98, 99] : List CChar).length - 2))).drop 2) ∧
      r.size = min 3 (([97, 98, 99, 97, 98, 99] : List CChar).length - 2) :=
  ⟨by decide, by decide,
    substr_range Example.mem Example.hay 8 2 3 [97, 98, 99, 97, 98, 99] (by decide) (by decide)
      (by decide) (by decide)⟩

/-- C18 fails for every count above 0: `basic_string(3, 'x')` and `basic_string(13, 'x')`
have size 0, no byte `'x'` is written, and the byte at index 0 is what the storage held
(7 in `m_small`, `0xCD` in the fresh heap block), not a terminator. -/
theorem ctor_fill_stays_empty :
    Example.mem.blockSize 8 = some c_nbuffer ∧
    (basic_string.ctor_fill Example.mem 8 3 120).map
        (fun r => (r.2.size, r.2.contents r.1, r.2.get r.1 0, decide (r.2.terminated r.1)))
      = some (0, some [], some 7, false) ∧
    (basic_string.ctor_fill Example.mem 8 13 120).map
        (fun r => (r.2.size, r.2.contents r.1, r.2.get r.1 0, decide (r.2.terminated r.1)))
      = some (0, some [], some 205, false) := by
  decide

/-- C19 fails for the byte at index 0: on an object whose `m_small` holds the bytes 7, the
default constructor sets `begin = end = m_small`, capacity 12 and size 0, and writes no
cell, so the byte `c_str()` points at is still 7. -/
theorem ctor_default_leaves_first_byte :
    Example.mem.blockSize 8 = some c_nbuffer ∧
    (basic_string.ctor_default 8).m_buffer.first = (basic_string.ctor_default 8).small ∧
    (basic_string.ctor_default 8).m_buffer.last = (basic_string.ctor_default 8).small ∧
    (basic_string.ctor_default 8).capacity = 12 ∧
    (basic_string.ctor_default 8).size = 0 ∧
    (basic_string.ctor_default 8).get Example.mem 0 = some 7 ∧
    ¬ (basic_string.ctor_default 8).terminated Example.mem := by
  decide

/-- The capacities seen by seven appends to the empty buffer: 0, 1, 3, 6, 10. -/
theorem growth_example :
    (append_all [1, 2, 3, 4, 5, 6, 7] (Mem.empty (fun _ _ => (0 : Nat)))
        ⟨nullptr, nullptr, nullptr⟩).map (fun r => (r.2.1.size, r.2.1.cap, r.2.2))
      = some (7, 10, [⟨0, 1, 1⟩, ⟨1, 3, 2⟩, ⟨3, 6, 4⟩, ⟨6, 10, 7⟩]) := by
  decide

variable {α : Type}

/-! ## `append` away from the inline boundary -/

/-- The two steps that end `string_append` and `string_insert`: the bytes `ys` read from
`p` are copied to `dst` and a terminator is written at `tp`, a cell outside the copied
range. -/
theorem copy_terminate_spec (m : Mem CChar) (dst tp p : Ptr) (ys : List CChar)
    (hsrc : m.readRange p ys.length = some ys)
    (hdst : ∀ k, k < ys.length → ∃ v, m.read (dst.add k) = some v)
    (htp : ∃ v, m.read tp = some v)
    (hout : ¬ (tp.blk = dst.blk ∧ dst.off ≤ tp.off ∧ tp.off < dst.off + ys.length))
    (hne : dst.blk ≠ p.blk) :
    ∃ m2 m3, buffer_copy_urange m dst p (p.add ys.length) = some m2 ∧
      m2.write tp 0 = some m3 ∧ m.SameShape m3 ∧
      ∀ q : Ptr, m3.read q =
        if q = tp then some 0
        else if q.blk = dst.blk ∧ dst.off ≤ q.off ∧ q.off < dst.off + ys.length then
          ys[q.off - dst.off]?
        else m.read q := by
  obtain ⟨_, hrd⟩ := (Mem.readRange_eq_some m _ _ _).1 hsrc
  have hs : ∀ k, k < ys.length → ∃ v, m.read (p.add k) = some v := by
    intro k hk
    rw [hrd k hk]
    exact ⟨ys[k], List.getElem?_eq_getElem hk⟩
  obtain ⟨m2, hm2, hsh2, hr2⟩ := copy_loop_spec ys.length dst p m hs hdst (Or.inl hne)
  obtain ⟨v, hv⟩ := htp
  obtain ⟨m3, hm3⟩ := Mem.write_some (m := m2) (p := tp) (w := v)
    (by rw [hr2, if_neg hout]; exact hv) 0
  refine ⟨m2, m3, ?_, hm3, hsh2.trans (Mem.sameShape_write hm3), ?_⟩
  · unfold buffer_copy_urange
    rw [ptrDiff_add_self]
    exact hm2
  · intro q
    rw [Mem.read_write hm3, hr2]
    by_cases hq : q = tp
    · rw [if_pos hq, if_pos hq]
    · rw [if_neg hq, if_neg hq]
      by_cases hin : q.blk = dst.blk ∧ dst.off ≤ q.off ∧ q.off < dst.off + ys.length
      · rw [if_pos hin, if_pos hin, ← hrd _ (by omega)]
        rfl
      · rw [if_neg hin, if_neg hin]

/-- The header and memory after `buffer_grow` with one byte of padding on a valid string:
the bytes are kept, the capacity covers the requested size, and the block of the header is
`m_small` (with capacity 12) or a heap block of `capacity + 1` bytes. -/
theorem string_grow_spec (m : Mem CChar) (s : basic_string) (xs : List CChar) (newsize : Nat)
    (hv : s.Valid m) (hxs : s.contents m = some xs) :
    ∃ m1 k c, buffer_grow m s.m_buffer newsize 1 (decide (s.m_buffer.first = s.small))
        = some (m1, ⟨⟨k, 0⟩, ⟨k, xs.length⟩, ⟨k, c⟩⟩) ∧
      newsize ≤ c ∧
      (∀ i, i < xs.length → m1.read ⟨k, i⟩ = xs[i]?) ∧
      m1.blockSize s.m_small = some c_nbuffer ∧
      (if k = s.m_small then c = c_nbuffer else m1.blockSize k = some (c + 1)) ∧
      (∀ q : Ptr, q.blk < m.next → q.blk ≠ s.m_buffer.first.blk → m1.read q = m.read q) ∧
      (k = s.m_buffer.first.blk ∨ k = m.next) := by
  have hlen := basic_string.contents_length hxs
  have hrd := basic_string.contents_read hxs
  obtain ⟨h1, h2, h3, h4, h5, h6, h7⟩ := hv
  have hvalid : s.Valid m := ⟨h1, h2, h3, h4, h5, h6, h7⟩
  have hsz : s.m_buffer.size = xs.length := hlen.symm
  have hszo : s.m_buffer.last.off = xs.length := by
    have : s.m_buffer.size = s.m_buffer.last.off := by simp [buffer.size, h3]
    omega
  have hrd0 : ∀ i, i < xs.length → m.read ⟨s.m_buffer.first.blk, i⟩ = xs[i]? := by
    intro i hi
    rw [← hrd i hi]
    congr 1
    rw [Ptr.eq_iff]
    simp only [Ptr.add_blk, Ptr.add_off, h3]
    exact ⟨trivial, by omega⟩
  by_cases hgrow : s.m_buffer.first.off + newsize > s.m_buffer.capacity.off
  · -- reallocation
    have hin_iff := hvalid.inline_iff
    have hfree : decide (s.m_buffer.first = s.small) = true ∨ s.m_buffer.first = nullptr ∨
        (s.m_buffer.first.off = 0 ∧ ∃ k, m.blockSize s.m_buffer.first.blk = some k) := by
      by_cases hin : s.m_buffer.first = s.small
      · exact Or.inl (by simp [hin])
      · have hb : s.m_buffer.first.blk ≠ s.m_small := fun h => hin (hin_iff.2 h)
        rw [if_neg hb] at h6
        exact Or.inr (Or.inr ⟨h3, _, h6⟩)
    obtain ⟨m1, hm1, _, _, hbs, hnew1, _, hoth, hobs, hnd⟩ := buffer_realloc_spec m
      s.m_buffer ((newsize * 3) / 2) 1 (decide (s.m_buffer.first = s.small)) h1 (by omega)
      (fun i hi => by
        rw [hrd i (by rw [← hsz]; exact hi)]
        exact ⟨_, List.getElem?_eq_getElem (by rw [← hsz]; exact hi)⟩)
      (by omega) hfree
    rw [hsz] at hm1 hnew1
    have hsmall_lt : s.m_small < m.next := Mem.blockSize_lt h5
    refine ⟨m1, m.next, (newsize * 3) / 2, ?_, by omega, ?_, ?_, ?_, ?_, Or.inr rfl⟩
    · unfold buffer_grow
      rw [if_pos hgrow]
      exact hm1
    · intro i hi
      rw [hnew1 i hi]
      exact hrd i hi
    · by_cases hin : s.m_buffer.first = s.small
      · rw [(hnd (by simp [hin])).2 _ (by omega)]
        exact h5
      · have hb : s.m_buffer.first.blk ≠ s.m_small := fun h => hin (hin_iff.2 h)
        rw [hobs _ (by omega) (fun h => hb h.symm)]
        exact h5
    · rw [if_neg (by omega)]
      exact hbs
    · intro q hq1 hq2
      exact hoth q (by omega) hq2
  · -- the storage at hand is large enough
    refine ⟨m, s.m_buffer.first.blk, s.m_buffer.capacity.off, ?_, by omega, hrd0, h5, ?_,
      fun q _ _ => rfl, Or.inl rfl⟩
    · unfold buffer_grow
      rw [if_neg hgrow]
      congr 2
      exact buffer.eq_of_fields _ ((Ptr.eq_iff _ _).2 ⟨rfl, h3⟩)
        ((Ptr.eq_iff _ _).2 ⟨h1, hszo⟩) ((Ptr.eq_iff _ _).2 ⟨h2, rfl⟩)
    · by_cases hin : s.m_buffer.first.blk = s.m_small
      · rw [if_pos hin] at h6
        rw [if_pos hin]
        exact h6.1
      · rw [if_neg hin] at h6
        rw [if_neg hin]
        exact h6

/-- What `append` does to a valid string unless the string is inline and the new size is
12: the bytes `ys`, read from a range outside the storage of the string, are added at the
end and the result is valid. -/
theorem append_spec (m : Mem CChar) (s : basic_string) (p : Ptr) (xs ys : List CChar)
    (hv : s.Valid m) (hxs : s.contents m = some xs)
    (hsrc : m.readRange p ys.length = some ys)
    (hp : p.blk < m.next) (hne : p.blk ≠ s.m_buffer.first.blk)
    (hok : s.m_buffer.first = s.small → xs.length + ys.length ≠ c_nbuffer) :
    ∃ m1 s1, basic_string.append m s p (p.add ys.length) = some (m1, s1) ∧
      s1.contents m1 = some (xs ++ ys) ∧ s1.size = xs.length + ys.length ∧ s1.Valid m1 := by
  have hlen := basic_string.contents_length hxs
  have hin_iff := hv.inline_iff
  have hlt_first : s.m_buffer.first.blk < m.next := by
    have h6 := hv.2.2.2.2.2.1
    by_cases hin : s.m_buffer.first.blk = s.m_small
    · rw [hin]; exact Mem.blockSize_lt hv.2.2.2.2.1
    · rw [if_neg hin] at h6
      exact Mem.blockSize_lt h6
  obtain ⟨m1, k, c, hg, hc, hr1, hsm, hblk, hframe, hk⟩ :=
    string_grow_spec m s xs (xs.length + ys.length) hv hxs
  -- the cells from 0 to the new size exist in block `k`
  have hcells : ∀ i, i ≤ xs.length + ys.length → ∃ v, m1.read ⟨k, i⟩ = some v := by
    intro i hi
    by_cases hkin : k = s.m_small
    · rw [if_pos hkin] at hblk
      have hfirst : s.m_buffer.first = s.small := by
        rcases hk with h | h
        · exact hin_iff.2 (by rw [← h, hkin])
        · exfalso
          have := Mem.blockSize_lt hv.2.2.2.2.1
          omega
      have := hok hfirst
      rw [hkin]
      exact Mem.read_of_blockSize hsm i (by omega)
    · rw [if_neg hkin] at hblk
      exact Mem.read_of_blockSize hblk i (by omega)
  have hpk : k ≠ p.blk := by
    rcases hk with h | h
    · rw [h]; exact fun h2 => hne h2.symm
    · omega
  have hsrc1 : m1.readRange p ys.length = some ys := by
    rw [← hsrc]
    exact Mem.readRange_congr (fun i _ => hframe _ hp hne)
  obtain ⟨m2, m3, hcopy, hwr, hsh, hr3⟩ := copy_terminate_spec m1 ⟨k, xs.length⟩
    ⟨k, xs.length + ys.length⟩ p ys hsrc1 (fun i hi => hcells (xs.length + i) (by omega))
    (hcells _ (Nat.le_refl _)) (by simp only; omega) hpk
  have hobs := basic_string.observe_of_read m3
    ⟨s.m_small, ⟨⟨k, 0⟩, ⟨k, (xs ++ ys).length⟩, ⟨k, c⟩⟩⟩ k (xs ++ ys) rfl rfl (by
      intro i hi
      rw [List.length_append] at hi
      rw [hr3, List.length_append]
      by_cases hie : i = xs.length + ys.length
      · rw [if_pos (by rw [hie]), if_pos hie]
      · rw [if_neg (by rw [Ptr.eq_iff]; simp only; omega), if_neg hie]
        by_cases hix : i < xs.length
        · rw [if_neg (by simp only; omega), hr1 i hix, List.getElem?_append_left hix]
        · rw [if_pos ⟨rfl, by simp only; omega, by simp only; omega⟩,
            List.getElem?_append_right (by omega)])
  rw [List.length_append] at hobs
  refine ⟨m3, _, ?_, hobs.2.2.2.1, hobs.1, ?_⟩
  · simp only [basic_string.append, string_append, ptrDiff_add_self]
    rw [show s.m_buffer.size = xs.length from hlen.symm]
    simp only [Ptr.add] at hcopy
    simp only [hg, Ptr.add, hcopy, hwr]
  · refine ⟨rfl, rfl, rfl, hc, ?_, ?_, hobs.2.2.2.2⟩
    · simp only
      rw [hsh.2.2]
      exact hsm
    · simp only
      by_cases hkin : k = s.m_small
      · rw [if_pos hkin] at hblk
        rw [if_pos hkin]
        refine ⟨hblk, ?_⟩
        have hfirst : s.m_buffer.first = s.small := by
          rcases hk with h | h
          · exact hin_iff.2 (by rw [← h, hkin])
          · exfalso
            have := Mem.blockSize_lt hv.2.2.2.2.1
            omega
        have := hok hfirst
        omega
      · rw [if_neg hkin] at hblk
        rw [if_neg hkin, hsh.2.2]
        exact hblk

variable {α : Type}

/-! ## `insert` away from the inline boundary -/

theorem bmove_loop_spec (dest first : Ptr) (hsafe : dest.blk ≠ first.blk ∨ first.off ≤ dest.off)
    (n : Nat) : ∀ (m : Mem α),
    (∀ i, i < n → ∃ v, m.read (first.add i) = some v) →
    (∀ i, i < n → ∃ v, m.read (dest.add i) = some v) →
    ∃ m1, bmove_loop n dest first m = some m1 ∧ m.SameShape m1 ∧
      ∀ q : Ptr, m1.read q =
        if q.blk = dest.blk ∧ dest.off ≤ q.off ∧ q.off < dest.off + n then
          m.read ⟨first.blk, first.off + (q.off - dest.off)⟩
        else m.read q := by
  induction n with
  | zero =>
    intro m _ _
    exact ⟨m, rfl, Mem.SameShape.refl m, fun q => by rw [if_neg (by omega)]⟩
  | succ n ih =>
    intro m hsrc hdst
    obtain ⟨v, hv⟩ := hsrc n (by omega)
    obtain ⟨w, hw⟩ := hdst n (by omega)
    obtain ⟨m0, hm0⟩ := Mem.write_some hw v
    have hrd := Mem.read_write hm0
    have hsrc1 : ∀ i, i < n → ∃ v, m0.read (first.add i) = some v := by
      intro i hi
      rw [hrd]
      split
      · exact ⟨v, rfl⟩
      · exact hsrc i (by omega)
    have hdst1 : ∀ i, i < n → ∃ v, m0.read (dest.add i) = some v := by
      intro i hi
      rw [hrd]
      split
      · exact ⟨v, rfl⟩
      · exact hdst i (by omega)
    obtain ⟨m1, hm1, hshape, hread⟩ := ih m0 hsrc1 hdst1
    refine ⟨m1, ?_, (Mem.sameShape_write hm0).trans hshape, ?_⟩
    · simp only [bmove_loop, hv, hm0, hm1]
    · intro q
      rw [hread]
      by_cases hb : q.blk = dest.blk
      · by_cases h1 : dest.off ≤ q.off ∧ q.off < dest.off + n
        · rw [if_pos ⟨hb, h1⟩, if_pos ⟨hb, by omega⟩, hrd, if_neg]
          rw [Ptr.eq_iff]
          simp only [Ptr.add_blk, Ptr.add_off]
          omega
        · by_cases h4 : q.off = dest.off + n
          · rw [if_neg (by tauto), if_pos ⟨hb, by omega⟩, hrd,
              if_pos ((Ptr.eq_iff q (dest.add n)).2 ⟨hb, h4⟩), ← hv]
            congr 1
            rw [Ptr.eq_iff]
            exact ⟨rfl, by simp only [Ptr.add_off]; omega⟩
          · rw [if_neg (by tauto), if_neg (by omega), hrd, if_neg]
            rw [Ptr.eq_iff]
            simp only [Ptr.add_blk, Ptr.add_off]
            tauto
      · rw [if_neg (by tauto), if_neg (by tauto), hrd, if_neg]
        rw [Ptr.eq_iff]
        simp only [Ptr.add_blk, Ptr.add_off]
        tauto

/-- The part of `buffer_insert_spread` that follows `buffer_grow`: the elements from index
`k` on are moved `count` places up and the size grows by `count`. -/
theorem buffer_insert_spread_of_grow (m m1 : Mem α) (b : buffer) (k count padding : Nat)
    (nd : Bool) (K c sz : Nat) (hsize : b.size = sz) (hk : k ≤ sz)
    (hg : buffer_grow m b (sz + count) padding nd = some (m1, ⟨⟨K, 0⟩, ⟨K, sz⟩, ⟨K, c⟩⟩))
    (hcells : ∀ i, i < sz + count → ∃ v, m1.read ⟨K, i⟩ = some v) :
    ∃ m2, buffer_insert_spread m b (b.first.add k) count padding nd
        = some (m2, ⟨⟨K, 0⟩, ⟨K, sz + count⟩, ⟨K, c⟩⟩, ⟨K, k⟩) ∧
      m1.SameShape m2 ∧
      ∀ q : Ptr, m2.read q =
        if q.blk = K ∧ k + count ≤ q.off ∧ q.off < sz + count then m1.read ⟨K, q.off - count⟩
        else m1.read q := by
  obtain ⟨m2, hm2, hsh, hr2⟩ := bmove_loop_spec (⟨K, k + count⟩ : Ptr) ⟨K, k⟩
    (Or.inr (by simp only; omega)) (sz - k) m1
    (fun i hi => hcells (k + i) (by omega)) (fun i hi => hcells (k + count + i) (by omega))
  have hpd : ptrDiff (b.first.add k) b.first = some k := ptrDiff_add_self _ _
  have hread : ∀ q : Ptr, m2.read q =
      if q.blk = K ∧ k + count ≤ q.off ∧ q.off < sz + count then m1.read ⟨K, q.off - count⟩
      else m1.read q := by
    intro q
    rw [hr2]
    by_cases hq : q.blk = K ∧ k + count ≤ q.off ∧ q.off < sz + count
    · rw [if_pos ⟨hq.1, hq.2.1, by simp only; omega⟩, if_pos hq]
      congr 1
      rw [Ptr.eq_iff]
      exact ⟨rfl, by simp only; omega⟩
    · rw [if_neg (by simp only; omega), if_neg hq]
  refine ⟨m2, ?_, hsh, hread⟩
  by_cases hend : k = sz
  · have hm21 : m2 = m1 := by
      rw [hend, Nat.sub_self] at hm2
      simp only [bmove_loop] at hm2
      injection hm2 with hm2
      exact hm2.symm
    rw [hm21]
    simp only [buffer_insert_spread, hpd, hsize, hg]
    simp only [Ptr.add, Nat.zero_add, hend, ne_eq, not_true_eq_false, if_false]
  · have hne : ¬ ((⟨K, k⟩ : Ptr) = ⟨K, sz⟩) := by
      rw [Ptr.eq_iff]; simp only; omega
    have hpd2 : ptrDiff (⟨K, sz⟩ : Ptr) ⟨K, k⟩ = some (sz - k) :=
      ptrDiff_eq_some rfl (by simp only; omega)
    simp only [buffer_insert_spread, hpd, hsize, hg]
    simp only [Ptr.add, Nat.zero_add, ne_eq, hne, not_false_eq_true, if_true,
      buffer_bmove_urange, hpd2, hm2]

/-- What `insert` does to a valid string unless the string is inline and the new size is
12: the bytes `ys`, read from a range outside the storage of the string, are placed before
index `k` and the result is valid. -/
theorem insert_spec (m : Mem CChar) (s : basic_string) (p : Ptr) (xs ys : List CChar)
    (k : Nat) (hv : s.Valid m) (hxs : s.contents m = some xs) (hk : k ≤ xs.length)
    (hsrc : m.readRange p ys.length = some ys)
    (hp : p.blk < m.next) (hne : p.blk ≠ s.m_buffer.first.blk)
    (hok : s.m_buffer.first = s.small → xs.length + ys.length ≠ c_nbuffer) :
    ∃ m1 s1, basic_string.insert m s k p (p.add ys.length) = some (m1, s1) ∧
      s1.contents m1 = some (xs.take k ++ ys ++ xs.drop k) ∧
      s1.size = xs.length + ys.length ∧ s1.Valid m1 := by
  have hlen := basic_string.contents_length hxs
  have hin_iff := hv.inline_iff
  obtain ⟨m1, K, c, hg, hc, hr1, hsm, hblk, hframe, hK⟩ :=
    string_grow_spec m s xs (xs.length + ys.length) hv hxs
  have hfirst_of : K = s.m_small → s.m_buffer.first = s.small := by
    intro hkin
    rcases hK with h | h
    · exact hin_iff.2 (by rw [← h, hkin])
    · exfalso
      have := Mem.blockSize_lt hv.2.2.2.2.1
      omega
  have hcells : ∀ i, i ≤ xs.length + ys.length → ∃ v, m1.read ⟨K, i⟩ = some v := by
    intro i hi
    by_cases hkin : K = s.m_small
    · rw [if_pos hkin] at hblk
      have := hok (hfirst_of hkin)
      rw [hkin]
      exact Mem.read_of_blockSize hsm i (by omega)
    · rw [if_neg hkin] at hblk
      exact Mem.read_of_blockSize hblk i (by omega)
  have hpk : K ≠ p.blk := by
    rcases hK with h | h
    · rw [h]; exact fun h2 => hne h2.symm
    · omega
  obtain ⟨m2, hspread, hsh2, hr2⟩ := buffer_insert_spread_of_grow m m1 s.m_buffer k ys.length
    1 (decide (s.m_buffer.first = s.small)) K c xs.length hlen.symm hk hg
    (fun i hi => hcells i (by omega))
  have hcells2 : ∀ i, i ≤ xs.length + ys.length → ∃ v, m2.read ⟨K, i⟩ = some v := by
    intro i hi
    rw [hr2]
    split
    · exact hcells _ (by simp only; omega)
    · exact hcells i hi
  have hsrc2 : m2.readRange p ys.length = some ys := by
    rw [← hsrc]
    refine Mem.readRange_congr (fun i _ => ?_)
    rw [hr2, if_neg (by simp only [Ptr.add_blk]; exact fun h => hpk h.1.symm)]
    exact hframe _ hp hne
  obtain ⟨m3, m4, hcopy, hwr, hsh, hr4⟩ := copy_terminate_spec m2 ⟨K, k⟩
    ⟨K, xs.length + ys.length⟩ p ys hsrc2 (fun i hi => hcells2 (k + i) (by omega))
    (hcells2 _ (Nat.le_refl _)) (by simp only; omega) hpk
  have hlen3 : (xs.take k ++ ys ++ xs.drop k).length = xs.length + ys.length := by
    simp only [List.length_append, List.length_take, List.length_drop]
    omega
  have htk : (xs.take k).length = k := by
    rw [List.length_take]; omega
  have hobs := basic_string.observe_of_read m4
    ⟨s.m_small, ⟨⟨K, 0⟩, ⟨K, (xs.take k ++ ys ++ xs.drop k).length⟩, ⟨K, c⟩⟩⟩ K
    (xs.take k ++ ys ++ xs.drop k) rfl rfl (by
      intro i hi
      rw [hlen3] at hi
      rw [hr4, hlen3]
      by_cases hie : i = xs.length + ys.length
      · rw [if_pos (by rw [hie]), if_pos hie]
      · rw [if_neg (by rw [Ptr.eq_iff]; simp only; omega), if_neg hie]
        by_cases hi1 : i < k
        · rw [if_neg (by simp only; omega), hr2, if_neg (by simp only; omega), hr1 i (by omega),
            List.getElem?_append_left (by rw [List.length_append, htk]; omega),
            List.getElem?_append_left (by rw [htk]; exact hi1),
            List.getElem?_take_of_lt hi1]
        · by_cases hi2 : i < k + ys.length
          · rw [if_pos ⟨rfl, by simp only; omega, by simp only; omega⟩,
              List.getElem?_append_left (by rw [List.length_append, htk]; omega),
              List.getElem?_append_right (by rw [htk]; omega), htk]
          · rw [if_neg (by simp only; omega), hr2,
              if_pos ⟨rfl, by simp only; omega, by simp only; omega⟩,
              hr1 _ (by simp only; omega),
              List.getElem?_append_right (by rw [List.length_append, htk]; omega),
              List.length_append, htk, List.getElem?_drop]
            congr 1
            simp only
            omega)
  rw [hlen3] at hobs
  refine ⟨m4, _, ?_, hobs.2.2.2.1, hobs.1, ?_⟩
  · simp only [basic_string.insert, string_insert, ptrDiff_add_self]
    simp only [Ptr.add] at hcopy hspread
    simp only [hspread, Ptr.add, hcopy, hwr]
  · refine ⟨rfl, rfl, rfl, hc, ?_, ?_, hobs.2.2.2.2⟩
    · simp only
      rw [hsh.2.2, hsh2.2.2]
      exact hsm
    · simp only
      by_cases hkin : K = s.m_small
      · rw [if_pos hkin] at hblk
        rw [if_pos hkin]
        refine ⟨hblk, ?_⟩
        have := hok (hfirst_of hkin)
        omega
      · rw [if_neg hkin] at hblk
        rw [if_neg hkin, hsh.2.2, hsh2.2.2]
        exact hblk

/-- The theorem `append_spec` at `"abcabc"` and the three bytes `"abc"` of block 7. -/
theorem append_spec_example :
    ∃ m1 s1, basic_string.append Example.mem Example.hay ⟨7, 0⟩ ⟨7, 3⟩ = some (m1, s1) ∧
      s1.contents m1 = some [97, 98, 99, 97, 98, 99, 97, 98, 99] ∧ s1.size = 9 ∧
      s1.Valid m1 :=
  append_spec Example.mem Example.hay ⟨7, 0⟩ [97, 98, 99, 97, 98, 99] [97, 98, 99]
    (by decide) (by decide) (by decide) (by decide) (by decide) (by decide)

/-- The theorem `insert_spec` at `"abcabc"`, index 2 and the 13 bytes of block 7: the string
moves to the heap. -/
theorem insert_spec_example :
    ∃ m1 s1, basic_string.insert Example.mem Example.hay 2 ⟨7, 0⟩ ⟨7, 13⟩ = some (m1, s1) ∧
      s1.contents m1 = some [97, 98, 97, 98, 99, 100, 101, 102, 103, 104, 105, 106, 107, 108,
        109, 99, 97, 98, 99] ∧ s1.size = 19 ∧ s1.Valid m1 :=
  insert_spec Example.mem Example.hay ⟨7, 0⟩ [97, 98, 99, 97, 98, 99] Example.thirteen 2
    (by decide) (by decide) (by decide) (by decide) (by decide) (by decide) (by decide)

variable {α : Type}

/-! ## Buffers that own their storage -/

theorem Mem.holds_iff (m : Mem α) (k c : Nat) :
    m.Holds k c ↔ ∃ n, m.blockSize k = some n ∧ c ≤ n := by
  unfold Mem.Holds
  cases h : m.blockSize k with
  | none => simp
  | some n => simp

theorem Mem.Holds.readable_cell {m : Mem α} {k c : Nat} (h : m.Holds k c) (i : Nat) (hi : i < c) :
    ∃ v, m.read ⟨k, i⟩ = some v := by
  obtain ⟨n, hn, hc⟩ := (Mem.holds_iff m k c).1 h
  exact Mem.read_of_blockSize hn i (by omega)

theorem Mem.Holds.keep {m m1 : Mem α} {k c : Nat} (hs : m.SameShape m1)
    (h : m.Holds k c) : m1.Holds k c := by
  rw [Mem.holds_iff] at h ⊢
  obtain ⟨n, hn, hc⟩ := h
  exact ⟨n, by rw [hs.2.2]; exact hn, hc⟩

theorem Mem.Holds.mono {m : Mem α} {k c d : Nat} (h : m.Holds k c) (hd : d ≤ c) :
    m.Holds k d := by
  rw [Mem.holds_iff] at h ⊢
  obtain ⟨n, hn, hc⟩ := h
  exact ⟨n, hn, by omega⟩

theorem buffer.Owns.ordered {m : Mem α} {b : buffer} (h : b.Owns m) : b.Ordered :=
  ⟨h.2.1, h.2.2.1, by rw [h.1]; exact Nat.zero_le _, h.2.2.2.1⟩

theorem buffer.Owns.keep_owning {m m1 : Mem α} {b : buffer} (hs : m.SameShape m1)
    (h : b.Owns m) : b.Owns m1 := by
  obtain ⟨h1, h2, h3, h4, h5⟩ := h
  refine ⟨h1, h2, h3, h4, ?_⟩
  rcases h5 with h5 | h5
  · exact Or.inl h5
  · exact Or.inr (h5.keep hs)

theorem buffer.Owns.size_eq {m : Mem α} {b : buffer} (h : b.Owns m) : b.size = b.last.off := by
  simp [buffer.size, h.1]

theorem buffer.Owns.cap_eq {m : Mem α} {b : buffer} (h : b.Owns m) :
    b.cap = b.capacity.off := by
  simp [buffer.cap, h.1]

theorem buffer.Owns.header {m : Mem α} {b : buffer} (h : b.Owns m) :
    b = ⟨⟨b.first.blk, 0⟩, ⟨b.first.blk, b.size⟩, ⟨b.first.blk, b.cap⟩⟩ :=
  buffer.eq_of_fields b ((Ptr.eq_iff _ _).2 ⟨rfl, h.1⟩)
    ((Ptr.eq_iff _ _).2 ⟨h.2.1, h.size_eq.symm⟩)
    ((Ptr.eq_iff _ _).2 ⟨h.2.2.1, h.cap_eq.symm⟩)

theorem buffer.Owns.size_le_cap {m : Mem α} {b : buffer} (h : b.Owns m) : b.size ≤ b.cap := by
  rw [h.size_eq, h.cap_eq]
  exact h.2.2.2.1

/-- Every cell below the capacity of an owning buffer can be accessed. -/
theorem buffer.Owns.readable_below_cap {m : Mem α} {b : buffer} (h : b.Owns m) (i : Nat) (hi : i < b.cap) :
    ∃ v, m.read (b.first.add i) = some v := by
  rw [h.cap_eq] at hi
  rcases h.2.2.2.2 with h5 | h5
  · omega
  · have hp : b.first.add i = ⟨b.first.blk, i⟩ := by
      rw [Ptr.eq_iff]
      simp only [Ptr.add_blk, Ptr.add_off, h.1]
      exact ⟨trivial, by omega⟩
    rw [hp]
    exact h5.readable_cell i hi

/-- The function `buffer_realloc` on an owning buffer: the elements move to a fresh block of
`capacity + padding` cells. -/
theorem buffer_realloc_owns (m : Mem α) (b : buffer) (capacity padding : Nat) (nd : Bool)
    (hv : b.Owns m) (hfit : b.size ≤ capacity) :
    ∃ m1, buffer_realloc m b capacity padding nd
        = some (m1, ⟨⟨m.next, 0⟩, ⟨m.next, b.size⟩, ⟨m.next, capacity⟩⟩) ∧
      buffer.Owns m1 ⟨⟨m.next, 0⟩, ⟨m.next, b.size⟩, ⟨m.next, capacity⟩⟩ ∧
      m1.blockSize m.next = some (capacity + padding) ∧
      (∀ i, i < b.size → m1.read ⟨m.next, i⟩ = m.read (b.first.add i)) ∧
      m1.next = m.next + 1 ∧
      (∀ q : Ptr, q.blk ≠ m.next → q.blk ≠ b.first.blk → m1.read q = m.read q) ∧
      (∀ k, k ≠ m.next → k ≠ b.first.blk → m1.blockSize k = m.blockSize k) ∧
      (nd = true → (∀ q : Ptr, q.blk ≠ m.next → m1.read q = m.read q) ∧
        ∀ k, k ≠ m.next → m1.blockSize k = m.blockSize k) := by
  have hfree : nd = true ∨ b.first = nullptr ∨
      (b.first.off = 0 ∧ ∃ n, m.blockSize b.first.blk = some n) := by
    rcases hv.2.2.2.2 with h5 | h5
    · exact Or.inr (Or.inl h5.1)
    · obtain ⟨n, hn, _⟩ := (Mem.holds_iff _ _ _).1 h5
      exact Or.inr (Or.inr ⟨hv.1, n, hn⟩)
  obtain ⟨m1, hm1, hnext, _, hbs, hmoved, _, hoth, hobs, hnd⟩ := buffer_realloc_spec m b
    capacity padding nd hv.2.1 (by rw [hv.1]; exact Nat.zero_le _)
    (fun i hi => hv.readable_below_cap i (by have := hv.size_le_cap; omega)) (by omega) hfree
  refine ⟨m1, hm1, ⟨rfl, rfl, rfl, hfit, Or.inr ?_⟩, hbs, hmoved, hnext, hoth, hobs, hnd⟩
  rw [Mem.holds_iff]
  exact ⟨_, hbs, Nat.le_add_right _ _⟩

/-- The function `buffer_reserve` on an owning buffer. -/
theorem buffer_reserve_spec (m : Mem α) (b : buffer) (n p : Nat) (nd : Bool)
    (hv : b.Owns m) (hge : b.size ≤ n ∨ p ≤ 1) :
    ∃ m1 b1, buffer_reserve m b n p nd = some (m1, b1) ∧ b1.Owns m1 ∧
      b1.size = b.size ∧ n ≤ b1.cap ∧
      (∀ i, i < b.size → m1.read (b1.first.add i) = m.read (b.first.add i)) ∧
      (n + p ≤ b.cap → m1 = m ∧ b1 = b) ∧
      (b.cap < n + p → b1.cap = n ∧ m1.blockSize b1.first.blk = some (n + p) ∧
        b1.first = ⟨m.next, 0⟩) := by
  have hcap := hv.cap_eq
  have hsc := hv.size_le_cap
  by_cases hfits : b.first.off + n + p ≤ b.capacity.off
  · refine ⟨m, b, ?_, hv, rfl, ?_, fun _ _ => rfl, fun _ => ⟨rfl, rfl⟩, ?_⟩
    · unfold buffer_reserve
      rw [if_pos hfits]
    · rw [hcap]; omega
    · intro h
      have := hv.1
      omega
  · have h0 := hv.1
    obtain ⟨m1, hm1, hown, hbs, hmoved, _, _, _, _⟩ :=
      buffer_realloc_owns m b n p nd hv (by omega)
    refine ⟨m1, _, ?_, hown, ?_, ?_, ?_, ?_, ?_⟩
    · unfold buffer_reserve
      rw [if_neg hfits]
      exact hm1
    · simp [buffer.size]
    · simp [buffer.cap]
    · intro i hi
      rw [← hmoved i hi]
      simp [Ptr.add]
    · intro h
      omega
    · intro _
      exact ⟨by simp [buffer.cap], hbs, rfl⟩

/-- The function `buffer_grow` on an owning buffer. -/
theorem buffer_grow_spec (m : Mem α) (b : buffer) (size p : Nat) (nd : Bool)
    (hv : b.Owns m) :
    ∃ m1 b1, buffer_grow m b size p nd = some (m1, b1) ∧ b1.Owns m1 ∧
      b1.size = b.size ∧ size ≤ b1.cap ∧
      (∀ i, i < b.size → m1.read (b1.first.add i) = m.read (b.first.add i)) ∧
      (size ≤ b.cap → m1 = m ∧ b1 = b) ∧
      (b.cap < size → b1.cap = (size * 3) / 2 ∧
        m1.blockSize b1.first.blk = some ((size * 3) / 2 + p) ∧ b1.first = ⟨m.next, 0⟩) := by
  have hcap := hv.cap_eq
  have hsc := hv.size_le_cap
  have h0 := hv.1
  by_cases hgrow : b.first.off + size > b.capacity.off
  · obtain ⟨m1, hm1, hown, hbs, hmoved, _, _, _, _⟩ :=
      buffer_realloc_owns m b ((size * 3) / 2) p nd hv (by omega)
    refine ⟨m1, _, ?_, hown, ?_, ?_, ?_, ?_, ?_⟩
    · unfold buffer_grow
      rw [if_pos hgrow]
      exact hm1
    · simp [buffer.size]
    · simp only [buffer.cap]
      omega
    · intro i hi
      rw [← hmoved i hi]
      simp [Ptr.add]
    · intro h
      omega
    · intro _
      exact ⟨by simp [buffer.cap], hbs, rfl⟩
  · refine ⟨m, b, ?_, hv, rfl, by omega, fun _ _ => rfl, fun _ => ⟨rfl, rfl⟩, ?_⟩
    · unfold buffer_grow
      rw [if_neg hgrow]
    · intro h
      omega

/-- The function `buffer_grow_count` on an owning buffer. -/
theorem buffer_grow_count_spec (m : Mem α) (b : buffer) (count p : Nat) (nd : Bool)
    (hv : b.Owns m) :
    ∃ m1 b1, buffer_grow_count m b count p nd = some (m1, b1) ∧ b1.Owns m1 ∧
      b1.size = b.size ∧ b1.size + count ≤ b1.cap ∧
      (∀ i, i < b.size → m1.read (b1.first.add i) = m.read (b.first.add i)) ∧
      (b.size + count ≤ b.cap → m1 = m ∧ b1 = b) ∧
      (b.cap < b.size + count → b1.cap = ((b.size + count) * 3) / 2 ∧
        m1.blockSize b1.first.blk = some (((b.size + count) * 3) / 2 + p) ∧
        b1.first = ⟨m.next, 0⟩) := by
  have hcap := hv.cap_eq
  have hsz := hv.size_eq
  have hsc := hv.size_le_cap
  have h0 := hv.1
  by_cases hgrow : b.last.off + count > b.capacity.off
  · obtain ⟨m1, hm1, hown, hbs, hmoved, _, _, _, _⟩ :=
      buffer_realloc_owns m b (((b.size + count) * 3) / 2) p nd hv (by omega)
    refine ⟨m1, _, ?_, hown, ?_, ?_, ?_, ?_, ?_⟩
    · unfold buffer_grow_count
      rw [if_pos hgrow]
      exact hm1
    · simp [buffer.size]
    · simp only [buffer.cap, buffer.size]
      omega
    · intro i hi
      rw [← hmoved i hi]
      simp [Ptr.add]
    · intro h
      omega
    · intro _
      exact ⟨by simp [buffer.cap], hbs, rfl⟩
  · refine ⟨m, b, ?_, hv, rfl, by omega, fun _ _ => rfl, fun _ => ⟨rfl, rfl⟩, ?_⟩
    · unfold buffer_grow_count
      rw [if_neg hgrow]
    · intro h
      omega

variable {α : Type}

/-! ## `buffer_alloc`, `buffer_reserve`, `buffer_shrink_to_fit` -/

/-- Reading the elements of a buffer from the cells of its block. -/
theorem buffer.contents_of_read (m : Mem α) (b : buffer) (xs : List α)
    (hsize : b.size = xs.length)
    (hrd : ∀ i, i < xs.length → m.read (b.first.add i) = xs[i]?) :
    b.contents m = some xs := by
  unfold buffer.contents
  rw [hsize]
  exact (Mem.readRange_eq_some m _ _ _).2 ⟨rfl, hrd⟩

theorem buffer.length_of_contents {m : Mem α} {b : buffer} {xs : List α}
    (h : b.contents m = some xs) : xs.length = b.size :=
  ((Mem.readRange_eq_some m _ _ _).1 h).1

theorem buffer.read_of_contents {m : Mem α} {b : buffer} {xs : List α}
    (h : b.contents m = some xs) (i : Nat) (hi : i < xs.length) :
    m.read (b.first.add i) = xs[i]? :=
  ((Mem.readRange_eq_some m _ _ _).1 h).2 i (by rw [← buffer.length_of_contents h]; exact hi)

theorem basic_string.Valid.owns {m : Mem CChar} {s : basic_string} (h : s.Valid m) :
    s.m_buffer.Owns m := by
  obtain ⟨h1, h2, h3, h4, h5, h6, _⟩ := h
  refine ⟨h3, h1, h2, h4, Or.inr ?_⟩
  rw [Mem.holds_iff]
  by_cases hin : s.m_buffer.first.blk = s.m_small
  · rw [if_pos hin] at h6
    exact ⟨_, by rw [hin]; exact h5, by rw [h6.1]⟩
  · rw [if_neg hin] at h6
    exact ⟨_, h6, by omega⟩

/-- C22: `buffer_reserve(b, n, p)` with `n` at least the size leaves header, memory and
contents alone when the capacity covers `n + p`; otherwise the capacity becomes `n`, the
buffer sits in a block of `n + p` cells, and size and contents are kept.  For a string,
`reserve(n)` keeps size and bytes and leaves a capacity of at least `n`.  The request of
`n + p` cells (`n + 1` bytes for the string) has at most `ptrdiff_max` bytes: up to there
the sum `b.first + capacity + padding` and the byte count `sizeof(T) * (capacity + padding)`
of the source are exact, and no larger block can be had. -/
theorem reserve_keeps_contents :
    (∀ (β : Type) [ElemSize β] (m : Mem β) (b : buffer) (xs : List β) (n p : Nat) (nd : Bool),
      b.Owns m → b.contents m = some xs → xs.length ≤ n →
      ElemSize.sizeof β * (n + p) ≤ ptrdiff_max →
      ∃ m1 b1, buffer_reserve m b n p nd = some (m1, b1) ∧
        b1.size = xs.length ∧ b1.contents m1 = some xs ∧
        (n + p ≤ b.cap → m1 = m ∧ b1 = b) ∧
        (b.cap < n + p → b1.cap = n ∧ m1.blockSize b1.first.blk = some (n + p))) ∧
    (∀ (m : Mem CChar) (s : basic_string) (xs : List CChar) (n : Nat),
      s.Valid m → s.contents m = some xs → n + 1 ≤ ptrdiff_max →
      ∃ m1 s1, basic_string.reserve m s n = some (m1, s1) ∧
        s1.size = xs.length ∧ s1.contents m1 = some xs ∧ n ≤ s1.capacity) := by
  constructor
  · intro β _ m b xs n p nd hv hxs hn _
    have hlen := buffer.length_of_contents hxs
    obtain ⟨m1, b1, hr, _, hsize, _, hrd, hsame, hnew⟩ :=
      buffer_reserve_spec m b n p nd hv (Or.inl (by omega))
    refine ⟨m1, b1, hr, by omega, ?_, hsame, fun h => ⟨(hnew h).1, (hnew h).2.1⟩⟩
    refine buffer.contents_of_read m1 b1 xs (by omega) ?_
    intro i hi
    rw [hrd i (by omega)]
    exact buffer.read_of_contents hxs i hi
  · intro m s xs n hv hxs _
    have hlen := buffer.length_of_contents hxs
    obtain ⟨m1, b1, hr, _, hsize, hcap, hrd, _, _⟩ :=
      buffer_reserve_spec m s.m_buffer n 1 (decide (s.m_buffer.first = s.small)) hv.owns
        (Or.inr (Nat.le_refl 1))
    refine ⟨m1, ⟨s.m_small, b1⟩, ?_, ?_, ?_, hcap⟩
    · simp only [basic_string.reserve, string_reserve, hr]
    · simp only [basic_string.size]
      omega
    · refine buffer.contents_of_read m1 b1 xs (by omega) ?_
      intro i hi
      rw [hrd i (by omega)]
      exact buffer.read_of_contents hxs i hi

/-- The function `buffer_shrink_to_fit` on an owning buffer: nothing happens when
`capacity == last`; an empty buffer with spare capacity releases its block and gets the
null header; any other buffer moves to a fresh block of `size + padding` cells. -/
theorem buffer_shrink_to_fit_spec (m : Mem α) (b : buffer) (p : Nat) (hv : b.Owns m) :
    ∃ m1 b1, buffer_shrink_to_fit m b p = some (m1, b1) ∧ b1.Owns m1 ∧
      (b.capacity = b.last → m1 = m ∧ b1 = b) ∧
      (b.capacity ≠ b.last → b.last = b.first → b1 = ⟨nullptr, nullptr, nullptr⟩) ∧
      (b.capacity ≠ b.last → b.last ≠ b.first →
        b1 = ⟨⟨m.next, 0⟩, ⟨m.next, b.size⟩, ⟨m.next, b.size⟩⟩ ∧
        m1.blockSize m.next = some (b.size + p) ∧
        ∀ i, i < b.size → m1.read ⟨m.next, i⟩ = m.read (b.first.add i)) := by
  by_cases hcl : b.capacity = b.last
  · refine ⟨m, b, ?_, hv, fun _ => ⟨rfl, rfl⟩, fun h => absurd hcl h, fun h => absurd hcl h⟩
    unfold buffer_shrink_to_fit
    rw [if_neg (by simpa using hcl)]
  · by_cases hlf : b.last = b.first
    · have hlive : ∃ n, m.blockSize b.first.blk = some n := by
        rcases hv.2.2.2.2 with h5 | h5
        · exfalso
          apply hcl
          rw [Ptr.eq_iff]
          refine ⟨by rw [hv.2.2.1, hv.2.1], ?_⟩
          have := hv.2.2.2.1
          omega
        · obtain ⟨n, hn, _⟩ := (Mem.holds_iff _ _ _).1 h5
          exact ⟨n, hn⟩
      obtain ⟨n, hn⟩ := hlive
      obtain ⟨m1, hm1⟩ := Mem.free_of_blockSize hn hv.1
      refine ⟨m1, ⟨nullptr, nullptr, nullptr⟩, ?_, ⟨rfl, rfl, rfl, Nat.le_refl _,
        Or.inl ⟨rfl, rfl⟩⟩, fun h => absurd h hcl, fun _ _ => rfl, fun _ h => absurd hlf h⟩
      unfold buffer_shrink_to_fit
      rw [if_pos hcl, if_pos hlf]
      simp only [hm1]
    · obtain ⟨m1, hm1, hown, hbs, hmoved, _⟩ :=
        buffer_realloc_owns m b b.size p false hv (Nat.le_refl _)
      refine ⟨m1, _, ?_, hown, fun h => absurd h hcl, fun _ h => absurd h hlf,
        fun _ _ => ⟨rfl, hbs, hmoved⟩⟩
      unfold buffer_shrink_to_fit
      rw [if_pos hcl, if_neg hlf, ← hm1]
      rfl

/-- C23, amended: `buffer_shrink_to_fit` changes nothing when `capacity_end == end`, also for
an empty buffer; an empty buffer with `capacity_end != end` gets three null pointers; in
every case but that one `capacity_end == end` holds afterwards and the size and the contents
are unchanged. -/
theorem shrink_to_fit_cases (m : Mem α) (b : buffer) (xs : List α) (p : Nat)
    (hv : b.Owns m) (hxs : b.contents m = some xs) :
    ∃ m1 b1, buffer_shrink_to_fit m b p = some (m1, b1) ∧
      (b.capacity = b.last → m1 = m ∧ b1 = b) ∧
      (b.last = b.first → b.capacity ≠ b.last →
        b1.first = nullptr ∧ b1.last = nullptr ∧ b1.capacity = nullptr) ∧
      (b.last ≠ b.first ∨ b.capacity = b.last →
        b1.capacity = b1.last ∧ b1.size = xs.length ∧ b1.contents m1 = some xs) := by
  have hlen := buffer.length_of_contents hxs
  obtain ⟨m1, b1, hr, _, hsame, hnull, hmove⟩ := buffer_shrink_to_fit_spec m b p hv
  refine ⟨m1, b1, hr, hsame, ?_, ?_⟩
  · intro h1 h2
    rw [hnull h2 h1]
    exact ⟨rfl, rfl, rfl⟩
  · intro h
    by_cases hcl : b.capacity = b.last
    · obtain ⟨e1, e2⟩ := hsame hcl
      rw [e1, e2]
      exact ⟨hcl, hlen.symm, hxs⟩
    · have hlf : b.last ≠ b.first := by
        rcases h with h | h
        · exact h
        · exact absurd h hcl
      obtain ⟨e, _, hmoved⟩ := hmove hcl hlf
      have hs : (buffer.mk ⟨m.next, 0⟩ ⟨m.next, b.size⟩ ⟨m.next, b.size⟩).size = xs.length :=
        hlen.symm
      rw [e]
      refine ⟨rfl, hs, ?_⟩
      refine buffer.contents_of_read m1 _ xs hs ?_
      intro i hi
      have := hmoved i (by omega)
      simp only [Ptr.add, Nat.zero_add]
      rw [this]
      exact buffer.read_of_contents hxs i hi

variable {α : Type}

/-! ## The header invariant through the primitives of `buffer.h` -/

theorem buffer.Owns.first_add {m : Mem α} {b : buffer} (h : b.Owns m) (i : Nat) :
    b.first.add i = ⟨b.first.blk, i⟩ := by
  rw [Ptr.eq_iff]
  simp only [Ptr.add_blk, Ptr.add_off, h.1]
  exact ⟨trivial, by omega⟩

theorem buffer.Owns.last_add {m : Mem α} {b : buffer} (h : b.Owns m) (i : Nat) :
    b.last.add i = ⟨b.first.blk, b.size + i⟩ := by
  rw [Ptr.eq_iff]
  simp only [Ptr.add_blk, Ptr.add_off, h.size_eq]
  exact ⟨h.2.1, trivial⟩

/-- Moving `last` inside the capacity of an owning buffer, the memory keeping its shape. -/
theorem buffer.Owns.with_last {m m1 : Mem α} {b : buffer} (h : b.Owns m)
    (hs : m.SameShape m1) (n : Nat) (hn : n ≤ b.cap) :
    buffer.Owns m1 { b with last := b.first.add n } := by
  have h1 := h.keep_owning hs
  refine ⟨h1.1, rfl, h1.2.2.1, ?_, h1.2.2.2.2⟩
  simp only [Ptr.add_off, h.1]
  rw [h.cap_eq] at hn
  omega

/-- The function `buffer_insert_spread` on an owning buffer. -/
theorem buffer_insert_spread_spec (m : Mem α) (b : buffer) (k c p : Nat) (nd : Bool)
    (hv : b.Owns m) (hk : k ≤ b.size) :
    ∃ m1 b1, buffer_insert_spread m b (b.first.add k) c p nd
        = some (m1, b1, b1.first.add k) ∧
      b1.Owns m1 ∧ b1.size = b.size + c ∧
      (∀ i, i < k → m1.read (b1.first.add i) = m.read (b.first.add i)) ∧
      (∀ i, k ≤ i → i < b.size → m1.read (b1.first.add (i + c)) = m.read (b.first.add i)) ∧
      (b.size + c ≤ b.cap → b1.first = b.first) ∧
      (b.cap < b.size + c → b1.first = ⟨m.next, 0⟩) := by
  obtain ⟨m1, b1, hg, hown1, hsize1, hcap1, hrd1, hsame, hnew⟩ :=
    buffer_grow_spec m b (b.size + c) p nd hv
  have hg2 : buffer_grow m b (b.size + c) p nd
      = some (m1, ⟨⟨b1.first.blk, 0⟩, ⟨b1.first.blk, b.size⟩, ⟨b1.first.blk, b1.cap⟩⟩) := by
    rw [hg, ← hsize1]
    exact congrArg (fun x => some (m1, x)) hown1.header
  have hcells : ∀ i, i < b.size + c → ∃ v, m1.read ⟨b1.first.blk, i⟩ = some v := by
    intro i hi
    rw [← hown1.first_add i]
    exact hown1.readable_below_cap i (by omega)
  obtain ⟨m2, hsp, hsh, hrd2⟩ := buffer_insert_spread_of_grow m m1 b k c p nd b1.first.blk
    b1.cap b.size rfl hk hg2 hcells
  have hcapo := hown1.cap_eq
  refine ⟨m2, ⟨⟨b1.first.blk, 0⟩, ⟨b1.first.blk, b.size + c⟩, ⟨b1.first.blk, b1.cap⟩⟩, ?_,
    ?_, by simp [buffer.size], ?_, ?_, ?_, ?_⟩
  · rw [hsp]
    simp [Ptr.add]
  · refine ⟨rfl, rfl, rfl, hcap1, ?_⟩
    rcases hown1.2.2.2.2 with h5 | h5
    · left
      have hb : b1.first.blk = 0 := by rw [h5.1]; rfl
      exact ⟨by rw [Ptr.eq_iff]; exact ⟨hb, rfl⟩, by simp only; omega⟩
    · right
      simp only
      rw [hcapo]
      exact h5.keep hsh
  · intro i hi
    have e : Ptr.add ⟨b1.first.blk, 0⟩ i = ⟨b1.first.blk, i⟩ := by simp [Ptr.add]
    show m2.read (Ptr.add ⟨b1.first.blk, 0⟩ i) = _
    rw [e, hrd2, if_neg (by simp only; omega), ← hown1.first_add, hrd1 i (by omega)]
  · intro i hik hi
    have e : Ptr.add ⟨b1.first.blk, 0⟩ (i + c) = ⟨b1.first.blk, i + c⟩ := by simp [Ptr.add]
    show m2.read (Ptr.add ⟨b1.first.blk, 0⟩ (i + c)) = _
    rw [e, hrd2, if_pos ⟨rfl, by simp only; omega, by simp only; omega⟩]
    simp only [Nat.add_sub_cancel]
    rw [← hown1.first_add, hrd1 i hi]
  · intro h
    have := (hsame h).2
    simp only
    rw [this]
    exact ((Ptr.eq_iff b.first ⟨b.first.blk, 0⟩).2 ⟨rfl, hv.1⟩).symm
  · intro h
    have := (hnew h).2.2
    simp only
    rw [this]

/-- C24: `buffer_insert_spread(b, begin + k, c)` returns the new `begin + k`, makes the size
`|xs| + c`, keeps the elements at the indices below `k` and moves the elements at the
indices `k .. |xs|` up by `c` places, with or without a reallocation.  Three times the
bytes of the new size with the padding are at most `size_max`: up to there the sum `newsize`
and the capacity `(newsize * 3) / 2` of `buffer_grow` are exact in the source and the block
asked for has at most `ptrdiff_max` bytes. -/
theorem insert_spread_shifts_tail [ElemSize α] (m : Mem α) (b : buffer) (xs : List α)
    (k c p : Nat) (nd : Bool) (hv : b.Owns m) (hxs : b.contents m = some xs)
    (hk : k ≤ xs.length) (_hc : 3 * (ElemSize.sizeof α * (xs.length + c + p)) ≤ size_max) :
    ∃ m1 b1, buffer_insert_spread m b (b.first.add k) c p nd
        = some (m1, b1, b1.first.add k) ∧
      b1.size = xs.length + c ∧
      (∀ i, i < k → m1.read (b1.first.add i) = xs[i]?) ∧
      (∀ i, k ≤ i → i < xs.length → m1.read (b1.first.add (i + c)) = xs[i]?) ∧
      (xs.length + c ≤ b.cap → b1.first = b.first) ∧
      (b.cap < xs.length + c → b1.first = ⟨m.next, 0⟩) := by
  have hlen := buffer.length_of_contents hxs
  obtain ⟨m1, b1, hsp, _, hsize, hlow, hhigh, hstay, hmove⟩ :=
    buffer_insert_spread_spec m b k c p nd hv (by omega)
  refine ⟨m1, b1, hsp, by omega, ?_, ?_, ?_, ?_⟩
  · intro i hi
    rw [hlow i hi]
    exact buffer.read_of_contents hxs i (by omega)
  · intro i hik hi
    rw [hhigh i hik (by omega)]
    exact buffer.read_of_contents hxs i hi
  · intro h
    exact hstay (by omega)
  · intro h
    exact hmove (by omega)

variable {α : Type}

theorem buffer.Owns.last_ptr {m : Mem α} {b : buffer} (h : b.Owns m) :
    b.last = ⟨b.first.blk, b.size⟩ := by
  rw [Ptr.eq_iff]
  exact ⟨h.2.1, h.size_eq.symm⟩

/-- The function `buffer_resize` on an owning buffer. -/
theorem buffer_resize_owns (m : Mem α) (b : buffer) (size : Nat) (value : α)
    (hv : b.Owns m) :
    ∃ m1 b1, buffer_resize m b size value = some (m1, b1) ∧ b1.Owns m1 ∧ b1.size = size := by
  obtain ⟨m1, b1, hr, hown1, _, hcap1, _, _, _⟩ :=
    buffer_reserve_spec m b size 0 false hv (Or.inr (Nat.zero_le 1))
  have hcells : ∀ i, i < (b1.first.add size).off - b1.last.off →
      ∃ w, m1.read (b1.last.add i) = some w := by
    intro i hi
    simp only [Ptr.add_off, hown1.1] at hi
    rw [hown1.last_add, ← hown1.first_add]
    exact hown1.readable_below_cap _ (by have := hown1.size_eq; omega)
  obtain ⟨m2, hm2, hsh, _⟩ := fill_loop_spec _ b1.last value m1 hcells
  refine ⟨m2, { b1 with last := b1.first.add size }, ?_, hown1.with_last hsh size hcap1, ?_⟩
  · simp only [buffer_resize, hr, buffer_fill_urange, hm2]
  · simp [buffer.size, Ptr.add]

/-- The function `buffer_append` on an owning buffer. -/
theorem buffer_append_owns (m : Mem α) (b : buffer) (x : α) (hv : b.Owns m) :
    ∃ m1 b1, buffer_append m b x = some (m1, b1) ∧ b1.Owns m1 ∧ b1.size = b.size + 1 := by
  obtain ⟨m1, b1, hg, hown1, hsize1, hcap1, _, _, _⟩ := buffer_grow_count_spec m b 1 0 false hv
  obtain ⟨v, hv1⟩ := hown1.readable_below_cap b1.size (by omega)
  rw [hown1.first_add, ← hown1.last_ptr] at hv1
  obtain ⟨m2, hm2⟩ := Mem.write_some hv1 x
  have hl : b1.first.add (b1.size + 1) = b1.last.add 1 := by
    rw [hown1.first_add, hown1.last_add]
  refine ⟨m2, { b1 with last := b1.last.add 1 }, ?_, ?_, ?_⟩
  · simp only [buffer_append, hg, hm2]
  · rw [← hl]
    exact hown1.with_last (Mem.sameShape_write hm2) (b1.size + 1) hcap1
  · rw [← hl, ← hsize1]
    simp [buffer.size, Ptr.add]

/-- The function `buffer_erase` on an owning buffer: the header loses `j - i` elements, the
memory keeps its shape. -/
theorem buffer_erase_owns (m : Mem α) (b : buffer) (i j : Nat) (hv : b.Owns m)
    (hij : i ≤ j) (hj : j ≤ b.size) :
    ∃ m1, buffer_erase m b (b.first.add i) (b.first.add j)
        = some (m1, { b with last := ⟨b.first.blk, b.size - (j - i)⟩ }, b.first.add i) ∧
      m.SameShape m1 ∧
      buffer.Owns m1 { b with last := ⟨b.first.blk, b.size - (j - i)⟩ } := by
  have hsc := hv.size_le_cap
  have hd1 : ptrDiff (b.first.add j) (b.first.add i) = some (j - i) := ptrDiff_add _ i j hij
  have hd2 : ptrDiff b.last (b.first.add j) = some (b.size - j) := by
    rw [hv.last_ptr, ← hv.first_add b.size]
    exact ptrDiff_add _ j b.size hj
  obtain ⟨m1, hm1, hsh, _⟩ := copy_loop_spec (b.size - j) (b.first.add i) (b.first.add j) m
    (fun t ht => by rw [Ptr.add_add]; exact hv.readable_below_cap _ (by omega))
    (fun t ht => by rw [Ptr.add_add]; exact hv.readable_below_cap _ (by omega))
    (Or.inr (by simp only [Ptr.add_off]; omega))
  have hsub : b.last.sub (j - i) = some ⟨b.first.blk, b.size - (j - i)⟩ := by
    rw [hv.last_ptr]
    unfold Ptr.sub
    rw [if_pos (by simp only; omega)]
  refine ⟨m1, ?_, hsh, ?_⟩
  · simp only [buffer_erase, hd1, hd2, hm1, hsub]
  · have := hv.with_last hsh (b.size - (j - i)) (by omega)
    rwa [hv.first_add] at this

/-- The function `buffer_erase_unordered` on an owning buffer. -/
theorem buffer_erase_unordered_owns (m : Mem α) (b : buffer) (i j : Nat) (hv : b.Owns m)
    (hij : i ≤ j) (hj : j ≤ b.size) :
    ∃ m1, buffer_erase_unordered m b (b.first.add i) (b.first.add j)
        = some (m1, { b with last := ⟨b.first.blk, b.size - (j - i)⟩ }, b.first.add i) ∧
      m.SameShape m1 ∧
      buffer.Owns m1 { b with last := ⟨b.first.blk, b.size - (j - i)⟩ } := by
  have hsc := hv.size_le_cap
  have hd1 : ptrDiff (b.first.add j) (b.first.add i) = some (j - i) := ptrDiff_add _ i j hij
  have hd2 : ptrDiff b.last (b.first.add j) = some (b.size - j) := by
    rw [hv.last_ptr, ← hv.first_add b.size]
    exact ptrDiff_add _ j b.size hj
  obtain ⟨mn, hmn⟩ : ∃ mn, mn = (if j - i < b.size - j then j - i else b.size - j) := ⟨_, rfl⟩
  have hmn1 : mn ≤ j - i := by rw [hmn]; split <;> omega
  have hmn2 : mn ≤ b.size - j := by rw [hmn]; split <;> omega
  have hit : b.last.sub mn = some (b.first.add (b.size - mn)) := by
    rw [hv.last_ptr, hv.first_add]
    unfold Ptr.sub
    rw [if_pos (by simp only; omega)]
  have hd3 : ptrDiff b.last (b.first.add (b.size - mn)) = some mn := by
    rw [hv.last_ptr, ← hv.first_add b.size, ptrDiff_add _ _ _ (by omega)]
    congr 1
    omega
  obtain ⟨m1, hm1, hsh, _⟩ := copy_loop_spec mn (b.first.add i) (b.first.add (b.size - mn)) m
    (fun t ht => by rw [Ptr.add_add]; exact hv.readable_below_cap _ (by omega))
    (fun t ht => by rw [Ptr.add_add]; exact hv.readable_below_cap _ (by omega))
    (Or.inr (by simp only [Ptr.add_off]; omega))
  have hsub : b.last.sub (j - i) = some ⟨b.first.blk, b.size - (j - i)⟩ := by
    rw [hv.last_ptr]
    unfold Ptr.sub
    rw [if_pos (by simp only; omega)]
  refine ⟨m1, ?_, hsh, ?_⟩
  · simp only [buffer_erase_unordered, hd1, hd2, ← hmn, hit, hd3, hm1, hsub]
  · have := hv.with_last hsh (b.size - (j - i)) (by omega)
    rwa [hv.first_add] at this

/-- The function `buffer_pop` on a non-empty owning buffer. -/
theorem buffer_pop_owns (m : Mem α) (b : buffer) (hv : b.Owns m) (hne : 0 < b.size) :
    buffer_pop b = some { b with last := ⟨b.first.blk, b.size - 1⟩ } ∧
      buffer.Owns m { b with last := ⟨b.first.blk, b.size - 1⟩ } := by
  have hsc := hv.size_le_cap
  have hsub : b.last.sub 1 = some ⟨b.first.blk, b.size - 1⟩ := by
    rw [hv.last_ptr]
    unfold Ptr.sub
    rw [if_pos (by simp only; omega)]
  refine ⟨by simp only [buffer_pop, hsub], ?_⟩
  have := hv.with_last (Mem.SameShape.refl m) (b.size - 1) (by omega)
  rwa [hv.first_add] at this

theorem buffer.owns_null (m : Mem α) : buffer.Owns m ⟨nullptr, nullptr, nullptr⟩ :=
  ⟨rfl, rfl, rfl, Nat.le_refl _, Or.inl ⟨rfl, rfl⟩⟩

/-- C25: the header invariant `begin <= end <= capacity_end` holds after every primitive of
`buffer.h` called with valid arguments on a buffer that owns its storage, and the primitive
returns; the buffer still owns its storage afterwards.  The sizes handed to the primitives
that reserve or grow are in the range where the arithmetic of the source is exact: a
reservation or a new size of at most `ptrdiff_max` bytes with the padding, and three times
the bytes of the target size of a growth, with the padding, at most `size_max`. -/
theorem header_invariant_preserved [ElemSize α] (m : Mem α) (b : buffer) (hv : b.Owns m) :
    (∀ n p nd, b.size ≤ n → ElemSize.sizeof α * (n + p) ≤ ptrdiff_max →
      ∃ m1 b1, buffer_reserve m b n p nd = some (m1, b1) ∧ b1.Ordered ∧ b1.Owns m1) ∧
    (∀ size p nd, 3 * (ElemSize.sizeof α * (size + p)) ≤ size_max →
      ∃ m1 b1, buffer_grow m b size p nd = some (m1, b1) ∧ b1.Ordered ∧ b1.Owns m1) ∧
    (∀ count p nd, 3 * (ElemSize.sizeof α * (b.size + count + p)) ≤ size_max →
      ∃ m1 b1, buffer_grow_count m b count p nd = some (m1, b1) ∧ b1.Ordered ∧ b1.Owns m1) ∧
    (∀ size value, ElemSize.sizeof α * size ≤ ptrdiff_max →
      ∃ m1 b1, buffer_resize m b size value = some (m1, b1) ∧ b1.Ordered ∧ b1.Owns m1) ∧
    (∀ k count p nd, k ≤ b.size →
      3 * (ElemSize.sizeof α * (b.size + count + p)) ≤ size_max →
      ∃ m1 b1 w, buffer_insert_spread m b (b.first.add k) count p nd = some (m1, b1, w) ∧
        b1.Ordered ∧ b1.Owns m1) ∧
    (∀ x, 3 * (ElemSize.sizeof α * (b.size + 1)) ≤ size_max →
      ∃ m1 b1, buffer_append m b x = some (m1, b1) ∧ b1.Ordered ∧ b1.Owns m1) ∧
    (∀ i j, i ≤ j → j ≤ b.size →
      ∃ m1 b1 r, buffer_erase m b (b.first.add i) (b.first.add j) = some (m1, b1, r) ∧
        b1.Ordered ∧ b1.Owns m1) ∧
    (∀ i j, i ≤ j → j ≤ b.size →
      ∃ m1 b1 r, buffer_erase_unordered m b (b.first.add i) (b.first.add j)
          = some (m1, b1, r) ∧
        b1.Ordered ∧ b1.Owns m1) ∧
    (0 < b.size → ∃ b1, buffer_pop b = some b1 ∧ b1.Ordered ∧ b1.Owns m) ∧
    ((buffer_clear b).Ordered ∧ (buffer_clear b).Owns m) ∧
    (∀ p, ElemSize.sizeof α * (b.size + p) ≤ ptrdiff_max →
      ∃ m1 b1, buffer_shrink_to_fit m b p = some (m1, b1) ∧ b1.Ordered ∧ b1.Owns m1) ∧
    (∀ other : buffer, other.Owns m →
      (buffer_swap b other).1.Ordered ∧ (buffer_swap b other).2.Ordered ∧
      (buffer_swap b other).1.Owns m ∧ (buffer_swap b other).2.Owns m) ∧
    (∀ dst : buffer,
      (buffer_move dst b).1.Ordered ∧ (buffer_move dst b).2.Ordered ∧
      (buffer_move dst b).1.Owns m ∧ (buffer_move dst b).2.Owns m) := by
  refine ⟨?_, ?_, ?_, ?_, ?_, ?_, ?_, ?_, ?_, ?_, ?_, ?_, ?_⟩
  · intro n p nd hn _
    obtain ⟨m1, b1, hr, hown, _⟩ := buffer_reserve_spec m b n p nd hv (Or.inl hn)
    exact ⟨m1, b1, hr, hown.ordered, hown⟩
  · intro size p nd _
    obtain ⟨m1, b1, hr, hown, _⟩ := buffer_grow_spec m b size p nd hv
    exact ⟨m1, b1, hr, hown.ordered, hown⟩
  · intro count p nd _
    obtain ⟨m1, b1, hr, hown, _⟩ := buffer_grow_count_spec m b count p nd hv
    exact ⟨m1, b1, hr, hown.ordered, hown⟩
  · intro size value _
    obtain ⟨m1, b1, hr, hown, _⟩ := buffer_resize_owns m b size value hv
    exact ⟨m1, b1, hr, hown.ordered, hown⟩
  · intro k count p nd hk _
    obtain ⟨m1, b1, hr, hown, _⟩ := buffer_insert_spread_spec m b k count p nd hv hk
    exact ⟨m1, b1, _, hr, hown.ordered, hown⟩
  · intro x _
    obtain ⟨m1, b1, hr, hown, _⟩ := buffer_append_owns m b x hv
    exact ⟨m1, b1, hr, hown.ordered, hown⟩
  · intro i j hij hj
    obtain ⟨m1, hr, _, hown⟩ := buffer_erase_owns m b i j hv hij hj
    exact ⟨m1, _, _, hr, hown.ordered, hown⟩
  · intro i j hij hj
    obtain ⟨m1, hr, _, hown⟩ := buffer_erase_unordered_owns m b i j hv hij hj
    exact ⟨m1, _, _, hr, hown.ordered, hown⟩
  · intro hne
    obtain ⟨hr, hown⟩ := buffer_pop_owns m b hv hne
    exact ⟨_, hr, hown.ordered, hown⟩
  · have hown : (buffer_clear b).Owns m := by
      have := hv.with_last (Mem.SameShape.refl m) 0 (Nat.zero_le _)
      rwa [Ptr.add_zero] at this
    exact ⟨hown.ordered, hown⟩
  · intro p _
    obtain ⟨m1, b1, hr, hown, _⟩ := buffer_shrink_to_fit_spec m b p hv
    exact ⟨m1, b1, hr, hown.ordered, hown⟩
  · intro other ho
    exact ⟨ho.ordered, hv.ordered, ho, hv⟩
  · intro dst
    exact ⟨hv.ordered, (buffer.owns_null m).ordered, hv, buffer.owns_null m⟩

variable {α : Type}

/-! ## Heap mode is kept -/

theorem Mem.SameShape.readable {m m1 : Mem α} (hs : m.SameShape m1) {p : Ptr}
    (h : ∃ v, m.read p = some v) : ∃ v, m1.read p = some v := by
  rw [Mem.read_some_iff] at h ⊢
  obtain ⟨n, hn, hp⟩ := h
  exact ⟨n, by rw [hs.2.2]; exact hn, hp⟩

/-- Every byte of a valid string up to its terminator can be accessed. -/
theorem basic_string.Valid.read_le_size {m : Mem CChar} {s : basic_string} (hv : s.Valid m)
    (i : Nat) (hi : i ≤ s.size) : ∃ v, m.read ⟨s.m_buffer.first.blk, i⟩ = some v := by
  obtain ⟨h1, h2, h3, h4, h5, h6, _⟩ := hv
  have hsz : s.size = s.m_buffer.last.off := by simp [basic_string.size, buffer.size, h3]
  by_cases hin : s.m_buffer.first.blk = s.m_small
  · rw [if_pos hin] at h6
    rw [hin]
    exact Mem.read_of_blockSize h5 i (by omega)
  · rw [if_neg hin] at h6
    exact Mem.read_of_blockSize h6 i (by omega)

/-- A header whose `first` is the old `first` of a heap string, the null pointer or a fresh
block does not point at the inline array of the string. -/
theorem basic_string.not_inline_of_first {m : Mem CChar} {s : basic_string} (hv : s.Valid m)
    (hheap : ¬ s.isInline) (hobj : s.small ≠ nullptr) (b1 : buffer)
    (h : b1.first = s.m_buffer.first ∨ b1.first = nullptr ∨ b1.first = ⟨m.next, 0⟩) :
    ¬ basic_string.isInline ⟨s.m_small, b1⟩ := by
  unfold basic_string.isInline at hheap ⊢
  show ¬ b1.first = s.small
  rcases h with h | h | h
  · rw [h]; exact hheap
  · rw [h]; exact fun e => hobj e.symm
  · rw [h]
    intro e
    have := Mem.blockSize_lt hv.2.2.2.2.1
    have e1 : m.next = s.m_small := congrArg Ptr.blk e
    omega

/-- C26: a valid string in heap mode is still in heap mode after `clear`, `pop_back`, `erase`
of a valid range, `resize` and `shrink_to_fit`, whatever the size it is left with; each of
the calls returns. -/
theorem heap_mode_is_kept (m : Mem CChar) (s : basic_string) (hv : s.Valid m)
    (hheap : ¬ s.isInline) (hobj : s.small ≠ nullptr) :
    (∃ m1 s1, basic_string.clear m s = some (m1, s1) ∧ ¬ s1.isInline ∧ s1.size = 0) ∧
    (0 < s.size →
      ∃ m1 s1, basic_string.pop_back m s = some (m1, s1) ∧ ¬ s1.isInline ∧
        s1.size = s.size - 1) ∧
    (∀ i j, i ≤ j → j ≤ s.size →
      ∃ m1 s1 r, basic_string.erase m s (s.m_buffer.first.add i) (s.m_buffer.first.add j)
          = some (m1, s1, r) ∧
        ¬ s1.isInline ∧ s1.size = s.size - (j - i)) ∧
    (∀ n, ∃ m1 s1, basic_string.resize m s n = some (m1, s1) ∧ ¬ s1.isInline ∧
      s1.size = n) ∧
    (∃ m1 s1, basic_string.shrink_to_fit m s = some (m1, s1) ∧ ¬ s1.isInline ∧
      s1.size = s.size) := by
  have hown := hv.owns
  have hf : s.m_buffer.first = ⟨s.m_buffer.first.blk, 0⟩ := by
    rw [Ptr.eq_iff]; exact ⟨rfl, hown.1⟩
  have hl := hown.last_ptr
  have hsz : s.size = s.m_buffer.size := rfl
  refine ⟨?_, ?_, ?_, ?_, ?_⟩
  · -- clear
    obtain ⟨v, hv0⟩ := hv.read_le_size 0 (Nat.zero_le _)
    rw [← hf] at hv0
    obtain ⟨m1, hm1⟩ := Mem.write_some hv0 0
    refine ⟨m1, ⟨s.m_small, { s.m_buffer with last := s.m_buffer.first }⟩, ?_,
      basic_string.not_inline_of_first hv hheap hobj _ (Or.inl rfl), ?_⟩
    · simp only [basic_string.clear, string_clear, hm1]
    · simp [basic_string.size, buffer.size]
  · -- pop_back
    intro hne
    have hsub : s.m_buffer.last.sub 1 = some ⟨s.m_buffer.first.blk, s.m_buffer.size - 1⟩ := by
      rw [hl]
      unfold Ptr.sub
      rw [if_pos (by simp only; omega)]
    obtain ⟨v, hv0⟩ := hv.read_le_size (s.m_buffer.size - 1) (by omega)
    obtain ⟨m1, hm1⟩ := Mem.write_some hv0 0
    refine ⟨m1, ⟨s.m_small, { s.m_buffer with last := ⟨s.m_buffer.first.blk,
      s.m_buffer.size - 1⟩ }⟩, ?_,
      basic_string.not_inline_of_first hv hheap hobj _ (Or.inl rfl), ?_⟩
    · simp only [basic_string.pop_back, string_pop, hsub, hm1]
    · simp [basic_string.size, buffer.size, hown.1]
  · -- erase
    intro i j hij hj
    obtain ⟨m1, hr, hsh, _⟩ := buffer_erase_owns m s.m_buffer i j hown hij hj
    obtain ⟨v, hv0⟩ := hsh.readable
      (hv.read_le_size (s.m_buffer.size - (j - i)) (by omega))
    obtain ⟨m2, hm2⟩ := Mem.write_some hv0 0
    refine ⟨m2, ⟨s.m_small, { s.m_buffer with last := ⟨s.m_buffer.first.blk,
      s.m_buffer.size - (j - i)⟩ }⟩, s.m_buffer.first.add i, ?_,
      basic_string.not_inline_of_first hv hheap hobj _ (Or.inl rfl), ?_⟩
    · simp only [basic_string.erase, string_erase, hr, hm2]
    · simp [basic_string.size, buffer.size, hown.1]
  · -- resize
    intro n
    obtain ⟨m1, b1, hr, hown1, _, _, _, hsame, hnew⟩ := buffer_reserve_spec m s.m_buffer n 1
      (decide (s.m_buffer.first = s.small)) hown (Or.inr (Nat.le_refl 1))
    have hb : s.m_buffer.first.blk ≠ s.m_small := fun h => hheap (hv.inline_iff.2 h)
    have hcells : ∀ i, i ≤ n → ∃ v, m1.read ⟨b1.first.blk, i⟩ = some v := by
      intro i hi
      by_cases hc : n + 1 ≤ s.m_buffer.cap
      · obtain ⟨e1, e2⟩ := hsame hc
        have h6 := hv.2.2.2.2.2.1
        rw [if_neg hb] at h6
        rw [e1, e2]
        exact Mem.read_of_blockSize h6 i (by rw [hown.cap_eq] at hc; omega)
      · exact Mem.read_of_blockSize (hnew (by omega)).2.1 i (by omega)
    have hf1 : b1.first = ⟨b1.first.blk, 0⟩ := by
      rw [Ptr.eq_iff]; exact ⟨rfl, hown1.1⟩
    obtain ⟨m2, m3, hfill, hwr, _, _, _⟩ := resize_tail_spec m1 b1 b1.first.blk b1.size n hf1
      hown1.last_ptr hcells
    have hfirst : b1.first = s.m_buffer.first ∨ b1.first = nullptr ∨
        b1.first = ⟨m.next, 0⟩ := by
      by_cases hc : n + 1 ≤ s.m_buffer.cap
      · exact Or.inl (by rw [(hsame hc).2])
      · exact Or.inr (Or.inr (hnew (by omega)).2.2)
    refine ⟨m3, ⟨s.m_small, { b1 with last := b1.first.add n }⟩, ?_,
      basic_string.not_inline_of_first hv hheap hobj _ hfirst, ?_⟩
    · simp only [basic_string.resize, string_resize, string_reserve, hr, hfill, hwr]
    · simp [basic_string.size, buffer.size, Ptr.add]
  · -- shrink_to_fit
    obtain ⟨m1, b1, hr, _, hsame, hnull, hmove⟩ := buffer_shrink_to_fit_spec m s.m_buffer 1 hown
    have hcases : (b1.first = s.m_buffer.first ∨ b1.first = nullptr ∨
        b1.first = ⟨m.next, 0⟩) ∧ b1.size = s.m_buffer.size := by
      by_cases hcl : s.m_buffer.capacity = s.m_buffer.last
      · rw [(hsame hcl).2]
        exact ⟨Or.inl rfl, rfl⟩
      · by_cases hlf : s.m_buffer.last = s.m_buffer.first
        · rw [hnull hcl hlf]
          refine ⟨Or.inr (Or.inl rfl), ?_⟩
          simp [buffer.size, hlf]
        · rw [(hmove hcl hlf).1]
          exact ⟨Or.inr (Or.inr rfl), rfl⟩
    refine ⟨m1, ⟨s.m_small, b1⟩, ?_,
      basic_string.not_inline_of_first hv hheap hobj _ hcases.1, hcases.2⟩
    have hh : s.m_buffer.first ≠ s.small := hheap
    unfold basic_string.shrink_to_fit
    rw [if_pos hh]
    simp only [hr]

/-! ## The operators -/

theorem operator_eq_loop_spec (m : Mem CChar) (p1 p2 : Ptr) (xs ys : List CChar)
    (hx : ∀ i, i < xs.length → m.read (p1.add i) = xs[i]?)
    (hy : ∀ i, i < ys.length → m.read (p2.add i) = ys[i]?) (cnt : Nat) :
    ∀ i, i + cnt ≤ xs.length → i + cnt ≤ ys.length →
      (operator_eq_loop m cnt (p1.add i) (p2.add i) = some true ∧
        ∀ k, i ≤ k → k < i + cnt → xs[k]? = ys[k]?) ∨
      (operator_eq_loop m cnt (p1.add i) (p2.add i) = some false ∧
        ∃ k, i ≤ k ∧ k < i + cnt ∧ xs[k]? ≠ ys[k]?) := by
  induction cnt with
  | zero =>
    intro i _ _
    exact Or.inl ⟨rfl, fun k h1 h2 => by omega⟩
  | succ cnt ih =>
    intro i hi hj
    have e1 : xs[i]? = some xs[i] := List.getElem?_eq_getElem (by omega)
    have e2 : ys[i]? = some ys[i] := List.getElem?_eq_getElem (by omega)
    have h1 : m.read (p1.add i) = some xs[i] := by rw [hx i (by omega), e1]
    have h2 : m.read (p2.add i) = some ys[i] := by rw [hy i (by omega), e2]
    by_cases hc : xs[i] = ys[i]
    · have hstep : operator_eq_loop m (cnt + 1) (p1.add i) (p2.add i)
          = operator_eq_loop m cnt (p1.add (i + 1)) (p2.add (i + 1)) := by
        simp only [operator_eq_loop, h1, h2, ne_eq, hc, not_true_eq_false, if_false,
          Ptr.add_add]
      rcases ih (i + 1) (by omega) (by omega) with ⟨hr, hall⟩ | ⟨hr, k, hk1, hk2, hne⟩
      · refine Or.inl ⟨by rw [hstep, hr], ?_⟩
        intro k hk1 hk2
        by_cases hk : k = i
        · subst hk
          rw [e1, e2, hc]
        · exact hall k (by omega) (by omega)
      · exact Or.inr ⟨by rw [hstep, hr], k, by omega, by omega, hne⟩
    · refine Or.inr ⟨?_, i, Nat.le_refl _, by omega, ?_⟩
      · simp only [operator_eq_loop, h1, h2, ne_eq, hc, not_false_eq_true, if_true]
      · rw [e1, e2]
        exact fun h => hc (Option.some.inj h)

/-- The operator `==` returns, and returns true exactly when the two strings have the same
size and the same byte at every index. -/
theorem operator_eq_spec (m : Mem CChar) (a b : basic_string) (xs ys : List CChar)
    (hxs : a.contents m = some xs) (hys : b.contents m = some ys) :
    ∃ e, operator_eq m a b = some e ∧
      (e = true ↔ xs.length = ys.length ∧ ∀ k, k < xs.length → xs[k]? = ys[k]?) := by
  have hxl := basic_string.contents_length hxs
  have hyl := basic_string.contents_length hys
  by_cases hs : a.size = b.size
  · have hspec := operator_eq_loop_spec m a.m_buffer.first b.m_buffer.first xs ys
      (basic_string.contents_read hxs) (basic_string.contents_read hys) a.size 0
      (by omega) (by omega)
    simp only [Ptr.add_zero] at hspec
    have hdef : operator_eq m a b
        = operator_eq_loop m a.size a.m_buffer.first b.m_buffer.first := by
      simp only [operator_eq, basic_string.data, ne_eq, hs, not_true_eq_false, if_false]
    rcases hspec with ⟨hr, hall⟩ | ⟨hr, k, _, hk, hne⟩
    · refine ⟨true, by rw [hdef, hr], ?_⟩
      exact ⟨fun _ => ⟨by omega, fun k hk => hall k (Nat.zero_le _) (by omega)⟩, fun _ => rfl⟩
    · refine ⟨false, by rw [hdef, hr], ?_⟩
      constructor
      · intro h
        exact absurd h (by decide)
      · intro h
        exact absurd (h.2 k (by omega)) hne
  · refine ⟨false, ?_, ?_⟩
    · simp only [operator_eq, ne_eq, hs, not_false_eq_true, if_true]
    · constructor
      · intro h
        exact absurd h (by decide)
      · intro h
        exact absurd (by omega) hs

/-- The function `compare` returns, and returns 0 exactly when the two strings have the same
size and the same byte at every index. -/
theorem compare_zero_iff (m : Mem CChar) (a b : basic_string) (xs ys : List CChar)
    (hxs : a.contents m = some xs) (hys : b.contents m = some ys) :
    ∃ r, basic_string.compare m a b = some r ∧
      (r = 0 ↔ xs.length = ys.length ∧ ∀ k, k < xs.length → xs[k]? = ys[k]?) := by
  have hxl := basic_string.contents_length hxs
  have hyl := basic_string.contents_length hys
  obtain ⟨cnt, hcnt⟩ : ∃ cnt, cnt = (if a.size < b.size then a.size else b.size) := ⟨_, rfl⟩
  have hcx : cnt ≤ xs.length := by rw [hcnt]; split <;> omega
  have hcy : cnt ≤ ys.length := by rw [hcnt]; split <;> omega
  have hcmin : xs.length ≤ cnt ∨ ys.length ≤ cnt := by rw [hcnt]; split <;> omega
  have hspec := compare_loop_spec m a.m_buffer.first b.m_buffer.first xs ys
    (basic_string.contents_read hxs) (basic_string.contents_read hys) cnt 0
    (by omega) (by omega)
  simp only [Ptr.add_zero] at hspec
  rcases hspec with ⟨hr, hall⟩ | ⟨k0, x0, y0, hr, _, hk0, hx0, hy0, hne0, _⟩
  · have hres : basic_string.compare m a b
        = some (if a.size < b.size then -1 else if a.size > b.size then 1 else 0) := by
      unfold basic_string.compare
      simp only [← hcnt, hr]
      split
      · rfl
      · split <;> rfl
    refine ⟨_, hres, ?_⟩
    constructor
    · intro h0
      have hs : a.size = b.size := by
        by_contra hne
        by_cases h1 : a.size < b.size
        · rw [if_pos h1] at h0
          exact absurd h0 (by decide)
        · rw [if_neg h1, if_pos (by omega)] at h0
          exact absurd h0 (by decide)
      exact ⟨by omega, fun k hk => hall k (Nat.zero_le _) (by omega)⟩
    · intro h
      rw [if_neg (by omega), if_neg (by omega)]
  · have hres : basic_string.compare m a b = some (if x0 < y0 then -1 else 1) := by
      unfold basic_string.compare
      simp only [← hcnt, hr]
    refine ⟨_, hres, ?_⟩
    constructor
    · intro h0
      exfalso
      split at h0 <;> exact absurd h0 (by decide)
    · intro h
      exfalso
      have := h.2 k0 (by omega)
      rw [hx0, hy0] at this
      exact hne0 (Option.some.inj this)

/-- C27: `a == b` returns true exactly when the strings have the same size and the same byte
at every index, which is exactly when `a.compare(b)` is 0; `a != b` is the negation of
`a == b`; `a < b` is true exactly when `a.compare(b)` is negative. -/
theorem operators_agree_with_compare (m : Mem CChar) (a b : basic_string)
    (xs ys : List CChar) (hxs : a.contents m = some xs) (hys : b.contents m = some ys) :
    ∃ e r, operator_eq m a b = some e ∧ basic_string.compare m a b = some r ∧
      (e = true ↔ a.size = b.size ∧ ∀ i, i < a.size → a.get m i = b.get m i) ∧
      (e = true ↔ r = 0) ∧
      operator_ne m a b = some (!e) ∧
      operator_lt m a b = some (decide (r < 0)) := by
  have hxl := basic_string.contents_length hxs
  have hyl := basic_string.contents_length hys
  obtain ⟨e, he, hiff⟩ := operator_eq_spec m a b xs ys hxs hys
  obtain ⟨r, hr, hriff⟩ := compare_zero_iff m a b xs ys hxs hys
  refine ⟨e, r, he, hr, ?_, by rw [hiff, hriff], by simp only [operator_ne, he],
    by simp only [operator_lt, hr]⟩
  rw [hiff]
  constructor
  · intro h
    refine ⟨by omega, fun i hi => ?_⟩
    simp only [basic_string.get]
    rw [basic_string.contents_read hxs i (by omega),
      basic_string.contents_read hys i (by omega)]
    exact h.2 i (by omega)
  · intro h
    refine ⟨by omega, fun k hk => ?_⟩
    have := h.2 k (by omega)
    simp only [basic_string.get] at this
    rwa [basic_string.contents_read hxs k hk,
      basic_string.contents_read hys k (by omega)] at this

/-! ## `substr` as the code has it -/

/-- C28: for `pos <= size()`, `substr(pos, count)` returns a string of size
`min(count, size() - pos)` whose byte at every index `i` below that size is `s[pos + i]`,
with the terminator after it; the bytes of `s` and every cell that existed before, the
inline array of the new object apart, are unchanged. -/
theorem substr_as_implemented (m : Mem CChar) (s : basic_string) (self pos count : Nat)
    (xs : List CChar) (hxs : s.contents m = some xs) (hpos : pos ≤ xs.length)
    (hself : m.blockSize self = some c_nbuffer) (hne : s.m_buffer.first.blk ≠ self) :
    ∃ m1 r, basic_string.substr m s self pos count = some (m1, r) ∧
      r.size = min count (s.size - pos) ∧
      (∀ i, i < r.size → r.get m1 i = s.get m (pos + i)) ∧
      r.get m1 r.size = some 0 ∧
      s.contents m1 = some xs ∧
      (∀ q : Ptr, q.blk ≠ self → q.blk < m.next → m1.read q = m.read q) := by
  have hlen := basic_string.contents_length hxs
  obtain ⟨m1, r, hr, _, hsz, _, hget, hterm, _, hcont, hframe⟩ :=
    substr_spec m s self pos count xs hxs hpos hself hne
  refine ⟨m1, r, hr, ?_, ?_, hterm, hcont, hframe⟩
  · rw [hsz, ← hlen]
    split <;> omega
  · intro i hi
    rw [hget i hi]
    have hin : pos + i < xs.length := by
      rw [hsz] at hi
      split at hi <;> omega
    simp only [basic_string.get]
    rw [basic_string.contents_read hxs _ hin]

/-! ## The theorems of the buffer primitives, the operators and `substr` on the example
data -/

/-- C22 at the buffer `"abcde"` of capacity 13 with `buffer_reserve(b, 20, 1)`, and at the
string `"abcabc"` with `reserve(20)`. -/
theorem reserve_keeps_contents_witness :
    (Example.vec.Owns Example.mem ∧
      Example.vec.contents Example.mem = some [97, 98, 99, 100, 101] ∧
      ([97, 98, 99, 100, 101] : List CChar).length ≤ 20 ∧
      ElemSize.sizeof CChar * (20 + 1) ≤ ptrdiff_max ∧
      ∃ m1 b1, buffer_reserve Example.mem Example.vec 20 1 false = some (m1, b1) ∧
        b1.size = ([97, 98, 99, 100, 101] : List CChar).length ∧
        b1.contents m1 = some [97, 98, 99, 100, 101] ∧
        (20 + 1 ≤ Example.vec.cap → m1 = Example.mem ∧ b1 = Example.vec) ∧
        (Example.vec.cap < 20 + 1 →
          b1.cap = 20 ∧ m1.blockSize b1.first.blk = some (20 + 1))) ∧
    (Example.hay.Valid Example.mem ∧
      Example.hay.contents Example.mem = some [97, 98, 99, 97, 98, 99] ∧
      20 + 1 ≤ ptrdiff_max ∧
      ∃ m1 s1, basic_string.reserve Example.mem Example.hay 20 = some (m1, s1) ∧
        s1.size = ([97, 98, 99, 97, 98, 99] : List CChar).length ∧
        s1.contents m1 = some [97, 98, 99, 97, 98, 99] ∧ 20 ≤ s1.capacity) :=
  ⟨⟨by decide, by decide, by decide, by decide,
      reserve_keeps_contents.1 CChar Example.mem Example.vec [97, 98, 99, 100, 101] 20 1 false
        (by decide) (by decide) (by decide) (by decide)⟩,
    ⟨by decide, by decide, by decide,
      reserve_keeps_contents.2 Example.mem Example.hay [97, 98, 99, 97, 98, 99] 20
        (by decide) (by decide) (by decide)⟩⟩

/-- C23 fails as written for an empty buffer without spare capacity whose pointers are not
null: `buffer_alloc(b, 0)` leaves `first = last = capacity = p` with `p` the start of a
block of no cell; the buffer is empty and its header is ordered, `buffer_shrink_to_fit`
finds `capacity == last` and returns without a change, so the three pointers are still `p`,
not null. -/
theorem shrink_to_fit_keeps_empty_block :
    (buffer_alloc Example.mem 0 (0 : CChar)).map
        (fun r => (r.2, decide (r.2.Owns r.1), decide r.2.Ordered, r.2.size))
      = some (⟨⟨9, 0⟩, ⟨9, 0⟩, ⟨9, 0⟩⟩, true, true, 0) ∧
    ((buffer_alloc Example.mem 0 (0 : CChar)).bind
        (fun r => buffer_shrink_to_fit r.1 r.2 0)).map (fun r => r.2)
      = some ⟨⟨9, 0⟩, ⟨9, 0⟩, ⟨9, 0⟩⟩ ∧
    (⟨9, 0⟩ : Ptr) ≠ nullptr := by
  decide

/-- C23, amended, at the buffer `"abcde"` of capacity 13. -/
theorem shrink_to_fit_cases_witness :
    Example.vec.Owns Example.mem ∧
    Example.vec.contents Example.mem = some [97, 98, 99, 100, 101] ∧
    ∃ m1 b1, buffer_shrink_to_fit Example.mem Example.vec 0 = some (m1, b1) ∧
      (Example.vec.capacity = Example.vec.last → m1 = Example.mem ∧ b1 = Example.vec) ∧
      (Example.vec.last = Example.vec.first → Example.vec.capacity ≠ Example.vec.last →
        b1.first = nullptr ∧ b1.last = nullptr ∧ b1.capacity = nullptr) ∧
      (Example.vec.last ≠ Example.vec.first ∨ Example.vec.capacity = Example.vec.last →
        b1.capacity = b1.last ∧ b1.size = ([97, 98, 99, 100, 101] : List CChar).length ∧
        b1.contents m1 = some [97, 98, 99, 100, 101]) :=
  ⟨by decide, by decide,
    shrink_to_fit_cases Example.mem Example.vec [97, 98, 99, 100, 101] 0 (by decide)
      (by decide)⟩

/-- The three cases of `buffer_shrink_to_fit` on the example data: the buffer `"abcde"` of
capacity 13 moves to a block of 5 cells; the same buffer once cleared gets the null header;
run a second time on the shrunk buffer the function changes nothing. -/
theorem shrink_to_fit_examples :
    (buffer_shrink_to_fit Example.mem Example.vec 0).map
        (fun r => (r.2, r.2.contents r.1, r.1.blockSize 9, r.1.blockSize 7))
      = some (⟨⟨9, 0⟩, ⟨9, 5⟩, ⟨9, 5⟩⟩, some [97, 98, 99, 100, 101], some 5, none) ∧
    (buffer_shrink_to_fit Example.mem (buffer_clear Example.vec) 0).map
        (fun r => (r.2, r.1.blockSize 7))
      = some (⟨nullptr, nullptr, nullptr⟩, none) ∧
    ((buffer_shrink_to_fit Example.mem Example.vec 0).bind
        (fun r => buffer_shrink_to_fit r.1 r.2 0)).map (fun r => r.2)
      = some ⟨⟨9, 0⟩, ⟨9, 5⟩, ⟨9, 5⟩⟩ := by
  decide

/-- C24 at the buffer `"abcde"` of capacity 13, offset 2 and count 3. -/
theorem insert_spread_shifts_tail_witness :
    Example.vec.Owns Example.mem ∧
    Example.vec.contents Example.mem = some [97, 98, 99, 100, 101] ∧
    2 ≤ ([97, 98, 99, 100, 101] : List CChar).length ∧
    3 * (ElemSize.sizeof CChar * (([97, 98, 99, 100, 101] : List CChar).length + 3 + 0))
      ≤ size_max ∧
    ∃ m1 b1, buffer_insert_spread Example.mem Example.vec (Example.vec.first.add 2) 3 0 false
        = some (m1, b1, b1.first.add 2) ∧
      b1.size = ([97, 98, 99, 100, 101] : List CChar).length + 3 ∧
      (∀ i, i < 2 → m1.read (b1.first.add i) = ([97, 98, 99, 100, 101] : List CChar)[i]?) ∧
      (∀ i, 2 ≤ i → i < ([97, 98, 99, 100, 101] : List CChar).length →
        m1.read (b1.first.add (i + 3)) = ([97, 98, 99, 100, 101] : List CChar)[i]?) ∧
      (([97, 98, 99, 100, 101] : List CChar).length + 3 ≤ Example.vec.cap →
        b1.first = Example.vec.first) ∧
      (Example.vec.cap < ([97, 98, 99, 100, 101] : List CChar).length + 3 →
        b1.first = ⟨Example.mem.next, 0⟩) :=
  ⟨by decide, by decide, by decide, by decide,
    insert_spread_shifts_tail Example.mem Example.vec [97, 98, 99, 100, 101] 2 3 0 false
      (by decide) (by decide) (by decide) (by decide)⟩

/-- The function `buffer_insert_spread` without and with a reallocation: 3 cells opened at
offset 2 of `"abcde"` inside the capacity of 13, and 10 cells, which takes a block of
`(15 * 3) / 2 = 22` cells.  The cells of the gap keep what the storage held. -/
theorem insert_spread_examples :
    (buffer_insert_spread Example.mem Example.vec ⟨7, 2⟩ 3 0 false).map
        (fun r => (r.2.1, r.2.2, r.2.1.contents r.1))
      = some (⟨⟨7, 0⟩, ⟨7, 8⟩, ⟨7, 13⟩⟩, ⟨7, 2⟩,
          some [97, 98, 99, 100, 101, 99, 100, 101]) ∧
    (buffer_insert_spread Example.mem Example.vec ⟨7, 2⟩ 10 0 false).map
        (fun r => (r.2.1, r.2.2, r.2.1.contents r.1))
      = some (⟨⟨9, 0⟩, ⟨9, 15⟩, ⟨9, 22⟩⟩, ⟨9, 2⟩,
          some [97, 98, 99, 100, 101, 205, 205, 205, 205, 205, 205, 205, 99, 100, 101]) := by
  decide

/-- C25 at the buffer `"abcde"` of capacity 13: a reservation and a growth that reallocate,
`buffer_resize`, an insertion, an erasure, `buffer_pop` and `buffer_shrink_to_fit`. -/
theorem header_invariant_preserved_witness :
    Example.vec.Owns Example.mem ∧
    (Example.vec.size ≤ 20 ∧ ElemSize.sizeof CChar * (20 + 1) ≤ ptrdiff_max) ∧
    3 * (ElemSize.sizeof CChar * (30 + 0)) ≤ size_max ∧
    ElemSize.sizeof CChar * 40 ≤ ptrdiff_max ∧
    3 * (ElemSize.sizeof CChar * (Example.vec.size + 10 + 0)) ≤ size_max ∧
    ElemSize.sizeof CChar * (Example.vec.size + 0) ≤ ptrdiff_max ∧
    (∃ m1 b1, buffer_reserve Example.mem Example.vec 20 1 false = some (m1, b1) ∧
      b1.Ordered ∧ b1.Owns m1) ∧
    (∃ m1 b1, buffer_grow Example.mem Example.vec 30 0 false = some (m1, b1) ∧
      b1.Ordered ∧ b1.Owns m1) ∧
    (∃ m1 b1, buffer_resize Example.mem Example.vec 40 (0 : CChar) = some (m1, b1) ∧
      b1.Ordered ∧ b1.Owns m1) ∧
    (∃ m1 b1 w, buffer_insert_spread Example.mem Example.vec (Example.vec.first.add 2) 10 0
        false = some (m1, b1, w) ∧
      b1.Ordered ∧ b1.Owns m1) ∧
    (∃ m1 b1 r, buffer_erase Example.mem Example.vec (Example.vec.first.add 1)
        (Example.vec.first.add 3) = some (m1, b1, r) ∧
      b1.Ordered ∧ b1.Owns m1) ∧
    (∃ b1, buffer_pop Example.vec = some b1 ∧ b1.Ordered ∧ b1.Owns Example.mem) ∧
    (∃ m1 b1, buffer_shrink_to_fit Example.mem Example.vec 0 = some (m1, b1) ∧
      b1.Ordered ∧ b1.Owns m1) :=
  ⟨by decide, by decide, by decide, by decide, by decide, by decide,
    (header_invariant_preserved Example.mem Example.vec (by decide)).1 20 1 false (by decide)
      (by decide),
    (header_invariant_preserved Example.mem Example.vec (by decide)).2.1 30 0 false
      (by decide),
    (header_invariant_preserved Example.mem Example.vec (by decide)).2.2.2.1 40 0
      (by decide),
    (header_invariant_preserved Example.mem Example.vec (by decide)).2.2.2.2.1 2 10 0 false
      (by decide) (by decide),
    (header_invariant_preserved Example.mem Example.vec (by decide)).2.2.2.2.2.2.1 1 3
      (by decide) (by decide),
    (header_invariant_preserved Example.mem Example.vec (by decide)).2.2.2.2.2.2.2.2.1
      (by decide),
    (header_invariant_preserved Example.mem Example.vec (by decide)).2.2.2.2.2.2.2.2.2.2.1 0
      (by decide)⟩

/-- C26 at the heap string `"abcdefghijklmn"` of capacity 20. -/
theorem heap_mode_is_kept_witness :
    Example.big.Valid Example.mem ∧ ¬ Example.big.isInline ∧ Example.big.small ≠ nullptr ∧
    (∃ m1 s1, basic_string.clear Example.mem Example.big = some (m1, s1) ∧ ¬ s1.isInline ∧
      s1.size = 0) ∧
    (∃ m1 s1, basic_string.resize Example.mem Example.big 3 = some (m1, s1) ∧
      ¬ s1.isInline ∧ s1.size = 3) ∧
    (∃ m1 s1, basic_string.shrink_to_fit Example.mem Example.big = some (m1, s1) ∧
      ¬ s1.isInline ∧ s1.size = Example.big.size) :=
  ⟨by decide, by decide, by decide,
    (heap_mode_is_kept Example.mem Example.big (by decide) (by decide) (by decide)).1,
    (heap_mode_is_kept Example.mem Example.big (by decide) (by decide) (by decide)).2.2.2.1 3,
    (heap_mode_is_kept Example.mem Example.big (by decide) (by decide)
      (by decide)).2.2.2.2⟩

/-- The heap string `"abcdefghijklmn"` once cleared and shrunk: `buffer_shrink_to_fit`
releases the heap block and leaves three null pointers in the header, which is not the
inline array; the string does not go back to inline mode, and no byte can be read through
`c_str()`. -/
theorem shrink_to_fit_after_clear_example :
    ((basic_string.clear Example.mem Example.big).bind
        (fun r => basic_string.shrink_to_fit r.1 r.2)).map
        (fun r => (r.2.m_buffer, decide r.2.isInline, r.2.size, r.2.get r.1 0))
      = some (⟨nullptr, nullptr, nullptr⟩, false, 0, none) := by
  decide

/-- C27 at `"abc"` against `"abd"`. -/
theorem operators_agree_with_compare_witness :
    Example.abc.contents Example.mem2 = some [97, 98, 99] ∧
    Example.abd.contents Example.mem2 = some [97, 98, 100] ∧
    ∃ e r, operator_eq Example.mem2 Example.abc Example.abd = some e ∧
      basic_string.compare Example.mem2 Example.abc Example.abd = some r ∧
      (e = true ↔ Example.abc.size = Example.abd.size ∧
        ∀ i, i < Example.abc.size → Example.abc.get Example.mem2 i
          = Example.abd.get Example.mem2 i) ∧
      (e = true ↔ r = 0) ∧
      operator_ne Example.mem2 Example.abc Example.abd = some (!e) ∧
      operator_lt Example.mem2 Example.abc Example.abd = some (decide (r < 0)) :=
  ⟨by decide, by decide,
    operators_agree_with_compare Example.mem2 Example.abc Example.abd [97, 98, 99]
      [97, 98, 100] (by decide) (by decide)⟩

/-- The operators on `"abc"`, `"abd"` and `"ab"`. -/
theorem operator_examples :
    operator_eq Example.mem2 Example.abc Example.abc = some true ∧
    operator_eq Example.mem2 Example.abc Example.abd = some false ∧
    operator_eq Example.mem2 Example.ab Example.abc = some false ∧
    operator_ne Example.mem2 Example.abc Example.abd = some true ∧
    operator_ne Example.mem2 Example.abc Example.abc = some false ∧
    operator_lt Example.mem2 Example.abc Example.abd = some true ∧
    operator_lt Example.mem2 Example.ab Example.abc = some true ∧
    operator_lt Example.mem2 Example.abd Example.abc = some false ∧
    operator_lt Example.mem2 Example.abc Example.abc = some false := by
  decide

/-- C28 at `"abcabc"`, position 2 and count 3: the result is `"cab"`. -/
theorem substr_as_implemented_witness :
    Example.hay.contents Example.mem = some [97, 98, 99, 97, 98, 99] ∧
    2 ≤ ([97, 98, 99, 97, 98, 99] : List CChar).length ∧
    Example.mem.blockSize 8 = some c_nbuffer ∧
    Example.hay.m_buffer.first.blk ≠ 8 ∧
    ∃ m1 r, basic_string.substr Example.mem Example.hay 8 2 3 = some (m1, r) ∧
      r.size = min 3 (Example.hay.size - 2) ∧
      (∀ i, i < r.size → r.get m1 i = Example.hay.get Example.mem (2 + i)) ∧
      r.get m1 r.size = some 0 ∧
      Example.hay.contents m1 = some [97, 98, 99, 97, 98, 99] ∧
      (∀ q : Ptr, q.blk ≠ 8 → q.blk < Example.mem.next → m1.read q = Example.mem.read q) :=
  ⟨by decide, by decide, by decide, by decide,
    substr_as_implemented Example.mem Example.hay 8 2 3 [97, 98, 99, 97, 98, 99] (by decide)
      (by decide) (by decide) (by decide)⟩

/-! ## The size arithmetic of the source

The definitions compute sizes over the naturals and allocate cells; the source computes
sizes in the 64-bit `size_t` and hands byte counts `sizeof(T) * n` to the allocator.  The two
agree in the range the theorems about `resize`, `buffer_reserve`, `buffer_grow`,
`buffer_grow_count`, `buffer_resize` and `buffer_insert_spread` ask for, and they part
beyond it. -/

theorem size_t_of_le (n : Nat) (h : n ≤ size_max) : size_t n = n := by
  unfold size_max at h
  unfold size_t
  exact Nat.mod_eq_of_lt (by omega)

theorem ptrdiff_max_le_size_max : ptrdiff_max ≤ size_max := by
  decide

theorem le_mul_sizeof (w n : Nat) (hw : 0 < w) : n ≤ w * n :=
  Nat.le_mul_of_pos_left n hw

/-- A request of `n + p` cells of `w` bytes with at most `ptrdiff_max` bytes: the cell count
of `buffer_reserve` and the byte count `sizeof(T) * (capacity + padding)` of `buffer_realloc`
are exact. -/
theorem reserve_sum_exact (w n p : Nat) (hw : 0 < w) (h : w * (n + p) ≤ ptrdiff_max) :
    size_t (n + p) = n + p ∧ size_t (w * (n + p)) = w * (n + p) := by
  have h1 := le_mul_sizeof w (n + p) hw
  have h2 := ptrdiff_max_le_size_max
  exact ⟨size_t_of_le _ (by omega), size_t_of_le _ (by omega)⟩

/-- A growth to `size` cells of `w` bytes with three times the bytes of `size + p` at most
`size_max`: the product and the new capacity `(size * 3) / 2` of `buffer_grow` are exact, and
the block of `(size * 3) / 2 + p` cells asked for has at most `ptrdiff_max` bytes, a byte
count that is exact too. -/
theorem grow_capacity_exact (w size p : Nat) (hw : 0 < w)
    (h : 3 * (w * (size + p)) ≤ size_max) :
    size_t (size * 3) = size * 3 ∧
    size_t (size * 3) / 2 = (size * 3) / 2 ∧
    w * ((size * 3) / 2 + p) ≤ ptrdiff_max ∧
    size_t (w * ((size * 3) / 2 + p)) = w * ((size * 3) / 2 + p) := by
  have h0 := le_mul_sizeof w (size + p) hw
  have h1 : size * 3 ≤ size_max := by omega
  have h2 : 2 * ((size * 3) / 2 + p) ≤ 3 * (size + p) := by omega
  have h3 : w * (2 * ((size * 3) / 2 + p)) ≤ w * (3 * (size + p)) :=
    Nat.mul_le_mul_left w h2
  have h4 : 2 * (w * ((size * 3) / 2 + p)) ≤ 3 * (w * (size + p)) := by
    rw [Nat.mul_left_comm 2 w, Nat.mul_left_comm 3 w]
    exact h3
  have h5 : w * ((size * 3) / 2 + p) ≤ ptrdiff_max := by
    unfold size_max at h
    unfold ptrdiff_max
    omega
  have h6 := ptrdiff_max_le_size_max
  rw [size_t_of_le _ h1]
  exact ⟨rfl, rfl, h5, size_t_of_le _ (by omega)⟩

/-- An insertion of `c` cells into a buffer of `sz` cells of `w` bytes with three times the
bytes of `sz + c + p` at most `size_max`: the sum `newsize` of `buffer_insert_spread` is
exact, and the growth to it is in the range of `grow_capacity_exact`. -/
theorem insert_newsize_exact (w sz c p : Nat) (hw : 0 < w)
    (h : 3 * (w * (sz + c + p)) ≤ size_max) :
    size_t (sz + c) = sz + c ∧ 3 * (w * ((sz + c) + p)) ≤ size_max := by
  have h0 := le_mul_sizeof w (sz + c + p) hw
  exact ⟨size_t_of_le _ (by omega), h⟩

/-- Beyond the range the `size_t` arithmetic wraps: `npos + 1`, the sum `reserve(npos)`
forms with the padding, is 0, and the capacity `(size * 3) / 2` of a growth to
6148914691236517206 cells comes out as 1. -/
theorem size_t_wraps_beyond :
    size_t (npos + 1) = 0 ∧ size_t (6148914691236517206 * 3) / 2 = 1 ∧
    ¬ (npos + 1 ≤ ptrdiff_max) ∧ ¬ (3 * (6148914691236517206 + 0) ≤ size_max) := by
  decide

end tinystl
